import Mathlib

/-!
# tiny_colls: a shallow embedding of the collider engine

The C++ template parameter `T` (float or double) is modelled by a linearly
ordered field `T` (exact arithmetic).  What the C++ standard library supplies
on floating point numbers and has no exact counterpart in an arbitrary
ordered field is collected in `FloatOps`: `std::cos`, `std::sin`,
`std::sqrt`, `std::isfinite`, `std::numbers::pi_v<T>`,
`std::numeric_limits<T>::max()` and `std::numeric_limits<T>::lowest()`.

A C++ exception is an `Except.error`; reading a `std::vector` outside its
bounds (undefined behaviour) is the error `Error.out_of_bounds`.  When a
method raises, the state it leaves behind is not modelled.
-/

namespace tiny_colls

/-- The ways a call can fail: `std::logic_error`, `std::invalid_argument`,
an access to a vector element that does not exist, and an `assert` that does
not hold. -/
inductive Error where
  | logic_error
  | invalid_argument
  | out_of_bounds
  | assertion_failed
deriving DecidableEq

instance {ε α : Type} [DecidableEq ε] [DecidableEq α] : DecidableEq (Except ε α)
  | .ok a, .ok b => if h : a = b then isTrue (by rw [h]) else isFalse (by
      intro h1; cases h1; exact h rfl)
  | .error a, .error b => if h : a = b then isTrue (by rw [h]) else isFalse (by
      intro h1; cases h1; exact h rfl)
  | .ok _, .error _ => isFalse (by intro h; cases h)
  | .error _, .ok _ => isFalse (by intro h; cases h)

/-- Library functions on the floating point type `T`. -/
structure FloatOps (T : Type) where
  cos : T → T
  sin : T → T
  sqrt : T → T
  isfinite : T → Bool
  pi : T
  max : T
  lowest : T

/-- The element `data[i]` of a vector. -/
def elem_at {α : Type} (data : List α) (i : Nat) : Except Error α :=
  match data[i]? with
  | some a => .ok a
  | none => .error .out_of_bounds

/-! ## details/vec.h, details/proj.h, point.h, aabb.h, collision.h -/

structure vec (T : Type) where
  x : T
  y : T
deriving DecidableEq

structure proj (T : Type) where
  min : T
  max : T
deriving DecidableEq

structure point (T : Type) where
  x : T
  y : T
deriving DecidableEq

structure AABB (T : Type) where
  top : T
  bottom : T
  left : T
  right : T
deriving DecidableEq

structure collision (T : Type) where
  axis_x : T
  axis_y : T
  overlap : T
deriving DecidableEq

section vec_ops

variable {T : Type} [LinearOrderedField T]

def vec.rotate (ops : FloatOps T) (v : vec T) (theta : T) : vec T :=
  ⟨ops.cos theta * v.x - ops.sin theta * v.y,
   ops.sin theta * v.x + ops.cos theta * v.y⟩

def vec.add (v other : vec T) : vec T := ⟨v.x + other.x, v.y + other.y⟩

def vec.scale (v : vec T) (factor : T) : vec T := ⟨v.x * factor, v.y * factor⟩

def vec.sub (v other : vec T) : vec T := ⟨v.x - other.x, v.y - other.y⟩

def vec.neg (v : vec T) : vec T := ⟨-v.x, -v.y⟩

def vec.dot (v other : vec T) : T := v.x * other.x + v.y * other.y

/-- The `operator<` of vec: lexicographic on `(x, y)`. -/
def vec.lt (v w : vec T) : Bool :=
  decide (v.x < w.x) || (decide (v.x = w.x) && decide (v.y < w.y))

def vec.normalize (ops : FloatOps T) (v : vec T) : Except Error (vec T) :=
  let magnitude := ops.sqrt (v.dot v)
  if magnitude = 0 then .error .logic_error
  else .ok ⟨v.x / magnitude, v.y / magnitude⟩

def vec.perp (v : vec T) : vec T := ⟨-v.y, v.x⟩

end vec_ops

/-! ## details/collider_impl.h: `collider<T>::Impl` -/

structure Impl (T : Type) where
  vertices : List (vec T)
  position : vec T
  rotation : T
  t_vertices : List (vec T)
  t_axes : List (vec T)
  t_aabb : AABB T
  dirty : Bool
deriving DecidableEq

structure collider (T : Type) where
  impl : Option (Impl T)
deriving DecidableEq

section impl

variable {T : Type} [LinearOrderedField T]

/-- The body of the loop of `calculate_axes`, run for the indices `i` of the
list given. -/
def calculate_axes_loop (ops : FloatOps T) (vertices : List (vec T)) :
    List Nat → List (vec T) → Except Error (List (vec T))
  | [], axes => .ok axes
  | i :: rest, axes =>
    match elem_at vertices i with
    | .error e => .error e
    | .ok a =>
      match elem_at vertices ((i + 1) % vertices.length) with
      | .error e => .error e
      | .ok b =>
        let edge := b.sub a
        if edge.dot edge < 1 / 10000000 then
          calculate_axes_loop ops vertices rest axes
        else
          match (edge.perp).normalize ops with
          | .error e => .error e
          | .ok n => calculate_axes_loop ops vertices rest (axes ++ [n])

def calculate_axes (ops : FloatOps T) (vertices : List (vec T)) :
    Except Error (List (vec T)) :=
  calculate_axes_loop ops vertices (List.range vertices.length) []

/-- The loop of `Impl::project` over the vertices given, from the running
`min` and `max`. -/
def project_loop (axis : vec T) : List (vec T) → T → T → proj T
  | [], min, max => ⟨min, max⟩
  | v :: rest, min, max =>
    let dot := axis.dot v
    let min1 := if dot < min then dot else min
    let max1 := if dot > max then dot else max
    project_loop axis rest min1 max1

def Impl.project (ops : FloatOps T) (self : Impl T) (axis : vec T) : proj T :=
  project_loop axis self.t_vertices ops.max ops.lowest

def Impl.transform (ops : FloatOps T) (self : Impl T) : Except Error (Impl T) :=
  let t_vertices := self.vertices.map
    (fun v => (v.rotate ops self.rotation).add self.position)
  match calculate_axes ops t_vertices with
  | .error e => .error e
  | .ok t_axes =>
    let s1 : Impl T := { self with t_vertices := t_vertices, t_axes := t_axes }
    let x_aabb := s1.project ops ⟨1, 0⟩
    let y_aabb := s1.project ops ⟨0, 1⟩
    .ok { s1 with
      t_aabb := ⟨y_aabb.max, y_aabb.min, x_aabb.min, x_aabb.max⟩ }

/-- The constructor `Impl(vertices)`: position `(0, 0)`, rotation `0`,
`dirty = false`, and one run of `transform`.  The members `t_aabb`,
`t_vertices` and `t_axes` are overwritten by `transform`. -/
def Impl.new (ops : FloatOps T) (vertices : List (vec T)) : Except Error (Impl T) :=
  Impl.transform ops
    { vertices := vertices, position := ⟨0, 0⟩, rotation := 0,
      t_vertices := [], t_axes := [], t_aabb := ⟨0, 0, 0, 0⟩, dirty := false }

def Impl.get_axes (self : Impl T) : List (vec T) := self.t_axes

def Impl.ensure_transformed (ops : FloatOps T) (self : Impl T) : Except Error (Impl T) :=
  if !self.dirty then .ok self
  else
    match self.transform ops with
    | .error e => .error e
    | .ok s => .ok { s with dirty := false }

end impl

/-! ## details/collider_impl.h: the methods of `collider<T>` -/

section methods

variable {T : Type} [LinearOrderedField T]

/-- The default constructor `collider()`: no `Impl`. -/
def collider.uninitialized : collider T := ⟨none⟩

def collider.set_position (self : collider T) (x y : T) : Except Error (collider T) :=
  match self.impl with
  | none => .error .logic_error
  | some impl => .ok ⟨some { impl with position := ⟨x, y⟩, dirty := true }⟩

def collider.set_rotation (self : collider T) (rotation : T) : Except Error (collider T) :=
  match self.impl with
  | none => .error .logic_error
  | some impl => .ok ⟨some { impl with rotation := rotation, dirty := true }⟩

/-- The method `get_shape`: the collider after the call (its cache may have been
refreshed) and the vector returned. -/
def collider.get_shape (ops : FloatOps T) (self : collider T) :
    Except Error (collider T × List (point T)) :=
  match self.impl with
  | none => .error .logic_error
  | some impl0 =>
    match impl0.ensure_transformed ops with
    | .error e => .error e
    | .ok impl => .ok (⟨some impl⟩, impl.t_vertices.map (fun vert => ⟨vert.x, vert.y⟩))

def collider.get_bounding_box (ops : FloatOps T) (self : collider T) :
    Except Error (collider T × AABB T) :=
  match self.impl with
  | none => .error .logic_error
  | some impl0 =>
    match impl0.ensure_transformed ops with
    | .error e => .error e
    | .ok impl => .ok (⟨some impl⟩, impl.t_aabb)

/-- The loop of `get_raw`: two elements pushed for each vertex. -/
def get_raw_loop : List (vec T) → List T → List T
  | [], raw => raw
  | v :: rest, raw => get_raw_loop rest ((raw ++ [v.x]) ++ [v.y])

def collider.get_raw (self : collider T) : Except Error (List T) :=
  match self.impl with
  | none => .error .logic_error
  | some impl =>
    let raw : List T := []
    let raw := raw ++ [impl.position.x]
    let raw := raw ++ [impl.position.y]
    let raw := raw ++ [impl.rotation]
    .ok (get_raw_loop impl.vertices raw)

/-- The loop of `is_point_in` over the axes given. -/
def is_point_in_loop (ops : FloatOps T) (impl : Impl T) (point : vec T) :
    List (vec T) → Bool
  | [] => true
  | axis :: rest =>
    let this_proj := impl.project ops axis
    let point_d := axis.dot point
    if this_proj.max < point_d ∨ point_d < this_proj.min then false
    else is_point_in_loop ops impl point rest

def collider.is_point_in (ops : FloatOps T) (self : collider T) (x y : T) :
    Except Error (collider T × Bool) :=
  match self.impl with
  | none => .error .logic_error
  | some impl0 =>
    match impl0.ensure_transformed ops with
    | .error e => .error e
    | .ok impl =>
      let axes := impl.get_axes
      let point : vec T := ⟨x, y⟩
      .ok (⟨some impl⟩, is_point_in_loop ops impl point axes)

/-- The signed overlap that the loop of `is_colliding_with` computes on one
axis on which the two projections overlap. -/
def axis_overlap (this_proj other_proj : proj T) : T :=
  let overlap0 := this_proj.max - other_proj.min
  let overlap1 := other_proj.max - this_proj.min
  if overlap0 < overlap1 then overlap0 else -overlap1

/-- The loop of `is_colliding_with` over the axes given, from the running
`smallest_overlap` and `overlap_axis`; `none` is the `return false` inside
the loop. -/
def sat_loop (ops : FloatOps T) (this other : Impl T) :
    List (vec T) → T → vec T → Option (T × vec T)
  | [], smallest_overlap, overlap_axis => some (smallest_overlap, overlap_axis)
  | axis :: rest, smallest_overlap, overlap_axis =>
    let this_proj := this.project ops axis
    let other_proj := other.project ops axis
    if this_proj.max < other_proj.min ∨ other_proj.max < this_proj.min then none
    else
      let overlap := axis_overlap this_proj other_proj
      if |overlap| < |smallest_overlap| then sat_loop ops this other rest overlap axis
      else sat_loop ops this other rest smallest_overlap overlap_axis

/-- The argument `other` of `is_colliding_with`: a reference to the receiver
itself, or to another collider object. -/
inductive other_ref (T : Type) where
  | same
  | distinct (c : collider T)
deriving DecidableEq

/-- What a call of `is_colliding_with` leaves: the receiver, the other
collider (when it is another object), the value returned and `out`. -/
structure colliding_result (T : Type) where
  this : collider T
  other : Option (collider T)
  value : Bool
  out : collision T
deriving DecidableEq

/-- The part of `is_colliding_with` after the identity test, for two distinct
initialized colliders. -/
def is_colliding_with_distinct (ops : FloatOps T) (this_impl0 other_impl0 : Impl T)
    (out : collision T) : Except Error (colliding_result T) :=
  match this_impl0.ensure_transformed ops with
  | .error e => .error e
  | .ok this_impl =>
    match other_impl0.ensure_transformed ops with
    | .error e => .error e
    | .ok other_impl =>
      let axes := this_impl.get_axes
      let other_axes := other_impl.get_axes
      let axes := axes ++ other_axes
      let unchanged : colliding_result T :=
        ⟨⟨some this_impl⟩, some ⟨some other_impl⟩, false, out⟩
      if axes.isEmpty then .ok unchanged
      else
        match sat_loop ops this_impl other_impl axes ops.max ⟨0, 0⟩ with
        | none => .ok unchanged
        | some (smallest_overlap, overlap_axis0) =>
          let delta := this_impl.position.sub other_impl.position
          let overlap_axis :=
            if delta.dot overlap_axis0 < 0 then overlap_axis0.neg else overlap_axis0
          .ok ⟨⟨some this_impl⟩, some ⟨some other_impl⟩, true,
            ⟨overlap_axis.x, overlap_axis.y, smallest_overlap⟩⟩

def collider.is_colliding_with (ops : FloatOps T) (self : collider T)
    (other : other_ref T) (out : collision T) : Except Error (colliding_result T) :=
  match other with
  | .same =>
    match self.impl with
    | none => .error .logic_error
    | some _ => .ok ⟨self, none, false, out⟩
  | .distinct o =>
    match self.impl, o.impl with
    | some this_impl0, some other_impl0 =>
      is_colliding_with_distinct ops this_impl0 other_impl0 out
    | _, _ => .error .logic_error

/-- The private constructor `collider(std::make_unique<Impl>(vertices))`. -/
def collider.of_vertices (ops : FloatOps T) (vertices : List (vec T)) :
    Except Error (collider T) :=
  match Impl.new ops vertices with
  | .error e => .error e
  | .ok impl => .ok ⟨some impl⟩

def collider.rect (ops : FloatOps T) (width height : T) : Except Error (collider T) :=
  let half_width := width / 2
  let half_height := height / 2
  collider.of_vertices ops
    [⟨-half_width, -half_height⟩, ⟨half_width, -half_height⟩,
     ⟨half_width, half_height⟩, ⟨-half_width, half_height⟩]

/-- The value that the static member `ellipse_vertex_count` starts with. -/
def ellipse_vertex_count_default : Int := 16

/-- The static method `set_ellipse_vertex_count` on the value
`ellipse_vertex_count` of the static member: what the call does (returns or
raises) and the value of the member after it. -/
def set_ellipse_vertex_count (count : Int) (ellipse_vertex_count : Int) :
    Except Error Unit × Int :=
  if count < 8 then (.error .invalid_argument, ellipse_vertex_count)
  else (.ok (), max count 8)

/-- The value of `ellipse_vertex_count` after the calls of
`set_ellipse_vertex_count` with the arguments given, in their order, from the
start value: a call that raises is caught and the next one follows. -/
def ellipse_vertex_count_after (counts : List Int) : Int :=
  counts.foldl (fun evc count => (set_ellipse_vertex_count count evc).2)
    ellipse_vertex_count_default

/-- The vertices that the loop of `poly` pushes for `i = 0, ..., N - 1`. -/
def poly_vertices (ops : FloatOps T) (half_width half_height step : T) (N : Int) :
    List (vec T) :=
  (List.range N.toNat).map
    (fun (i : Nat) =>
      ⟨half_width * ops.cos (step * (i : T)), half_height * ops.sin (step * (i : T))⟩)

def collider.poly (ops : FloatOps T) (width height : T) (N : Int) :
    Except Error (collider T) :=
  if N ≤ 2 then .error .invalid_argument
  else
    let step := 2 * ops.pi / (N : T)
    let half_width := width / 2
    let half_height := height / 2
    collider.of_vertices ops (poly_vertices ops half_width half_height step N)

def collider.ellipse (ops : FloatOps T) (ellipse_vertex_count : Int) (a b : T) :
    Except Error (collider T) :=
  collider.poly ops (a * 2) (b * 2) ellipse_vertex_count

def collider.circle (ops : FloatOps T) (ellipse_vertex_count : Int) (radius : T) :
    Except Error (collider T) :=
  collider.ellipse ops ellipse_vertex_count radius radius

/-- The vertices that one of the two loops of `capsule` pushes, for the values
of `i` given. -/
def capsule_arc (ops : FloatOps T) (radius step : T) (cursor : vec T) (is : List Nat) :
    List (vec T) :=
  is.map (fun (i : Nat) =>
    cursor.add ⟨radius * ops.cos (step * (i : T)), radius * ops.sin (step * (i : T))⟩)

def collider.capsule (ops : FloatOps T) (ellipse_vertex_count : Int) (width height : T) :
    Except Error (collider T) :=
  let radius := width / 2
  let step := 2 * ops.pi / (ellipse_vertex_count : T)
  let cursor : vec T := ⟨0, radius - height / 2⟩
  let i_mid := (ellipse_vertex_count.tdiv 2).toNat
  let vertices := capsule_arc ops radius step cursor (List.range i_mid)
  let cursor : vec T := ⟨0, height / 2 - radius⟩
  let vertices := vertices ++
    capsule_arc ops radius step cursor
      (List.range' i_mid (ellipse_vertex_count.toNat - i_mid))
  collider.of_vertices ops vertices

def collider.line (ops : FloatOps T) (length : T) : Except Error (collider T) :=
  collider.rect ops 0 length

/-- The vertices that the inner loop of `rounded_rect` pushes for one corner. -/
def rounded_rect_corner (ops : FloatOps T) (radius_x radius_y step : T) (corner_n : Int)
    (cursor : vec T) (corner_rot : T) : List (vec T) :=
  (List.range corner_n.toNat).map (fun (j : Nat) =>
    cursor.add ⟨radius_x * ops.cos (corner_rot + step * (j : T)),
                radius_y * ops.sin (corner_rot + step * (j : T))⟩)

def collider.rounded_rect (ops : FloatOps T) (ellipse_vertex_count : Int)
    (width height roundness : T) : Except Error (collider T) :=
  if roundness < 0 ∨ roundness > 1 then .error .invalid_argument
  else
    let half_width := width / 2
    let half_height := height / 2
    let radius_x := roundness * half_width
    let radius_y := roundness * half_height
    let corner_n := ellipse_vertex_count.tdiv 4
    if ¬ (corner_n > 1) then .error .assertion_failed
    else
      let step := ops.pi / ((corner_n : T) * 2)
      let corners : List (vec T) :=
        [⟨half_width - radius_x, half_height - radius_y⟩,
         ⟨-half_width + radius_x, half_height - radius_y⟩,
         ⟨-half_width + radius_x, -half_height + radius_y⟩,
         ⟨half_width - radius_x, -half_height + radius_y⟩]
      let corner_rot : List T := [0, ops.pi / 2, ops.pi, 3 * ops.pi / 2]
      let vertices := (List.zip corners corner_rot).flatMap
        (fun cr => rounded_rect_corner ops radius_x radius_y step corner_n cr.1 cr.2)
      collider.of_vertices ops vertices

/-- The lambda `cross` of `from_points`. -/
def from_points_cross (o a b : vec T) : T :=
  (a.x - o.x) * (b.y - o.y) - (a.y - o.y) * (a.x - o.x)

/-- The inner `while (k >= t && cross(hull[k - 2], hull[k - 1], p) <= 0) k--;`
of `from_points`, from the value of `k` given; the value of `k` after it. -/
def hull_pop (hull : List (vec T)) (t : Nat) (p : vec T) : Nat → Except Error Nat
  | 0 => if t = 0 then .error .out_of_bounds else .ok 0
  | k + 1 =>
    if t ≤ k + 1 then
      if k + 1 < 2 then .error .out_of_bounds
      else
        match elem_at hull (k + 1 - 2), elem_at hull (k + 1 - 1) with
        | .ok o, .ok a =>
          if from_points_cross o a p ≤ 0 then hull_pop hull t p k else .ok (k + 1)
        | _, _ => .error .out_of_bounds
    else .ok (k + 1)

/-- One of the two `for` loops of `from_points`, run for the indices `j` of
`vertices` in the order given: pop, then `hull[k++] = vertices[j]`. -/
def hull_scan (vertices : List (vec T)) (t : Nat) :
    List Nat → List (vec T) → Nat → Except Error (List (vec T) × Nat)
  | [], hull, k => .ok (hull, k)
  | j :: rest, hull, k =>
    match elem_at vertices j with
    | .error e => .error e
    | .ok p =>
      match hull_pop hull t p k with
      | .error e => .error e
      | .ok k1 =>
        if k1 < hull.length then hull_scan vertices t rest (hull.set k1 p) (k1 + 1)
        else .error .out_of_bounds

/-- The call `v.resize(n)` of a vector of vec, new elements being `vec()`. -/
def vec_resize (v : List (vec T)) (n : Nat) : List (vec T) :=
  v.take n ++ List.replicate (n - v.length) ⟨0, 0⟩

def collider.from_points (ops : FloatOps T) (points : List (point T)) :
    Except Error (collider T) :=
  let vertices : List (vec T) := points.map (fun p => ⟨p.x, p.y⟩)
  if vertices.length ≤ 3 then collider.of_vertices ops vertices
  else
    let vertices := vertices.insertionSort (fun a b => vec.lt b a = false)
    let hull : List (vec T) := List.replicate (2 * vertices.length) ⟨0, 0⟩
    let k := 0
    match hull_scan vertices 2 (List.range vertices.length) hull k with
    | .error e => .error e
    | .ok (hull, k) =>
      let t := k + 1
      match hull_scan vertices t (List.range (vertices.length - 1)).reverse hull k with
      | .error e => .error e
      | .ok (hull, k) =>
        if k = 0 then .error .out_of_bounds
        else collider.of_vertices ops (vec_resize hull (k - 1))

/-- The loop of `raw` over the indices `i` given: two elements are read for
each. -/
def raw_loop (ops : FloatOps T) (data : List T) :
    List Nat → List (vec T) → Except Error (List (vec T))
  | [], vertices => .ok vertices
  | i :: rest, vertices =>
    match elem_at data i with
    | .error e => .error e
    | .ok d0 =>
      if !ops.isfinite d0 then .error .invalid_argument
      else
        match elem_at data (i + 1) with
        | .error e => .error e
        | .ok d1 =>
          if !ops.isfinite d1 then .error .invalid_argument
          else raw_loop ops data rest (vertices ++ [⟨d0, d1⟩])

/-- The values `3, 5, 7, ...` below `size` that the index `i` of the loop of
`raw` takes. -/
def raw_indices (size : Nat) : List Nat := List.range' 3 ((size - 3 + 1) / 2) 2

def collider.raw (ops : FloatOps T) (data : List T) : Except Error (collider T) :=
  if data.length < 6 then .error .invalid_argument
  else
    match elem_at data 0, elem_at data 1, elem_at data 2 with
    | .ok x, .ok y, .ok rotation =>
      let v_len := (data.length - 3) / 2
      if v_len % 2 ≠ 0 then .error .invalid_argument
      else
        match raw_loop ops data (raw_indices data.length) [] with
        | .error e => .error e
        | .ok vertices =>
          match collider.of_vertices ops vertices with
          | .error e => .error e
          | .ok c =>
            match c.set_position x y with
            | .error e => .error e
            | .ok c1 => c1.set_rotation rotation
    | _, _, _ => .error .out_of_bounds

end methods

/-! ## The state of the cache -/

section cache_state

variable {T : Type} [LinearOrderedField T]

/-- The world vertices of a shape: each local vertex rotated by `rotation`,
then moved by `position`, as the loop of `transform` computes them. -/
def Impl.world_vertices (ops : FloatOps T) (self : Impl T) : List (vec T) :=
  self.vertices.map (fun v => (v.rotate ops self.rotation).add self.position)

/-- The cache is up to date: when `dirty` is false, `t_vertices`, `t_axes` and
`t_aabb` hold what `transform` computes from the vertices and the pose. -/
def Impl.fresh (ops : FloatOps T) (self : Impl T) : Prop :=
  self.dirty = false → self.transform ops = .ok self

/-- The state of `rect(2, 2)` moved to `(x, 0)`, rotation `0`, once its cache
has been refreshed. -/
def square_at (x : T) : Impl T :=
  { vertices := [⟨-1, -1⟩, ⟨1, -1⟩, ⟨1, 1⟩, ⟨-1, 1⟩]
    position := ⟨x, 0⟩
    rotation := 0
    t_vertices := [⟨-1 + x, -1⟩, ⟨1 + x, -1⟩, ⟨1 + x, 1⟩, ⟨-1 + x, 1⟩]
    t_axes := [⟨0, 1⟩, ⟨-1, 0⟩, ⟨0, -1⟩, ⟨1, 0⟩]
    t_aabb := ⟨1, -1, -1 + x, 1 + x⟩
    dirty := false }

/-- The orientation of three points, in which the claims on `from_points` are
stated: the cross product `(a - o) × (b - o)`, positive exactly when `o`, `a`,
`b` make a strict left (counter-clockwise) turn.  It is not the lambda `cross`
of the source, which is `from_points_cross`. -/
def orientation (o a b : vec T) : T :=
  (a.x - o.x) * (b.y - o.y) - (a.y - o.y) * (b.x - o.x)

/-- The degenerate shapes that the claim on degenerate pairs names:
`rect(0, 0)`, `poly(0, 0, N)`, `capsule(0, 0)`, `rounded_rect(0, 0, r)` and
`from_points` of no points, as their constructors return them. -/
def degenerate_shapes (ops : FloatOps T) (ellipse_vertex_count : Int) (N : Int) (r : T) :
    List (Except Error (collider T)) :=
  [collider.rect ops 0 0, collider.poly ops 0 0 N,
   collider.capsule ops ellipse_vertex_count 0 0,
   collider.rounded_rect ops ellipse_vertex_count 0 0 r,
   collider.from_points ops []]

/-- The collider that `c.set_position(x, y).set_rotation(theta)` leaves, for
the result `c` of a constructor. -/
def posed (c : Except Error (collider T)) (x y theta : T) : Except Error (collider T) :=
  (c.bind (fun a => a.set_position x y)).bind (fun a => a.set_rotation theta)

/-- The vector that `normalize` returns when it does not raise. -/
def vec.normalized (ops : FloatOps T) (v : vec T) : vec T :=
  ⟨v.x / ops.sqrt (v.dot v), v.y / ops.sqrt (v.dot v)⟩

/-- The axes that one round of the loop of `calculate_axes` pushes for the
edge from `a` to `b`: none for a short edge, else the normalized perpendicular
(when `normalize` does not raise). -/
def edge_axis (ops : FloatOps T) (a b : vec T) : List (vec T) :=
  if (b.sub a).dot (b.sub a) < 1 / 10000000 then []
  else [((b.sub a).perp).normalized ops]

/-- The axes of a list of vertices, edge after edge: what `calculate_axes`
returns when `normalize` does not raise. -/
def axes_of (ops : FloatOps T) (vertices : List (vec T)) : List (vec T) :=
  (List.range vertices.length).flatMap (fun i =>
    edge_axis ops (vertices.getD i ⟨0, 0⟩)
      (vertices.getD ((i + 1) % vertices.length) ⟨0, 0⟩))

/-- The test in the loop of `is_colliding_with` that ends it with
`return false`: on `axis`, the projections of the world vertices `vs` of this
shape and `ws` of the other shape do not overlap. -/
def separated_on (ops : FloatOps T) (vs ws : List (vec T)) (axis : vec T) : Prop :=
  (project_loop axis vs ops.max ops.lowest).max < (project_loop axis ws ops.max ops.lowest).min
    ∨ (project_loop axis ws ops.max ops.lowest).max
        < (project_loop axis vs ops.max ops.lowest).min

/-- The inner `while` loop of `from_points` seen on the stack that
`hull[0], ..., hull[k - 1]` is, its top `hull[k - 1]` first: the stack pops while it
has at least `t` elements and `cross` of its second element, its top and `p` is
not positive.  (With `t >= 2`, as in the source, a stack of fewer than two
elements is never popped.) -/
def rstack_pop (t : Nat) (p : vec T) : List (vec T) → List (vec T)
  | a :: o :: rest =>
    if t ≤ rest.length + 2 ∧ from_points_cross o a p ≤ 0 then rstack_pop t p (o :: rest)
    else a :: o :: rest
  | rs => rs

/-- One of the two `for` loops of `from_points` seen on the stack: for each
point, in the order given, pop, then push the point. -/
def rstack_scan (t : Nat) : List (vec T) → List (vec T) → List (vec T)
  | [], rs => rs
  | p :: ps, rs => rstack_scan t ps (p :: rstack_pop t p rs)

/-- The stack that the two loops of `from_points` leave for more than three
vertices, its top first: the vertices sorted, the first loop over them from an
empty stack with `t = 2`, the second loop over all but the last of them, from
the last one down, with `t` one more than the height of the stack. -/
def hull_stack (vertices : List (vec T)) : List (vec T) :=
  let sorted := vertices.insertionSort (fun a b => vec.lt b a = false)
  let lower := rstack_scan 2 sorted []
  rstack_scan (lower.length + 1) sorted.dropLast.reverse lower

/-- A call in which a collider takes part: one of its own methods, or
`is_colliding_with` of another initialized collider with this one as the
argument `other`. -/
inductive method_call (T : Type) where
  | set_position (x y : T)
  | set_rotation (rotation : T)
  | get_shape
  | get_bounding_box
  | get_raw
  | is_point_in (x y : T)
  | is_colliding_with_itself (out : collision T)
  | is_colliding_with (other : Impl T) (out : collision T)
  | is_colliding_with_as_other (this : Impl T) (out : collision T)

/-- The collider after one call, as the methods leave it. -/
def collider.after_call (ops : FloatOps T) (self : collider T) :
    method_call T → Except Error (collider T)
  | .set_position x y => self.set_position x y
  | .set_rotation rotation => self.set_rotation rotation
  | .get_shape => (self.get_shape ops).map Prod.fst
  | .get_bounding_box => (self.get_bounding_box ops).map Prod.fst
  | .get_raw => self.get_raw.map (fun _ => self)
  | .is_point_in x y => (self.is_point_in ops x y).map Prod.fst
  | .is_colliding_with_itself out =>
    (self.is_colliding_with ops .same out).map (fun r => r.this)
  | .is_colliding_with other out =>
    (self.is_colliding_with ops (.distinct ⟨some other⟩) out).map (fun r => r.this)
  | .is_colliding_with_as_other this out =>
    ((collider.mk (some this)).is_colliding_with ops (.distinct self) out).map
      (fun r => r.other.getD self)

/-- The collider after the calls given, in their order. -/
def collider.after_calls (ops : FloatOps T) (self : collider T) :
    List (method_call T) → Except Error (collider T)
  | [] => .ok self
  | call :: rest =>
    match self.after_call ops call with
    | .error e => .error e
    | .ok s => s.after_calls ops rest

/-- The pose after a call, as the specification tracks it: `set_position` and
`set_rotation` replace their part of the pose, every other call leaves it. -/
def eager_pose (pose : vec T × T) : method_call T → vec T × T
  | .set_position x y => (⟨x, y⟩, pose.2)
  | .set_rotation rotation => (pose.1, rotation)
  | _ => pose

/-- The shape that an eager recomputation gives, in the words of the
specification: each local vertex, in the order of the list, rotated by the
rotation and then moved by the position. -/
def eager_shape (ops : FloatOps T) (vertices : List (vec T)) (pose : vec T × T) :
    List (point T) :=
  vertices.map (fun v =>
    ⟨(v.rotate ops pose.2).x + pose.1.x, (v.rotate ops pose.2).y + pose.1.y⟩)

/-- The colliders that the generators return for the dimensions `w`, `h`, the
vertex count `N`, the roundness `r` and the points given. -/
def generated_shapes (ops : FloatOps T) (ellipse_vertex_count : Int) (N : Int)
    (w h r : T) (points : List (point T)) : List (Except Error (collider T)) :=
  [collider.rect ops w h, collider.poly ops w h N,
   collider.ellipse ops ellipse_vertex_count w h,
   collider.circle ops ellipse_vertex_count w,
   collider.capsule ops ellipse_vertex_count w h, collider.line ops w,
   collider.rounded_rect ops ellipse_vertex_count w h r,
   collider.from_points ops points]

/-- The signed overlap that the loop of `is_colliding_with` computes on `axis`
from the projections of the world vertices `vs` of this shape and `ws` of the
other shape. -/
def overlap_on (ops : FloatOps T) (vs ws : List (vec T)) (axis : vec T) : T :=
  axis_overlap (project_loop axis vs ops.max ops.lowest)
    (project_loop axis ws ops.max ops.lowest)

/-- The point `p` is a convex combination of the points `vs`: there are
weights, one for each point, none negative, of sum one, with `p` the weighted
sum of the points. -/
def in_hull (vs : List (vec T)) (p : vec T) : Prop :=
  ∃ weights : List T, weights.length = vs.length ∧ (∀ w ∈ weights, 0 ≤ w)
    ∧ weights.sum = 1
    ∧ p.x = (List.zipWith (fun w (v : vec T) => w * v.x) weights vs).sum
    ∧ p.y = (List.zipWith (fun w (v : vec T) => w * v.y) weights vs).sum

/-- The state of the collider of `test_raw_save_and_load`, right after
`rect(5, 2).set_position(5, 3).set_rotation(2)`: the cache is the one of the
construction and is marked dirty. -/
def test_rect_state : Impl ℚ :=
  { vertices := [⟨-5 / 2, -1⟩, ⟨5 / 2, -1⟩, ⟨5 / 2, 1⟩, ⟨-5 / 2, 1⟩]
    position := ⟨5, 3⟩
    rotation := 2
    t_vertices := [⟨-5 / 2, -1⟩, ⟨5 / 2, -1⟩, ⟨5 / 2, 1⟩, ⟨-5 / 2, 1⟩]
    t_axes := [⟨0, 1⟩, ⟨-1, 0⟩, ⟨0, -1⟩, ⟨1, 0⟩]
    t_aabb := ⟨1, -1, -5 / 2, 5 / 2⟩
    dirty := true }

end cache_state

/-- The library functions given by `cos`, `sin`, `sqrt`, `pi` and `max`, with
every number finite and `lowest = -max`. -/
def float_ops_of {T : Type} [LinearOrderedField T] (cos sin sqrt : T → T) (pi max : T) :
    FloatOps T :=
  { cos := cos, sin := sin, sqrt := sqrt, isfinite := fun _ => true,
    pi := pi, max := max, lowest := -max }

/-! ## A concrete instance: rational numbers

The functions of `FloatOps` on `ℚ`, for evaluating the definitions above on
concrete inputs: `cos` and `sin` are Taylor polynomials (exact at `0`), and
`sqrt` is the integer square root of `num * den` over `den` (exact on the
square of a rational number). -/

section rational

/-- Newton iteration for the integer square root of `n`. -/
def isqrt_iter (n : Nat) : Nat → Nat → Nat
  | 0, guess => guess
  | fuel + 1, guess =>
    let next := (guess + n / guess) / 2
    if next < guess then isqrt_iter n fuel next else guess

def isqrt (n : Nat) : Nat := if n ≤ 1 then n else isqrt_iter n n n

def rat_sqrt (q : ℚ) : ℚ := (isqrt (q.num.toNat * q.den) : ℚ) / (q.den : ℚ)

def rat_cos (t : ℚ) : ℚ := 1 - t ^ 2 / 2 + t ^ 4 / 24 - t ^ 6 / 720

def rat_sin (t : ℚ) : ℚ := t - t ^ 3 / 6 + t ^ 5 / 120 - t ^ 7 / 5040

/-- The largest finite value of `float`, `(2 ^ 24 - 1) * 2 ^ 104`. -/
def flt_max : ℚ := 340282346638528859811704183484516925440

def rat_ops : FloatOps ℚ where
  cos := rat_cos
  sin := rat_sin
  sqrt := rat_sqrt
  isfinite := fun _ => true
  pi := 355 / 113
  max := flt_max
  lowest := -flt_max

end rational

/-! ## Floating point arithmetic

The type `float` or `double` of the source as IEEE 754 defines it: every
operation returns its exact result rounded to the nearest value of the format
(to the even one of two nearest values), with overflow to an infinity and NaN.
The definitions of the source are given a second time over this arithmetic, in
the namespace `ieee`, for evaluating the code where rounding or overflow
decides what it does. -/

section floating_point

/-- The number of binary digits of `n`, counted by halving at most `fuel`
times. -/
def bit_count : Nat → Nat → Nat
  | 0, _ => 0
  | fuel + 1, n => if n = 0 then 0 else bit_count fuel (n / 2) + 1

/-- The number of binary digits of `n`. -/
def bit_length (n : Nat) : Nat := bit_count n n

/-- The integer `e` with `2 ^ e ≤ q < 2 ^ (e + 1)`, for a positive rational
number `q`: the difference of the bit lengths of numerator and denominator, or
one less. -/
def floor_log2 (q : ℚ) : Int :=
  let guess : Int := (bit_length q.num.natAbs : Int) - (bit_length q.den : Int)
  if q.num.natAbs * 2 ^ (-guess).toNat < q.den * 2 ^ guess.toNat then guess - 1 else guess

/-- The power `2 ^ e` for an integer `e`. -/
def pow2 (e : Int) : ℚ :=
  if 0 ≤ e then ((2 ^ e.toNat : Nat) : ℚ) else 1 / ((2 ^ (-e).toNat : Nat) : ℚ)

/-- The integer nearest to `m`, the even one of the two when `m` lies half way
between two integers. -/
def round_half_even (m : ℚ) : Int :=
  let f : Int := m.num / (m.den : Int)
  let rest : ℚ := m - (f : ℚ)
  if rest < 1 / 2 then f
  else if 1 / 2 < rest then f + 1
  else if f % 2 = 0 then f else f + 1

/-- A value of the binary floating point format with `prec` significant bits
and the largest exponent `emax` (`float` is `fp 24 127`, `double` is
`fp 53 1023`): a finite number, kept as the rational number it stands for, an
infinity, or a NaN.  The sign of a zero is not kept: the comparisons of the
source do not tell `-0` from `0`, and the source divides by no zero. -/
inductive fp (prec emax : Nat) where
  | fin (q : ℚ)
  | inf (negative : Bool)
  | nan
deriving DecidableEq

namespace fp

variable {prec emax : Nat}

/-- The value of the format nearest to the rational number `q` (round to
nearest, ties to even): `q` is rounded to a multiple of the quantum
`2 ^ (e - (prec - 1))`, where `e` is the exponent of `q` and at least the
smallest exponent `1 - emax` (below it the values are subnormal); a result of
magnitude `2 ^ (emax + 1)` or more overflows to an infinity. -/
def round (q : ℚ) : fp prec emax :=
  if q = 0 then fin 0
  else
    let e := floor_log2 |q|
    let emin : Int := 1 - (emax : Int)
    let quantum := pow2 (max e emin - ((prec : Int) - 1))
    let r : ℚ := (round_half_even (q / quantum) : ℚ) * quantum
    if pow2 ((emax : Int) + 1) ≤ |r| then inf (decide (q < 0)) else fin r

def add : fp prec emax → fp prec emax → fp prec emax
  | fin a, fin b => round (a + b)
  | fin _, inf s => inf s
  | inf s, fin _ => inf s
  | inf s, inf t => if s = t then inf s else nan
  | _, _ => nan

def neg : fp prec emax → fp prec emax
  | fin a => fin (-a)
  | inf s => inf (!s)
  | nan => nan

def sub (a b : fp prec emax) : fp prec emax := add a (neg b)

def mul : fp prec emax → fp prec emax → fp prec emax
  | fin a, fin b => round (a * b)
  | fin a, inf s => if a = 0 then nan else inf (xor (decide (a < 0)) s)
  | inf s, fin b => if b = 0 then nan else inf (xor s (decide (b < 0)))
  | inf s, inf t => inf (xor s t)
  | _, _ => nan

/-- Division.  A division of a number that is not zero by zero gives an
infinity whose sign depends on the sign of the zero, which is not kept: the
zero is taken as positive (the source divides by no zero). -/
def div : fp prec emax → fp prec emax → fp prec emax
  | fin a, fin b =>
    if b = 0 then (if a = 0 then nan else inf (decide (a < 0))) else round (a / b)
  | fin _, inf _ => fin 0
  | inf s, fin b => inf (xor s (decide (b < 0)))
  | _, _ => nan

/-- The comparison `<`: false when an operand is a NaN. -/
def lt : fp prec emax → fp prec emax → Bool
  | fin a, fin b => decide (a < b)
  | fin _, inf s => !s
  | inf s, fin _ => s
  | inf s, inf t => s && !t
  | _, _ => false

/-- The comparison `<=`: false when an operand is a NaN. -/
def le : fp prec emax → fp prec emax → Bool
  | fin a, fin b => decide (a ≤ b)
  | fin _, inf s => !s
  | inf s, fin _ => s
  | inf s, inf t => s || !t
  | _, _ => false

/-- The comparison `==`: false when an operand is a NaN. -/
def eq : fp prec emax → fp prec emax → Bool
  | fin a, fin b => decide (a = b)
  | inf s, inf t => decide (s = t)
  | _, _ => false

/-- The function `std::abs`. -/
def abs : fp prec emax → fp prec emax
  | fin a => fin |a|
  | inf _ => inf false
  | nan => nan

/-- The function `std::sqrt`, correctly rounded.  For `a > 0` the integer `s`
is the integer square root of `a * 4 ^ k`, with `k` so large that `s` has more
than `prec + 1` digits: when `s * s = a * 4 ^ k` the root is `s / 2 ^ k`, otherwise
it lies strictly between `s / 2 ^ k` and `(s + 1) / 2 ^ k`, where no value of the
format and no middle of two values lies, and rounds as the middle
`(2 * s + 1) / 2 ^ (k + 1)` does. -/
def sqrt : fp prec emax → fp prec emax
  | fin a =>
    if a < 0 then nan
    else if a = 0 then fin 0
    else
      let k : Nat := prec + 2 + (-(floor_log2 a)).toNat
      let scaled : ℚ := a * ((4 ^ k : Nat) : ℚ)
      let n : Nat := (scaled.num / (scaled.den : Int)).toNat
      let s := isqrt n
      if s * s = n ∧ scaled.den = 1 then round ((s : ℚ) / ((2 ^ k : Nat) : ℚ))
      else round (((2 * s + 1 : Nat) : ℚ) / ((2 ^ (k + 1) : Nat) : ℚ))
  | inf s => if s then nan else inf false
  | nan => nan

/-- The function `std::cos`: exact at `0`, which is the only argument that the
evaluations below pass; elsewhere the rounded value of a polynomial. -/
def cos : fp prec emax → fp prec emax
  | fin a => if a = 0 then fin 1 else round (rat_cos a)
  | _ => nan

/-- The function `std::sin`: exact at `0`, which is the only argument that the
evaluations below pass; elsewhere the rounded value of a polynomial. -/
def sin : fp prec emax → fp prec emax
  | fin a => if a = 0 then fin 0 else round (rat_sin a)
  | _ => nan

/-- The value `std::numeric_limits<T>::max()`. -/
def max_value : fp prec emax :=
  fin ((2 - pow2 (1 - (prec : Int))) * pow2 (emax : Int))

/-- The value `std::numeric_limits<T>::lowest()`. -/
def lowest_value : fp prec emax := neg max_value

/-- The conversion to `double`, which changes no value of `float` or
`double`. -/
def to_double : fp prec emax → fp 53 1023
  | fin a => fin a
  | inf s => inf s
  | nan => nan

instance : Add (fp prec emax) := ⟨add⟩
instance : Sub (fp prec emax) := ⟨sub⟩
instance : Mul (fp prec emax) := ⟨mul⟩
instance : Div (fp prec emax) := ⟨div⟩
instance : Neg (fp prec emax) := ⟨neg⟩
instance : LT (fp prec emax) := ⟨fun a b => lt a b = true⟩
instance : LE (fp prec emax) := ⟨fun a b => le a b = true⟩
instance (a b : fp prec emax) : Decidable (a < b) :=
  if h : lt a b = true then isTrue h else isFalse h
instance (a b : fp prec emax) : Decidable (a ≤ b) :=
  if h : le a b = true then isTrue h else isFalse h
instance (n : Nat) : OfNat (fp prec emax) n := ⟨round (n : ℚ)⟩

end fp

end floating_point

/-! ## The source over floating point arithmetic -/

namespace ieee

variable {prec emax : Nat}

def rotate (v : vec (fp prec emax)) (theta : fp prec emax) : vec (fp prec emax) :=
  ⟨fp.cos theta * v.x - fp.sin theta * v.y,
   fp.sin theta * v.x + fp.cos theta * v.y⟩

def add (v other : vec (fp prec emax)) : vec (fp prec emax) :=
  ⟨v.x + other.x, v.y + other.y⟩

def sub (v other : vec (fp prec emax)) : vec (fp prec emax) :=
  ⟨v.x - other.x, v.y - other.y⟩

def neg (v : vec (fp prec emax)) : vec (fp prec emax) := ⟨-v.x, -v.y⟩

def dot (v other : vec (fp prec emax)) : fp prec emax := v.x * other.x + v.y * other.y

/-- The `operator<` of vec. -/
def vec_lt (v w : vec (fp prec emax)) : Bool :=
  decide (v.x < w.x) || (fp.eq v.x w.x && decide (v.y < w.y))

def normalize (v : vec (fp prec emax)) : Except Error (vec (fp prec emax)) :=
  let magnitude := fp.sqrt (dot v v)
  if fp.eq magnitude 0 = true then .error .logic_error
  else .ok ⟨v.x / magnitude, v.y / magnitude⟩

def perp (v : vec (fp prec emax)) : vec (fp prec emax) := ⟨-v.y, v.x⟩

/-- The body of the loop of `calculate_axes`, run for the indices `i` of the
list given.  The test `edge.dot(edge) < 1e-7` is made in `double`, against the
`double` nearest to `1e-7`. -/
def calculate_axes_loop (vertices : List (vec (fp prec emax))) :
    List Nat → List (vec (fp prec emax)) → Except Error (List (vec (fp prec emax)))
  | [], axes => .ok axes
  | i :: rest, axes =>
    match elem_at vertices i with
    | .error e => .error e
    | .ok a =>
      match elem_at vertices ((i + 1) % vertices.length) with
      | .error e => .error e
      | .ok b =>
        let edge := sub b a
        if fp.to_double (dot edge edge) < (fp.round (1 / 10000000) : fp 53 1023) then
          calculate_axes_loop vertices rest axes
        else
          match normalize (perp edge) with
          | .error e => .error e
          | .ok n => calculate_axes_loop vertices rest (axes ++ [n])

def calculate_axes (vertices : List (vec (fp prec emax))) :
    Except Error (List (vec (fp prec emax))) :=
  calculate_axes_loop vertices (List.range vertices.length) []

/-- The loop of `Impl::project` over the vertices given, from the running
`min` and `max`. -/
def project_loop (axis : vec (fp prec emax)) :
    List (vec (fp prec emax)) → fp prec emax → fp prec emax → proj (fp prec emax)
  | [], min, max => ⟨min, max⟩
  | v :: rest, min, max =>
    let d := dot axis v
    let min1 := if d < min then d else min
    let max1 := if d > max then d else max
    project_loop axis rest min1 max1

def project (self : Impl (fp prec emax)) (axis : vec (fp prec emax)) : proj (fp prec emax) :=
  project_loop axis self.t_vertices fp.max_value fp.lowest_value

def transform (self : Impl (fp prec emax)) : Except Error (Impl (fp prec emax)) :=
  let t_vertices := self.vertices.map (fun v => add (rotate v self.rotation) self.position)
  match calculate_axes t_vertices with
  | .error e => .error e
  | .ok t_axes =>
    let s1 : Impl (fp prec emax) := { self with t_vertices := t_vertices, t_axes := t_axes }
    let x_aabb := project s1 ⟨1, 0⟩
    let y_aabb := project s1 ⟨0, 1⟩
    .ok { s1 with t_aabb := ⟨y_aabb.max, y_aabb.min, x_aabb.min, x_aabb.max⟩ }

/-- The constructor `Impl(vertices)`. -/
def new_impl (vertices : List (vec (fp prec emax))) : Except Error (Impl (fp prec emax)) :=
  transform
    { vertices := vertices, position := ⟨0, 0⟩, rotation := 0,
      t_vertices := [], t_axes := [], t_aabb := ⟨0, 0, 0, 0⟩, dirty := false }

def ensure_transformed (self : Impl (fp prec emax)) : Except Error (Impl (fp prec emax)) :=
  if !self.dirty then .ok self
  else
    match transform self with
    | .error e => .error e
    | .ok s => .ok { s with dirty := false }

def get_shape (self : collider (fp prec emax)) :
    Except Error (collider (fp prec emax) × List (point (fp prec emax))) :=
  match self.impl with
  | none => .error .logic_error
  | some impl0 =>
    match ensure_transformed impl0 with
    | .error e => .error e
    | .ok impl => .ok (⟨some impl⟩, impl.t_vertices.map (fun vert => ⟨vert.x, vert.y⟩))

def get_bounding_box (self : collider (fp prec emax)) :
    Except Error (collider (fp prec emax) × AABB (fp prec emax)) :=
  match self.impl with
  | none => .error .logic_error
  | some impl0 =>
    match ensure_transformed impl0 with
    | .error e => .error e
    | .ok impl => .ok (⟨some impl⟩, impl.t_aabb)

/-- The loop of `is_point_in` over the axes given. -/
def is_point_in_loop (impl : Impl (fp prec emax)) (point : vec (fp prec emax)) :
    List (vec (fp prec emax)) → Bool
  | [] => true
  | axis :: rest =>
    let this_proj := project impl axis
    let point_d := dot axis point
    if this_proj.max < point_d ∨ point_d < this_proj.min then false
    else is_point_in_loop impl point rest

def is_point_in (self : collider (fp prec emax)) (x y : fp prec emax) :
    Except Error (collider (fp prec emax) × Bool) :=
  match self.impl with
  | none => .error .logic_error
  | some impl0 =>
    match ensure_transformed impl0 with
    | .error e => .error e
    | .ok impl =>
      let axes := impl.get_axes
      let point : vec (fp prec emax) := ⟨x, y⟩
      .ok (⟨some impl⟩, is_point_in_loop impl point axes)

/-- The loop of `is_colliding_with` over the axes given, from the running
`smallest_overlap` and `overlap_axis`; `none` is the `return false` inside
the loop. -/
def sat_loop (this other : Impl (fp prec emax)) :
    List (vec (fp prec emax)) → fp prec emax → vec (fp prec emax) →
      Option (fp prec emax × vec (fp prec emax))
  | [], smallest_overlap, overlap_axis => some (smallest_overlap, overlap_axis)
  | axis :: rest, smallest_overlap, overlap_axis =>
    let this_proj := project this axis
    let other_proj := project other axis
    if this_proj.max < other_proj.min ∨ other_proj.max < this_proj.min then none
    else
      let overlap0 := this_proj.max - other_proj.min
      let overlap1 := other_proj.max - this_proj.min
      let overlap := if overlap0 < overlap1 then overlap0 else -overlap1
      if fp.abs overlap < fp.abs smallest_overlap then sat_loop this other rest overlap axis
      else sat_loop this other rest smallest_overlap overlap_axis

/-- The method `is_colliding_with` with another collider object as the
argument. -/
def is_colliding_with (self other : collider (fp prec emax)) (out : collision (fp prec emax)) :
    Except Error (colliding_result (fp prec emax)) :=
  match self.impl, other.impl with
  | some this_impl0, some other_impl0 =>
    match ensure_transformed this_impl0 with
    | .error e => .error e
    | .ok this_impl =>
      match ensure_transformed other_impl0 with
      | .error e => .error e
      | .ok other_impl =>
        let axes := this_impl.get_axes
        let other_axes := other_impl.get_axes
        let axes := axes ++ other_axes
        let unchanged : colliding_result (fp prec emax) :=
          ⟨⟨some this_impl⟩, some ⟨some other_impl⟩, false, out⟩
        if axes.isEmpty then .ok unchanged
        else
          match sat_loop this_impl other_impl axes fp.max_value ⟨0, 0⟩ with
          | none => .ok unchanged
          | some (smallest_overlap, overlap_axis0) =>
            let delta := sub this_impl.position other_impl.position
            let overlap_axis :=
              if dot delta overlap_axis0 < 0 then neg overlap_axis0 else overlap_axis0
            .ok ⟨⟨some this_impl⟩, some ⟨some other_impl⟩, true,
              ⟨overlap_axis.x, overlap_axis.y, smallest_overlap⟩⟩
  | _, _ => .error .logic_error

/-- The private constructor `collider(std::make_unique<Impl>(vertices))`. -/
def of_vertices (vertices : List (vec (fp prec emax))) : Except Error (collider (fp prec emax)) :=
  match new_impl vertices with
  | .error e => .error e
  | .ok impl => .ok ⟨some impl⟩

def rect (width height : fp prec emax) : Except Error (collider (fp prec emax)) :=
  let half_width := width / 2
  let half_height := height / 2
  of_vertices
    [⟨-half_width, -half_height⟩, ⟨half_width, -half_height⟩,
     ⟨half_width, half_height⟩, ⟨-half_width, half_height⟩]

/-- The lambda `cross` of `from_points`. -/
def from_points_cross (o a b : vec (fp prec emax)) : fp prec emax :=
  (a.x - o.x) * (b.y - o.y) - (a.y - o.y) * (a.x - o.x)

/-- The inner `while` loop of `from_points`, from the value of `k` given; the
value of `k` after it. -/
def hull_pop (hull : List (vec (fp prec emax))) (t : Nat) (p : vec (fp prec emax)) :
    Nat → Except Error Nat
  | 0 => if t = 0 then .error .out_of_bounds else .ok 0
  | k + 1 =>
    if t ≤ k + 1 then
      if k + 1 < 2 then .error .out_of_bounds
      else
        match elem_at hull (k + 1 - 2), elem_at hull (k + 1 - 1) with
        | .ok o, .ok a =>
          if from_points_cross o a p ≤ 0 then hull_pop hull t p k else .ok (k + 1)
        | _, _ => .error .out_of_bounds
    else .ok (k + 1)

/-- One of the two `for` loops of `from_points`, run for the indices `j` of
`vertices` in the order given: pop, then `hull[k++] = vertices[j]`. -/
def hull_scan (vertices : List (vec (fp prec emax))) (t : Nat) :
    List Nat → List (vec (fp prec emax)) → Nat →
      Except Error (List (vec (fp prec emax)) × Nat)
  | [], hull, k => .ok (hull, k)
  | j :: rest, hull, k =>
    match elem_at vertices j with
    | .error e => .error e
    | .ok p =>
      match hull_pop hull t p k with
      | .error e => .error e
      | .ok k1 =>
        if k1 < hull.length then hull_scan vertices t rest (hull.set k1 p) (k1 + 1)
        else .error .out_of_bounds

/-- The call `v.resize(n)` of a vector of vec, new elements being `vec()`. -/
def vec_resize (v : List (vec (fp prec emax))) (n : Nat) : List (vec (fp prec emax)) :=
  v.take n ++ List.replicate (n - v.length) ⟨0, 0⟩

def from_points (points : List (point (fp prec emax))) :
    Except Error (collider (fp prec emax)) :=
  let vertices : List (vec (fp prec emax)) := points.map (fun p => ⟨p.x, p.y⟩)
  if vertices.length ≤ 3 then of_vertices vertices
  else
    let vertices := vertices.insertionSort (fun a b => vec_lt b a = false)
    let hull : List (vec (fp prec emax)) := List.replicate (2 * vertices.length) ⟨0, 0⟩
    let k := 0
    match hull_scan vertices 2 (List.range vertices.length) hull k with
    | .error e => .error e
    | .ok (hull, k) =>
      let t := k + 1
      match hull_scan vertices t (List.range (vertices.length - 1)).reverse hull k with
      | .error e => .error e
      | .ok (hull, k) =>
        if k = 0 then .error .out_of_bounds
        else of_vertices (vec_resize hull (k - 1))

end ieee

/-! ## Serialisation: `get_raw` -/

section raw_layout

variable {T : Type}

theorem get_raw_loop_eq (vs : List (vec T)) (raw : List T) :
    get_raw_loop vs raw = raw ++ (vs.map (fun v => [v.x, v.y])).flatten := by
  induction vs generalizing raw with
  | nil => simp [get_raw_loop]
  | cons v rest ih => simp [get_raw_loop, ih]

theorem length_flatten_pairs (vs : List (vec T)) :
    ((vs.map (fun v => [v.x, v.y])).flatten).length = 2 * vs.length := by
  induction vs with
  | nil => simp
  | cons v rest ih =>
    rw [List.map_cons, List.flatten_cons, List.length_append, ih]
    simp; omega

theorem get_raw_eq (impl : Impl T) :
    (collider.mk (some impl)).get_raw
      = .ok (impl.position.x :: impl.position.y :: impl.rotation ::
          (impl.vertices.map (fun v => [v.x, v.y])).flatten) := by
  simp [collider.get_raw, get_raw_loop_eq]

/-- C3: on an initialized collider `get_raw` returns
`[position.x, position.y, rotation, v0.x, v0.y, ..., v(n-1).x, v(n-1).y]`,
of length `3 + 2n`, from the local vertices in their order, whatever the pose
and the state of the cache (`t_vertices`, `t_axes`, `t_aabb`, `dirty`). -/
theorem get_raw_layout (impl : Impl T) :
    (collider.mk (some impl)).get_raw
        = .ok (impl.position.x :: impl.position.y :: impl.rotation ::
            (impl.vertices.map (fun v => [v.x, v.y])).flatten)
      ∧ (impl.position.x :: impl.position.y :: impl.rotation ::
            (impl.vertices.map (fun v => [v.x, v.y])).flatten).length
          = 3 + 2 * impl.vertices.length := by
  constructor
  · exact get_raw_eq impl
  · simp only [List.length_cons, length_flatten_pairs]; omega

end raw_layout

/-! ## Uninitialized colliders and self collision -/

section uninitialized

variable {T : Type} [LinearOrderedField T]

/-- C9: on a default-constructed collider each of `get_shape`,
`get_bounding_box`, `get_raw`, `is_point_in`, `set_position` and
`set_rotation` raises, and `is_colliding_with` raises when the receiver or
the other, distinct collider is default-constructed. -/
theorem uninitialized_rejected (ops : FloatOps T) (x y theta : T) (c : collider T)
    (out : collision T) :
    (collider.uninitialized : collider T).get_shape ops = .error .logic_error
    ∧ (collider.uninitialized : collider T).get_bounding_box ops = .error .logic_error
    ∧ (collider.uninitialized : collider T).get_raw = .error .logic_error
    ∧ (collider.uninitialized : collider T).is_point_in ops x y = .error .logic_error
    ∧ (collider.uninitialized : collider T).set_position x y = .error .logic_error
    ∧ (collider.uninitialized : collider T).set_rotation theta = .error .logic_error
    ∧ (collider.uninitialized : collider T).is_colliding_with ops (.distinct c) out
        = .error .logic_error
    ∧ c.is_colliding_with ops (.distinct collider.uninitialized) out
        = .error .logic_error := by
  refine ⟨rfl, rfl, rfl, rfl, rfl, rfl, rfl, ?_⟩
  rcases c with ⟨_ | i⟩ <;> rfl

/-- C8, as the claim states it, fails: a default-constructed collider tested
against itself raises. -/
theorem self_collision_uninitialized_raises :
    (collider.uninitialized : collider ℚ).is_colliding_with rat_ops .same ⟨0, 0, 0⟩
      = .error .logic_error := rfl

/-- C8, amended: an initialized collider tested against itself returns false,
does not raise and leaves `out` and the collider as they were; a
default-constructed collider tested against itself raises. -/
theorem self_collision (ops : FloatOps T) (impl : Impl T) (out : collision T) :
    (collider.mk (some impl)).is_colliding_with ops .same out
        = .ok ⟨collider.mk (some impl), none, false, out⟩
      ∧ (collider.uninitialized : collider T).is_colliding_with ops .same out
        = .error .logic_error :=
  ⟨rfl, rfl⟩

end uninitialized

/-! ## Evaluations on concrete inputs -/

section evaluations

/-- C2, at a failing input: the eight elements `[0, 0, 0, 1, 2, 3, 4, 5]`
(a vertex portion of odd length 5, every element finite) pass both checks of
`raw`, whose loop then reads `data[8]`, an element outside `data`. -/
theorem raw_odd_portion_reads_outside :
    collider.raw rat_ops [0, 0, 0, 1, 2, 3, 4, 5] = .error .out_of_bounds := by
  rfl

/-- C10, at a failing input: `rect(0, 0)` has no separating axis, and
`is_point_in(100, 100)` returns true on it. -/
theorem degenerate_rect_contains_far_point :
    (collider.rect rat_ops 0 0).toOption.map (fun c => c.impl.map Impl.get_axes)
        = some (some [])
      ∧ ((collider.rect rat_ops 0 0).bind
          (fun c => c.is_point_in rat_ops 100 100)).toOption.map Prod.snd
        = some true := by
  decide!

/-- C5, at the input of the claim: `rect(20, 10)` at `(0, 0)` against
`rect(20, 10)` at `(15, 0)`, both with rotation `0`, returns true and writes
the axis `(-1, 0)` and the overlap `-5`. -/
theorem mta_rectangles_overlap_negative :
    ((((collider.rect rat_ops 20 10).bind (fun c => c.set_position 0 0)).bind
        (fun c => c.set_rotation 0)).bind
      (fun a =>
        ((((collider.rect rat_ops 20 10).bind (fun c => c.set_position 15 0)).bind
          (fun c => c.set_rotation 0)).bind
        (fun b => a.is_colliding_with rat_ops (.distinct b) ⟨0, 0, 0⟩)))).toOption.map
      (fun r => (r.value, r.out))
      = some (true, ⟨-1, 0, -5⟩) := by
  decide!

/-- C4, at a failing input: `rect(2, 2)` at the origin against `rect(2, 2)` at
`(1, 0)` returns true and writes the overlap `-1`, a negative number, where
the smallest per-axis overlap has the magnitude `1`. -/
theorem overlap_written_is_signed :
    ((collider.rect rat_ops 2 2).bind
      (fun a =>
        (((collider.rect rat_ops 2 2).bind (fun c => c.set_position 1 0)).bind
        (fun b => a.is_colliding_with rat_ops (.distinct b) ⟨0, 0, 0⟩)))).toOption.map
      (fun r => (r.value, r.out))
      = some (true, ⟨-1, 0, -1⟩) := by
  decide!

end evaluations

/-! ## The cache: `transform` and `ensure_transformed` -/

section cache

variable {T : Type} [LinearOrderedField T]

theorem transform_fields (ops : FloatOps T) (i i1 : Impl T)
    (h : i.transform ops = .ok i1) :
    i1.vertices = i.vertices ∧ i1.position = i.position ∧ i1.rotation = i.rotation
      ∧ i1.dirty = i.dirty
      ∧ i1.t_vertices
          = i.vertices.map (fun v => (v.rotate ops i.rotation).add i.position)
      ∧ calculate_axes ops i1.t_vertices = .ok i1.t_axes := by
  simp only [Impl.transform] at h
  split at h
  · cases h
  · next t_axes hax =>
    simp only [Except.ok.injEq] at h
    subst h
    exact ⟨rfl, rfl, rfl, rfl, rfl, hax⟩

theorem ensure_transformed_fields (ops : FloatOps T) (i i1 : Impl T)
    (h : i.ensure_transformed ops = .ok i1) :
    i1.vertices = i.vertices ∧ i1.position = i.position ∧ i1.rotation = i.rotation := by
  unfold Impl.ensure_transformed at h
  split at h
  · simp only [Except.ok.injEq] at h
    subst h
    exact ⟨rfl, rfl, rfl⟩
  · split at h
    · cases h
    · next s hs =>
      simp only [Except.ok.injEq] at h
      subst h
      obtain ⟨h1, h2, h3, -⟩ := transform_fields ops i s hs
      exact ⟨h1, h2, h3⟩

end cache

/-! ## `is_colliding_with`: the axis written -/

section orientation

variable {T : Type} [LinearOrderedField T]

/-- What a call of `is_colliding_with` on two distinct initialized colliders
that returns true has computed. -/
theorem is_colliding_with_true (ops : FloatOps T) (ti oi : Impl T)
    (out : collision T) (r : colliding_result T)
    (h : (collider.mk (some ti)).is_colliding_with ops (.distinct ⟨some oi⟩) out = .ok r)
    (hv : r.value = true) :
    ∃ ti1 oi1 smallest axis0,
      ti.ensure_transformed ops = .ok ti1 ∧ oi.ensure_transformed ops = .ok oi1
      ∧ ti1.t_axes ++ oi1.t_axes ≠ []
      ∧ sat_loop ops ti1 oi1 (ti1.t_axes ++ oi1.t_axes) ops.max ⟨0, 0⟩
          = some (smallest, axis0)
      ∧ r.this = ⟨some ti1⟩ ∧ r.other = some ⟨some oi1⟩
      ∧ r.out.overlap = smallest
      ∧ (vec.mk r.out.axis_x r.out.axis_y
          = if (ti1.position.sub oi1.position).dot axis0 < 0 then axis0.neg else axis0) := by
  simp only [collider.is_colliding_with, is_colliding_with_distinct] at h
  split at h
  · cases h
  · next ti1 hti =>
    split at h
    · cases h
    · next oi1 hoi =>
      simp only [Impl.get_axes] at h
      split at h
      · simp only [Except.ok.injEq] at h
        subst h
        simp at hv
      · next hne =>
        split at h
        · simp only [Except.ok.injEq] at h
          subst h
          simp at hv
        · next smallest axis0 hs =>
          simp only [Except.ok.injEq] at h
          subst h
          refine ⟨ti1, oi1, smallest, axis0, hti, hoi, ?_, hs, rfl, rfl, rfl, rfl⟩
          intro hnil
          rw [hnil] at hne
          simp at hne

end orientation

/-! ## Projections -/

section projections

variable {T : Type} [LinearOrderedField T]

theorem project_loop_min_le (axis : vec T) (vs : List (vec T)) (mn mx : T) :
    (project_loop axis vs mn mx).min ≤ mn := by
  induction vs generalizing mn mx with
  | nil => simp [project_loop]
  | cons v rest ih =>
    simp only [project_loop]
    refine le_trans (ih _ _) ?_
    split
    · next h => exact le_of_lt h
    · exact le_refl _

theorem project_loop_le_max (axis : vec T) (vs : List (vec T)) (mn mx : T) :
    mx ≤ (project_loop axis vs mn mx).max := by
  induction vs generalizing mn mx with
  | nil => simp [project_loop]
  | cons v rest ih =>
    simp only [project_loop]
    refine le_trans ?_ (ih _ _)
    split
    · next h => exact le_of_lt h
    · exact le_refl _

theorem project_loop_min_le_dot (axis : vec T) (vs : List (vec T)) (mn mx : T)
    (v : vec T) (hv : v ∈ vs) : (project_loop axis vs mn mx).min ≤ axis.dot v := by
  induction vs generalizing mn mx with
  | nil => cases hv
  | cons w rest ih =>
    simp only [project_loop]
    rcases List.mem_cons.mp hv with rfl | hmem
    · refine le_trans (project_loop_min_le _ _ _ _) ?_
      split
      · exact le_refl _
      · next h => exact not_lt.mp h
    · exact ih _ _ hmem

theorem project_loop_dot_le_max (axis : vec T) (vs : List (vec T)) (mn mx : T)
    (v : vec T) (hv : v ∈ vs) : axis.dot v ≤ (project_loop axis vs mn mx).max := by
  induction vs generalizing mn mx with
  | nil => cases hv
  | cons w rest ih =>
    simp only [project_loop]
    rcases List.mem_cons.mp hv with rfl | hmem
    · refine le_trans ?_ (project_loop_le_max _ _ _ _)
      split
      · exact le_refl _
      · next h => exact not_lt.mp h
    · exact ih _ _ hmem

theorem project_loop_min_mem (axis : vec T) (vs : List (vec T)) (mn mx : T) :
    (project_loop axis vs mn mx).min = mn
      ∨ ∃ v ∈ vs, (project_loop axis vs mn mx).min = axis.dot v := by
  induction vs generalizing mn mx with
  | nil => left; simp [project_loop]
  | cons w rest ih =>
    simp only [project_loop]
    rcases ih (if axis.dot w < mn then axis.dot w else mn)
        (if axis.dot w > mx then axis.dot w else mx) with h | ⟨v, hv, h⟩
    · by_cases hlt : axis.dot w < mn
      · right
        refine ⟨w, List.mem_cons_self _ _, ?_⟩
        rw [h, if_pos hlt]
      · left
        rw [h, if_neg hlt]
    · right
      exact ⟨v, List.mem_cons_of_mem _ hv, h⟩

theorem project_loop_max_mem (axis : vec T) (vs : List (vec T)) (mn mx : T) :
    (project_loop axis vs mn mx).max = mx
      ∨ ∃ v ∈ vs, (project_loop axis vs mn mx).max = axis.dot v := by
  induction vs generalizing mn mx with
  | nil => left; simp [project_loop]
  | cons w rest ih =>
    simp only [project_loop]
    rcases ih (if axis.dot w < mn then axis.dot w else mn)
        (if axis.dot w > mx then axis.dot w else mx) with h | ⟨v, hv, h⟩
    · by_cases hgt : axis.dot w > mx
      · right
        refine ⟨w, List.mem_cons_self _ _, ?_⟩
        rw [h, if_pos hgt]
      · left
        rw [h, if_neg hgt]
    · right
      exact ⟨v, List.mem_cons_of_mem _ hv, h⟩

end projections

/-! ## The loop of `is_colliding_with` -/

section sat

variable {T : Type} [LinearOrderedField T]

/-- The result of the loop of `is_colliding_with`: either no axis ever had a
smaller magnitude than the start value, which is returned as it was, or the
pair returned is an axis of the list with its overlap, of a magnitude below
the start value and no larger than that of any axis of the list. -/
theorem sat_loop_result (ops : FloatOps T) (this other : Impl T) (axes : List (vec T))
    (s : T) (a : vec T) (s1 : T) (a1 : vec T)
    (h : sat_loop ops this other axes s a = some (s1, a1)) :
    (s1 = s ∧ a1 = a
        ∧ ∀ ax ∈ axes,
            ¬ |axis_overlap (this.project ops ax) (other.project ops ax)| < |s|)
      ∨ (a1 ∈ axes
        ∧ s1 = axis_overlap (this.project ops a1) (other.project ops a1)
        ∧ |s1| < |s|
        ∧ ∀ ax ∈ axes,
            |s1| ≤ |axis_overlap (this.project ops ax) (other.project ops ax)|) := by
  induction axes generalizing s a with
  | nil =>
    simp only [sat_loop, Option.some.injEq, Prod.mk.injEq] at h
    left
    exact ⟨h.1.symm, h.2.symm, by simp⟩
  | cons ax rest ih =>
    simp only [sat_loop] at h
    split at h
    · cases h
    · split at h
      · next hlt =>
        rcases ih _ _ h with ⟨hs, ha, hall⟩ | ⟨hmem, hs, hlt1, hall⟩
        · right
          subst hs ha
          refine ⟨List.mem_cons_self _ _, rfl, hlt, ?_⟩
          intro ax1 hax1
          rcases List.mem_cons.mp hax1 with rfl | hr
          · exact le_refl _
          · exact not_lt.mp (hall ax1 hr)
        · right
          refine ⟨List.mem_cons_of_mem _ hmem, hs, lt_trans hlt1 hlt, ?_⟩
          intro ax1 hax1
          rcases List.mem_cons.mp hax1 with rfl | hr
          · exact le_of_lt hlt1
          · exact hall ax1 hr
      · next hge =>
        rcases ih _ _ h with ⟨hs, ha, hall⟩ | ⟨hmem, hs, hlt1, hall⟩
        · left
          refine ⟨hs, ha, ?_⟩
          intro ax1 hax1
          rcases List.mem_cons.mp hax1 with rfl | hr
          · exact hge
          · exact hall ax1 hr
        · right
          refine ⟨List.mem_cons_of_mem _ hmem, hs, hlt1, ?_⟩
          intro ax1 hax1
          rcases List.mem_cons.mp hax1 with rfl | hr
          · exact le_trans (le_of_lt hlt1) (not_lt.mp hge)
          · exact hall ax1 hr

/-- Inside the loop of `is_colliding_with`, an axis that does not end the loop
has overlapping projections. -/
theorem sat_loop_overlapping (ops : FloatOps T) (this other : Impl T) (axes : List (vec T))
    (s : T) (a : vec T) (res : T × vec T)
    (h : sat_loop ops this other axes s a = some res) :
    ∀ ax ∈ axes, (other.project ops ax).min ≤ (this.project ops ax).max
      ∧ (this.project ops ax).min ≤ (other.project ops ax).max := by
  induction axes generalizing s a with
  | nil => intro ax hax; cases hax
  | cons ax rest ih =>
    simp only [sat_loop] at h
    split at h
    · cases h
    · next hsep =>
      have hsep1 := not_or.mp hsep
      intro ax1 hax1
      rcases List.mem_cons.mp hax1 with rfl | hr
      · exact ⟨not_lt.mp hsep1.1, not_lt.mp hsep1.2⟩
      · split at h
        · exact ih _ _ h ax1 hr
        · exact ih _ _ h ax1 hr

end sat

/-! ## Separating axes are unit vectors -/

section unit_axes

variable {T : Type} [LinearOrderedField T]

theorem perp_dot_self (v : vec T) : v.perp.dot v.perp = v.dot v := by
  simp only [vec.dot, vec.perp]
  ring

theorem neg_dot_self (v : vec T) : v.neg.dot v.neg = v.dot v := by
  simp only [vec.dot, vec.neg]
  ring

/-- A vector that `normalize` returns has length one, when the square root
taken is exact. -/
theorem normalize_dot_self (ops : FloatOps T) (v n : vec T)
    (hm : ops.sqrt (v.dot v) * ops.sqrt (v.dot v) = v.dot v)
    (h : v.normalize ops = .ok n) : n.dot n = 1 := by
  simp only [vec.normalize] at h
  split at h
  · cases h
  · next hne =>
    simp only [Except.ok.injEq] at h
    subst h
    simp only [vec.dot] at hm hne ⊢
    generalize ops.sqrt (v.x * v.x + v.y * v.y) = m at hm hne
    field_simp
    linarith

theorem calculate_axes_loop_unit (ops : FloatOps T)
    (hsqrt : ∀ x : T, 1 / 10000000 ≤ x → ops.sqrt x * ops.sqrt x = x)
    (vertices : List (vec T)) (idx : List Nat) (axes res : List (vec T))
    (h : calculate_axes_loop ops vertices idx axes = .ok res)
    (hax : ∀ a ∈ axes, a.dot a = 1) : ∀ a ∈ res, a.dot a = 1 := by
  induction idx generalizing axes with
  | nil =>
    simp only [calculate_axes_loop, Except.ok.injEq] at h
    subst h
    exact hax
  | cons i rest ih =>
    simp only [calculate_axes_loop] at h
    split at h
    · cases h
    · split at h
      · cases h
      · next a _ b _ =>
        split at h
        · exact ih axes h hax
        · next hge =>
          split at h
          · cases h
          · next n hn =>
            refine ih _ h ?_
            intro c hc
            rcases List.mem_append.mp hc with hc1 | hc1
            · exact hax c hc1
            · simp only [List.mem_singleton] at hc1
              subst hc1
              refine normalize_dot_self ops _ _ ?_ hn
              apply hsqrt
              rw [perp_dot_self]
              exact not_lt.mp hge

theorem calculate_axes_unit (ops : FloatOps T)
    (hsqrt : ∀ x : T, 1 / 10000000 ≤ x → ops.sqrt x * ops.sqrt x = x)
    (vertices res : List (vec T)) (h : calculate_axes ops vertices = .ok res) :
    ∀ a ∈ res, a.dot a = 1 :=
  calculate_axes_loop_unit ops hsqrt vertices _ [] res h (by simp)

theorem calculate_axes_nil (ops : FloatOps T) :
    calculate_axes ops ([] : List (vec T)) = .ok [] := rfl

/-- After `ensure_transformed` on a state whose cache is up to date or marked
dirty, the cache holds the world vertices and their axes. -/
theorem ensure_transformed_cache (ops : FloatOps T) (i i1 : Impl T)
    (hfresh : i.fresh ops) (h : i.ensure_transformed ops = .ok i1) :
    i1.t_vertices = i.world_vertices ops
      ∧ calculate_axes ops i1.t_vertices = .ok i1.t_axes := by
  unfold Impl.ensure_transformed at h
  split at h
  · next hd =>
    simp only [Except.ok.injEq] at h
    subst h
    have hd1 : i.dirty = false := by simpa using hd
    obtain ⟨-, -, -, -, h5, h6⟩ := transform_fields ops i i (hfresh hd1)
    exact ⟨h5, h6⟩
  · split at h
    · cases h
    · next s hs =>
      simp only [Except.ok.injEq] at h
      subst h
      obtain ⟨-, -, -, -, h5, h6⟩ := transform_fields ops i s hs
      exact ⟨h5, h6⟩

theorem abs_le_one_of_unit (a : vec T) (h : a.dot a = 1) : |a.x| ≤ 1 ∧ |a.y| ≤ 1 := by
  simp only [vec.dot] at h
  constructor
  · apply abs_le_one_iff_mul_self_le_one.mpr
    nlinarith [mul_self_nonneg a.y]
  · apply abs_le_one_iff_mul_self_le_one.mpr
    nlinarith [mul_self_nonneg a.x]

theorem abs_dot_le (a v : vec T) (h : a.dot a = 1) : |a.dot v| ≤ |v.x| + |v.y| := by
  obtain ⟨hx, hy⟩ := abs_le_one_of_unit a h
  have h1 : |a.x * v.x| ≤ |v.x| := by
    rw [abs_mul]
    exact mul_le_of_le_one_left (abs_nonneg _) hx
  have h2 : |a.y * v.y| ≤ |v.y| := by
    rw [abs_mul]
    exact mul_le_of_le_one_left (abs_nonneg _) hy
  calc |a.dot v| = |a.x * v.x + a.y * v.y| := rfl
    _ ≤ |a.x * v.x| + |a.y * v.y| := abs_add _ _
    _ ≤ |v.x| + |v.y| := add_le_add h1 h2

/-- The projection of a shape with a vertex, all within the range, lies within
the range. -/
theorem project_in_range (ops : FloatOps T) (i : Impl T) (a : vec T) (m : T)
    (hlow : ops.lowest = -ops.max) (hm : m < ops.max)
    (hne : i.t_vertices ≠ [])
    (hr : ∀ v ∈ i.t_vertices, |a.dot v| < m) :
    |(i.project ops a).min| < m ∧ |(i.project ops a).max| < m := by
  obtain ⟨v0, hv0⟩ := List.exists_mem_of_ne_nil _ hne
  have hv0r := abs_lt.mp (hr v0 hv0)
  simp only [Impl.project]
  constructor
  · rcases project_loop_min_mem a i.t_vertices ops.max ops.lowest with h | ⟨v, hv, h⟩
    · have := project_loop_min_le_dot a i.t_vertices ops.max ops.lowest v0 hv0
      rw [h] at this
      linarith
    · rw [h]
      exact hr v hv
  · rcases project_loop_max_mem a i.t_vertices ops.max ops.lowest with h | ⟨v, hv, h⟩
    · have := project_loop_dot_le_max a i.t_vertices ops.max ops.lowest v0 hv0
      rw [h, hlow] at this
      linarith
    · rw [h]
      exact hr v hv

theorem project_empty (ops : FloatOps T) (i : Impl T) (a : vec T)
    (h : i.t_vertices = []) : i.project ops a = ⟨ops.max, ops.lowest⟩ := by
  simp [Impl.project, h, project_loop]

theorem axis_overlap_abs_lt (p q : proj T) (m : T)
    (hp1 : |p.min| < m) (hp2 : |p.max| < m) (hq1 : |q.min| < m) (hq2 : |q.max| < m) :
    |axis_overlap p q| < 2 * m := by
  have a1 := abs_lt.mp hp1
  have a2 := abs_lt.mp hp2
  have a3 := abs_lt.mp hq1
  have a4 := abs_lt.mp hq2
  simp only [axis_overlap]
  split
  · rw [abs_lt]; constructor <;> linarith
  · rw [abs_lt]; constructor <;> linarith

/-- With every world vertex inside the range of the floating point type, the
loop of `is_colliding_with`, started from `max` and `(0, 0)` on a list of unit
axes that is not empty, returns an axis of the list, its overlap, and no axis
of the list has an overlap of smaller magnitude. -/
theorem sat_loop_axis_mem (ops : FloatOps T) (ti1 oi1 : Impl T) (axes : List (vec T))
    (smallest : T) (axis0 : vec T)
    (hlow : ops.lowest = -ops.max)
    (hne : axes ≠ [])
    (hunit : ∀ a ∈ axes, a.dot a = 1)
    (hv : ti1.t_vertices ≠ [] ∨ oi1.t_vertices ≠ [])
    (hrange : ∀ v ∈ ti1.t_vertices ++ oi1.t_vertices, |v.x| + |v.y| < ops.max / 2)
    (h : sat_loop ops ti1 oi1 axes ops.max ⟨0, 0⟩ = some (smallest, axis0)) :
    axis0 ∈ axes
      ∧ smallest = axis_overlap (ti1.project ops axis0) (oi1.project ops axis0)
      ∧ ∀ ax ∈ axes,
          |smallest| ≤ |axis_overlap (ti1.project ops ax) (oi1.project ops ax)| := by
  have hpos : 0 < ops.max := by
    have hex : ∃ v, v ∈ ti1.t_vertices ++ oi1.t_vertices := by
      rcases hv with h1 | h1
      · obtain ⟨v, hv1⟩ := List.exists_mem_of_ne_nil _ h1
        exact ⟨v, List.mem_append_left _ hv1⟩
      · obtain ⟨v, hv1⟩ := List.exists_mem_of_ne_nil _ h1
        exact ⟨v, List.mem_append_right _ hv1⟩
    obtain ⟨v, hv1⟩ := hex
    have h1 := hrange v hv1
    have h2 : 0 ≤ |v.x| + |v.y| := add_nonneg (abs_nonneg _) (abs_nonneg _)
    linarith
  have hhalf : ops.max / 2 < ops.max := by linarith
  rcases sat_loop_result ops ti1 oi1 axes ops.max ⟨0, 0⟩ smallest axis0 h with
    ⟨-, -, hall⟩ | ⟨hmem, hs, -, hall⟩
  · exfalso
    obtain ⟨ax0, hax0⟩ := List.exists_mem_of_ne_nil _ hne
    have hover := sat_loop_overlapping ops ti1 oi1 axes ops.max ⟨0, 0⟩ _ h ax0 hax0
    have hrt : ∀ v ∈ ti1.t_vertices, |ax0.dot v| < ops.max / 2 := fun v hv1 =>
      lt_of_le_of_lt (abs_dot_le ax0 v (hunit ax0 hax0))
        (hrange v (List.mem_append_left _ hv1))
    have hro : ∀ v ∈ oi1.t_vertices, |ax0.dot v| < ops.max / 2 := fun v hv1 =>
      lt_of_le_of_lt (abs_dot_le ax0 v (hunit ax0 hax0))
        (hrange v (List.mem_append_right _ hv1))
    by_cases ht : ti1.t_vertices = []
    · have ho : oi1.t_vertices ≠ [] := by
        rcases hv with h1 | h1
        · exact absurd ht h1
        · exact h1
      have hp := project_in_range ops oi1 ax0 _ hlow hhalf ho hro
      rw [project_empty ops ti1 ax0 ht] at hover
      have := abs_lt.mp hp.1
      have := hover.1
      simp only [hlow] at this
      linarith
    · by_cases ho : oi1.t_vertices = []
      · have hp := project_in_range ops ti1 ax0 _ hlow hhalf ht hrt
        rw [project_empty ops oi1 ax0 ho] at hover
        have := abs_lt.mp hp.1
        have := hover.2
        simp only [hlow] at this
        linarith
      · have hp := project_in_range ops ti1 ax0 _ hlow hhalf ht hrt
        have hq := project_in_range ops oi1 ax0 _ hlow hhalf ho hro
        have hlt := axis_overlap_abs_lt _ _ _ hp.1 hp.2 hq.1 hq.2
        apply hall ax0 hax0
        rw [abs_of_pos hpos]
        linarith
  · exact ⟨hmem, hs, hall⟩

/-- C7, amended: when `is_colliding_with` returns true on two distinct
initialized colliders whose world vertices all have
`4 * (|x| + |y|) ^ 2 < max`, so that the squared length of no edge exceeds `max`
and every projection and overlap stays below `max`, the axis written is a unit
vector, `axis_x ^ 2 + axis_y ^ 2 = 1`, in exact arithmetic: the square root is
exact, `lowest` is `-max` and `max` is at least `1`. -/
theorem axis_is_unit (ops : FloatOps T) (ti oi : Impl T)
    (out : collision T) (r : colliding_result T)
    (hsqrt : ∀ x : T, 1 / 10000000 ≤ x → ops.sqrt x * ops.sqrt x = x)
    (hlow : ops.lowest = -ops.max) (hone : 1 ≤ ops.max)
    (hfresh_this : ti.fresh ops) (hfresh_other : oi.fresh ops)
    (hbound : ∀ v ∈ ti.world_vertices ops ++ oi.world_vertices ops,
      4 * (|v.x| + |v.y|) ^ 2 < ops.max)
    (h : (collider.mk (some ti)).is_colliding_with ops (.distinct ⟨some oi⟩) out = .ok r)
    (hv : r.value = true) :
    r.out.axis_x ^ 2 + r.out.axis_y ^ 2 = 1 := by
  have hrange : ∀ v ∈ ti.world_vertices ops ++ oi.world_vertices ops,
      |v.x| + |v.y| < ops.max / 2 := by
    intro v hv1
    have h4 := hbound v hv1
    have h0 : 0 ≤ |v.x| + |v.y| := add_nonneg (abs_nonneg _) (abs_nonneg _)
    by_contra hcon
    have hge : ops.max / 2 ≤ |v.x| + |v.y| := not_lt.mp hcon
    have hhalf : 0 ≤ ops.max / 2 := by linarith
    have hsq : ops.max / 2 * (ops.max / 2) ≤ (|v.x| + |v.y|) * (|v.x| + |v.y|) :=
      mul_le_mul hge hge hhalf h0
    nlinarith
  obtain ⟨ti1, oi1, smallest, axis0, hti, hoi, hne, hsat, -, -, -, hax⟩ :=
    is_colliding_with_true ops ti oi out r h hv
  obtain ⟨htv, hta⟩ := ensure_transformed_cache ops ti ti1 hfresh_this hti
  obtain ⟨hov, hoa⟩ := ensure_transformed_cache ops oi oi1 hfresh_other hoi
  have hunit : ∀ a ∈ ti1.t_axes ++ oi1.t_axes, a.dot a = 1 := by
    intro a ha
    rcases List.mem_append.mp ha with h1 | h1
    · exact calculate_axes_unit ops hsqrt _ _ hta a h1
    · exact calculate_axes_unit ops hsqrt _ _ hoa a h1
  have hvert : ti1.t_vertices ≠ [] ∨ oi1.t_vertices ≠ [] := by
    by_contra hcon
    obtain ⟨h1, h2⟩ := not_or.mp hcon
    have h1 := not_not.mp h1
    have h2 := not_not.mp h2
    rw [h1, calculate_axes_nil] at hta
    rw [h2, calculate_axes_nil] at hoa
    simp only [Except.ok.injEq] at hta hoa
    apply hne
    rw [← hta, ← hoa]
    rfl
  rw [← htv, ← hov] at hrange
  obtain ⟨hmem, -, -⟩ := sat_loop_axis_mem ops ti1 oi1 _ smallest axis0 hlow hne hunit
    hvert hrange hsat
  have h0 := hunit axis0 hmem
  have hfin : (vec.mk r.out.axis_x r.out.axis_y).dot (vec.mk r.out.axis_x r.out.axis_y)
      = 1 := by
    rw [hax]
    split
    · rw [neg_dot_self]; exact h0
    · exact h0
  simp only [vec.dot] at hfin
  rw [pow_two, pow_two]
  exact hfin

end unit_axes

/-! ## `transform` does not raise -/

section no_raise

variable {T : Type} [LinearOrderedField T]

theorem elem_at_of_lt {α : Type} (data : List α) (i : Nat) (h : i < data.length) :
    elem_at data i = .ok (data.get ⟨i, h⟩) := by
  simp [elem_at, List.getElem?_eq_getElem h]

theorem normalize_ok (ops : FloatOps T) (v : vec T) (h : ops.sqrt (v.dot v) ≠ 0) :
    ∃ n, v.normalize ops = .ok n := by
  simp only [vec.normalize]
  rw [if_neg h]
  exact ⟨_, rfl⟩

theorem calculate_axes_loop_ok (ops : FloatOps T)
    (hsqrt : ∀ x : T, 1 / 10000000 ≤ x → ops.sqrt x ≠ 0)
    (vertices : List (vec T)) (idx : List Nat) (axes : List (vec T))
    (hidx : ∀ i ∈ idx, i < vertices.length) :
    ∃ res, calculate_axes_loop ops vertices idx axes = .ok res := by
  induction idx generalizing axes with
  | nil => exact ⟨axes, rfl⟩
  | cons i rest ih =>
    have hi : i < vertices.length := hidx i (List.mem_cons_self _ _)
    have hpos : 0 < vertices.length := lt_of_le_of_lt (Nat.zero_le _) hi
    have hrest : ∀ j ∈ rest, j < vertices.length :=
      fun j hj => hidx j (List.mem_cons_of_mem _ hj)
    simp only [calculate_axes_loop, elem_at_of_lt vertices i hi,
      elem_at_of_lt vertices _ (Nat.mod_lt (i + 1) hpos)]
    split
    · exact ih axes hrest
    · next hge =>
      have hne := hsqrt _ (not_lt.mp hge)
      rw [← perp_dot_self] at hne
      obtain ⟨n, hn⟩ := normalize_ok ops _ hne
      rw [hn]
      exact ih _ hrest

theorem calculate_axes_ok (ops : FloatOps T)
    (hsqrt : ∀ x : T, 1 / 10000000 ≤ x → ops.sqrt x ≠ 0) (vertices : List (vec T)) :
    ∃ res, calculate_axes ops vertices = .ok res :=
  calculate_axes_loop_ok ops hsqrt vertices _ [] (fun _ hi => List.mem_range.mp hi)

theorem transform_ok (ops : FloatOps T)
    (hsqrt : ∀ x : T, 1 / 10000000 ≤ x → ops.sqrt x ≠ 0) (i : Impl T) :
    ∃ i1, i.transform ops = .ok i1 := by
  obtain ⟨axes, hax⟩ := calculate_axes_ok ops hsqrt
    (i.vertices.map (fun v => (v.rotate ops i.rotation).add i.position))
  simp only [Impl.transform, hax]
  exact ⟨_, rfl⟩

theorem ensure_transformed_ok (ops : FloatOps T)
    (hsqrt : ∀ x : T, 1 / 10000000 ≤ x → ops.sqrt x ≠ 0) (i : Impl T) :
    ∃ i1, i.ensure_transformed ops = .ok i1 := by
  unfold Impl.ensure_transformed
  split
  · exact ⟨_, rfl⟩
  · obtain ⟨s, hs⟩ := transform_ok ops hsqrt i
    rw [hs]
    exact ⟨_, rfl⟩

/-- What `get_shape` returns on an initialized collider whose cache is up to
date or marked dirty: the world vertices, in their order. -/
theorem get_shape_eq (ops : FloatOps T)
    (hsqrt : ∀ x : T, 1 / 10000000 ≤ x → ops.sqrt x ≠ 0) (i : Impl T)
    (hfresh : i.fresh ops) :
    ((collider.mk (some i)).get_shape ops).map Prod.snd
      = .ok ((i.world_vertices ops).map (fun vert => ⟨vert.x, vert.y⟩)) := by
  obtain ⟨i1, hi1⟩ := ensure_transformed_ok ops hsqrt i
  obtain ⟨htv, -⟩ := ensure_transformed_cache ops i i1 hfresh hi1
  simp only [collider.get_shape, hi1, Except.map, htv]

end no_raise

/-! ## Round trip through the raw form -/

section raw_loop_lemmas

variable {T : Type}

theorem getElem?_append_length {α : Type} (pre tl : List α) (a : α) :
    (pre ++ a :: tl)[pre.length]? = some a := by
  rw [List.getElem?_append_right (le_refl _)]
  simp

theorem getElem?_append_length_succ {α : Type} (pre tl : List α) (a b : α) :
    (pre ++ a :: b :: tl)[pre.length + 1]? = some b := by
  rw [List.getElem?_append_right (by omega)]
  simp

/-- The loop of `raw`, run on the elements that `get_raw` pushes for the
vertices `vs` behind a start `pre`, rebuilds `vs`. -/
theorem raw_loop_flatten (ops : FloatOps T) (vs : List (vec T)) (pre : List T)
    (acc : List (vec T))
    (hfin : ∀ v ∈ vs, ops.isfinite v.x = true ∧ ops.isfinite v.y = true) :
    raw_loop ops (pre ++ (vs.map (fun v => [v.x, v.y])).flatten)
        (List.range' pre.length vs.length 2) acc
      = .ok (acc ++ vs) := by
  induction vs generalizing pre acc with
  | nil => simp [raw_loop]
  | cons v rest ih =>
    have hv := hfin v (List.mem_cons_self _ _)
    have hrest : ∀ w ∈ rest, ops.isfinite w.x = true ∧ ops.isfinite w.y = true :=
      fun w hw => hfin w (List.mem_cons_of_mem _ hw)
    have h0 : elem_at (pre ++ (List.map (fun v => [v.x, v.y]) (v :: rest)).flatten)
        pre.length = .ok v.x := by
      simp only [elem_at, List.map_cons, List.flatten_cons, List.cons_append,
        List.nil_append, getElem?_append_length]
    have h1 : elem_at (pre ++ (List.map (fun v => [v.x, v.y]) (v :: rest)).flatten)
        (pre.length + 1) = .ok v.y := by
      simp only [elem_at, List.map_cons, List.flatten_cons, List.cons_append,
        List.nil_append, getElem?_append_length_succ]
    have hdata : pre ++ (List.map (fun v => [v.x, v.y]) (v :: rest)).flatten
        = (pre ++ [v.x, v.y]) ++ (List.map (fun v => [v.x, v.y]) rest).flatten := by
      simp
    have hlen : (pre ++ [v.x, v.y]).length = pre.length + 2 := by simp
    rw [List.length_cons, List.range'_succ]
    simp only [raw_loop, h0, h1, hv.1, hv.2, Bool.not_true, Bool.false_eq_true, if_false]
    rw [hdata, ← hlen, ih (pre ++ [v.x, v.y]) (acc ++ [vec.mk v.x v.y]) hrest]
    simp

end raw_loop_lemmas

section round_trip

variable {T : Type} [LinearOrderedField T]

theorem raw_indices_eq (n : Nat) : raw_indices (3 + 2 * n) = List.range' 3 n 2 := by
  have h : (3 + 2 * n - 3 + 1) / 2 = n := by omega
  simp only [raw_indices, h]

/-- On the raw form of a shape with an even number, at least two, of finite
vertices, `raw` builds the collider of these vertices and gives it the
position and the rotation. -/
theorem raw_of_get_raw (ops : FloatOps T) (vertices : List (vec T)) (px py r : T)
    (impl0 : Impl T) (hnew : Impl.new ops vertices = .ok impl0)
    (hlen : 2 ≤ vertices.length) (heven : vertices.length % 2 = 0)
    (hfin : ∀ v ∈ vertices, ops.isfinite v.x = true ∧ ops.isfinite v.y = true) :
    collider.raw ops (px :: py :: r :: (vertices.map (fun v => [v.x, v.y])).flatten)
      = .ok ⟨some { impl0 with position := ⟨px, py⟩, rotation := r, dirty := true }⟩ := by
  have hl : (px :: py :: r :: (vertices.map (fun v => [v.x, v.y])).flatten).length
      = 3 + 2 * vertices.length := by
    simp only [List.length_cons, length_flatten_pairs]; omega
  have hloop := raw_loop_flatten ops vertices [px, py, r] [] hfin
  simp only [List.length_cons, List.length_nil, List.nil_append] at hloop
  have h6 : ¬ (3 + 2 * vertices.length < 6) := by omega
  have hv : (3 + 2 * vertices.length - 3) / 2 % 2 = 0 := by omega
  simp only [collider.raw, hl, h6, if_false, raw_indices_eq]
  simp only [elem_at, List.getElem?_cons_zero, List.getElem?_cons_succ, hv, ne_eq,
    not_true_eq_false, if_false]
  have hloop1 : raw_loop ops
      (px :: py :: r :: (vertices.map (fun v => [v.x, v.y])).flatten)
      (List.range' 3 vertices.length 2) [] = .ok vertices := hloop
  simp only [hloop1, collider.of_vertices, hnew, collider.set_position,
    collider.set_rotation]

/-- C1, amended: for an initialized collider in a state the methods produce
(`fresh`), with an even number, at least two, of vertices whose coordinates
are finite, `raw(get_raw(s))` does not raise and `get_shape` returns on the
collider built the very sequence it returns on `s`. -/
theorem raw_get_raw_round_trip (ops : FloatOps T) (i : Impl T)
    (hsqrt : ∀ x : T, 1 / 10000000 ≤ x → ops.sqrt x ≠ 0)
    (hfresh : i.fresh ops)
    (hlen : 2 ≤ i.vertices.length) (heven : i.vertices.length % 2 = 0)
    (hfin : ∀ v ∈ i.vertices, ops.isfinite v.x = true ∧ ops.isfinite v.y = true) :
    ((((collider.mk (some i)).get_raw).bind (collider.raw ops)).bind
        (fun c => c.get_shape ops)).map Prod.snd
        = ((collider.mk (some i)).get_shape ops).map Prod.snd
      ∧ (((collider.mk (some i)).get_shape ops).map Prod.snd).toOption.isSome = true
      ∧ ((((collider.mk (some i)).get_raw).bind (collider.raw ops)).toOption).isSome
          = true := by
  obtain ⟨impl0, hnew⟩ : ∃ impl0, Impl.new ops i.vertices = .ok impl0 :=
    transform_ok ops hsqrt _
  have hraw := raw_of_get_raw ops i.vertices i.position.x i.position.y i.rotation impl0
    hnew hlen heven hfin
  obtain ⟨hverts, -⟩ := transform_fields ops _ impl0 hnew
  have hshape := get_shape_eq ops hsqrt i hfresh
  have hfresh1 : Impl.fresh ops
      { impl0 with position := ⟨i.position.x, i.position.y⟩, rotation := i.rotation,
                   dirty := true } := by
    intro hd
    cases hd
  have hshape1 := get_shape_eq ops hsqrt _ hfresh1
  have hw : Impl.world_vertices ops
      { impl0 with position := ⟨i.position.x, i.position.y⟩, rotation := i.rotation,
                   dirty := true } = i.world_vertices ops := by
    simp only [Impl.world_vertices, hverts]
  rw [hw] at hshape1
  have hget := get_raw_eq i
  refine ⟨?_, ?_, ?_⟩
  · rw [hget, hshape]
    simp only [Except.bind, hraw]
    exact hshape1
  · rw [hshape]
    rfl
  · rw [hget]
    simp only [Except.bind, hraw]
    rfl

end round_trip

/-! ## The rational instance -/

section rational_facts

theorem isqrt_iter_pos (n : Nat) (hn : 1 ≤ n) (fuel guess : Nat) (hg : 1 ≤ guess) :
    1 ≤ isqrt_iter n fuel guess := by
  induction fuel generalizing guess with
  | zero => simpa [isqrt_iter] using hg
  | succ k ih =>
    simp only [isqrt_iter]
    split
    · apply ih
      rcases Nat.eq_or_lt_of_le hg with h1 | h2
      · subst h1
        rw [Nat.div_one]
        omega
      · have := Nat.zero_le (n / guess)
        omega
    · exact hg

theorem isqrt_pos (n : Nat) (hn : 1 ≤ n) : 1 ≤ isqrt n := by
  unfold isqrt
  split
  · exact hn
  · exact isqrt_iter_pos n hn n n hn

/-- The square root of the rational instance is not zero on the numbers that
`calculate_axes` lets through to `normalize`. -/
theorem rat_sqrt_ne_zero (x : ℚ) (h : 1 / 10000000 ≤ x) : rat_ops.sqrt x ≠ 0 := by
  have hx : 0 < x := lt_of_lt_of_le (by norm_num) h
  have hnum : 0 < x.num := Rat.num_pos.mpr hx
  have h1 : 1 ≤ x.num.toNat := by omega
  have h2 : 1 ≤ x.den := x.den_pos
  have h3 : 1 ≤ x.num.toNat * x.den := Nat.mul_le_mul h1 h2
  have h4 := isqrt_pos _ h3
  show rat_sqrt x ≠ 0
  unfold rat_sqrt
  apply div_ne_zero
  · exact_mod_cast Nat.one_le_iff_ne_zero.mp h4
  · exact_mod_cast x.den_nz

/-- The state `test_rect_state` is the one that
`rect(5, 2).set_position(5, 3).set_rotation(2)` produces. -/
theorem test_rect_state_reached :
    (((collider.rect rat_ops 5 2).bind (fun c => c.set_position 5 3)).bind
      (fun c => c.set_rotation 2)) = .ok ⟨some test_rect_state⟩ := by
  decide!

/-- The state `square_at 1` is the one that `rect(2, 2).set_position(1, 0)`
is in after a query, and `square_at 0` the one of `rect(2, 2)`. -/
theorem square_at_reached :
    (((collider.rect rat_ops 2 2).bind (fun c => c.set_position 1 0)).bind
        (fun c => c.get_shape rat_ops)).map Prod.fst = .ok ⟨some (square_at 1)⟩
      ∧ collider.rect rat_ops 2 2 = .ok ⟨some (square_at 0)⟩ := by
  decide!

end rational_facts

section round_trip_instances

/-- C1, as the claim states it, fails: the collider of the single vertex
`(0, 0)` is initialized, has a vertex list that is not empty and a finite
pose; its raw form has five elements and `raw` raises on it. -/
theorem round_trip_single_vertex_raises :
    (collider.from_points rat_ops [⟨0, 0⟩]).map (fun s => s.impl.map (fun i => i.vertices))
        = .ok (some [⟨0, 0⟩])
      ∧ (collider.from_points rat_ops [⟨0, 0⟩]).bind (fun s => s.get_raw)
        = .ok [0, 0, 0, 0, 0]
      ∧ ((collider.from_points rat_ops [⟨0, 0⟩]).bind (fun s => s.get_raw)).bind
          (collider.raw rat_ops)
        = .error .invalid_argument := by
  decide!

/-- C1, amended, on the collider of the test: `rect(5, 2)` at position
`(5, 3)` with rotation `2`. -/
theorem raw_get_raw_round_trip_witness :
    (2 ≤ test_rect_state.vertices.length ∧ test_rect_state.vertices.length % 2 = 0)
      ∧ (((((collider.mk (some test_rect_state)).get_raw).bind
            (collider.raw rat_ops)).bind (fun c => c.get_shape rat_ops)).map Prod.snd
          = ((collider.mk (some test_rect_state)).get_shape rat_ops).map Prod.snd
        ∧ (((collider.mk (some test_rect_state)).get_shape rat_ops).map
            Prod.snd).toOption.isSome = true
        ∧ ((((collider.mk (some test_rect_state)).get_raw).bind
            (collider.raw rat_ops)).toOption).isSome = true) :=
  ⟨⟨by decide, by decide⟩,
   raw_get_raw_round_trip rat_ops test_rect_state rat_sqrt_ne_zero
     (fun hd => by cases hd) (by decide) (by decide)
     (fun _ _ => ⟨rfl, rfl⟩)⟩

end round_trip_instances

/-! ## The real instance

The functions `Real.cos`, `Real.sin` and `Real.sqrt`, with the largest `float`
as `max`: arithmetic is exact and so is the square root. -/

section real_instance

theorem real_sqrt_four : Real.sqrt 4 = 2 := by
  rw [show (4 : ℝ) = 2 ^ 2 by norm_num]
  exact Real.sqrt_sq (by norm_num)

theorem square_at_zero_fresh :
    (square_at (0 : ℝ)).transform
        (float_ops_of Real.cos Real.sin Real.sqrt Real.pi
          340282346638528859811704183484516925440)
      = .ok (square_at 0) := by
  simp [Impl.transform, square_at, float_ops_of, calculate_axes, calculate_axes_loop,
    List.range, List.range.loop, elem_at, vec.rotate, vec.add, vec.sub, vec.dot, vec.perp,
    vec.normalize, Impl.project, project_loop]
  norm_num [real_sqrt_four]

theorem square_at_one_fresh :
    (square_at (1 : ℝ)).transform
        (float_ops_of Real.cos Real.sin Real.sqrt Real.pi
          340282346638528859811704183484516925440)
      = .ok (square_at 1) := by
  simp [Impl.transform, square_at, float_ops_of, calculate_axes, calculate_axes_loop,
    List.range, List.range.loop, elem_at, vec.rotate, vec.add, vec.sub, vec.dot, vec.perp,
    vec.normalize, Impl.project, project_loop]
  norm_num [real_sqrt_four]

theorem squares_collide_real :
    (collider.mk (some (square_at (0 : ℝ)))).is_colliding_with
        (float_ops_of Real.cos Real.sin Real.sqrt Real.pi
          340282346638528859811704183484516925440)
        (.distinct ⟨some (square_at 1)⟩) ⟨0, 0, 0⟩
      = .ok ⟨⟨some (square_at 0)⟩, some ⟨some (square_at 1)⟩, true, ⟨-1, 0, -1⟩⟩ := by
  simp [collider.is_colliding_with, is_colliding_with_distinct, Impl.ensure_transformed,
    Impl.get_axes, sat_loop, axis_overlap, square_at, float_ops_of, vec.sub, vec.dot,
    vec.neg, Impl.project, project_loop]
  norm_num

theorem squares_in_range_real :
    ∀ v ∈ (square_at (0 : ℝ)).world_vertices
          (float_ops_of Real.cos Real.sin Real.sqrt Real.pi
            340282346638528859811704183484516925440)
        ++ (square_at (1 : ℝ)).world_vertices
          (float_ops_of Real.cos Real.sin Real.sqrt Real.pi
            340282346638528859811704183484516925440),
      4 * (|v.x| + |v.y|) ^ 2 < 340282346638528859811704183484516925440 := by
  intro v hv
  simp only [Impl.world_vertices, square_at, float_ops_of, vec.rotate, vec.add,
    Real.cos_zero, Real.sin_zero, List.map_cons, List.map_nil, List.cons_append,
    List.nil_append, List.mem_cons, List.mem_singleton, List.not_mem_nil, or_false] at hv
  rcases hv with h | h | h | h | h | h | h | h <;> subst h <;> norm_num [abs_of_nonneg]

/-- C7, amended, on the real numbers: `rect(2, 2)` at the origin against `rect(2, 2)` at
`(1, 0)`; the axis written is `(-1, 0)`. -/
theorem axis_is_unit_witness :
    (collider.mk (some (square_at (0 : ℝ)))).is_colliding_with
        (float_ops_of Real.cos Real.sin Real.sqrt Real.pi
          340282346638528859811704183484516925440)
        (.distinct ⟨some (square_at 1)⟩) ⟨0, 0, 0⟩
        = .ok ⟨⟨some (square_at 0)⟩, some ⟨some (square_at 1)⟩, true, ⟨-1, 0, -1⟩⟩
      ∧ (-1 : ℝ) ^ 2 + (0 : ℝ) ^ 2 = 1 :=
  ⟨squares_collide_real,
   axis_is_unit
     (float_ops_of Real.cos Real.sin Real.sqrt Real.pi
       340282346638528859811704183484516925440)
     (square_at 0) (square_at 1) ⟨0, 0, 0⟩
     ⟨⟨some (square_at 0)⟩, some ⟨some (square_at 1)⟩, true, ⟨-1, 0, -1⟩⟩
     (fun x hx => Real.mul_self_sqrt (le_trans (by norm_num) hx))
     rfl
     (by norm_num [float_ops_of])
     (fun _ => square_at_zero_fresh)
     (fun _ => square_at_one_fresh)
     squares_in_range_real
     squares_collide_real
     rfl⟩

end real_instance

/-! ## The ellipse vertex count and the generators -/

section generators

variable {T : Type} [LinearOrderedField T]

theorem ellipse_vertex_count_foldl_ge (counts : List Int) (evc : Int) (h : 8 ≤ evc) :
    8 ≤ counts.foldl (fun evc count => (set_ellipse_vertex_count count evc).2) evc := by
  induction counts generalizing evc with
  | nil => exact h
  | cons c rest ih =>
    simp only [List.foldl_cons]
    apply ih
    simp only [set_ellipse_vertex_count]
    split
    · exact h
    · exact le_max_right _ _

theorem ellipse_vertex_count_after_ge (counts : List Int) :
    8 ≤ ellipse_vertex_count_after counts :=
  ellipse_vertex_count_foldl_ge counts _ (by decide)

/-- C15: `set_ellipse_vertex_count(n)` raises and leaves the stored count as
it was when `n < 8`, and otherwise returns and stores exactly `n`; after any
sequence of calls from the default `16` the stored count is at least `8`. -/
theorem set_ellipse_vertex_count_validates (n evc : Int) (counts : List Int) :
    set_ellipse_vertex_count n evc
        = (if n < 8 then (.error .invalid_argument, evc) else (.ok (), n))
      ∧ ellipse_vertex_count_default = 16
      ∧ 8 ≤ ellipse_vertex_count_after counts := by
  refine ⟨?_, rfl, ellipse_vertex_count_after_ge counts⟩
  simp only [set_ellipse_vertex_count]
  split
  · rfl
  · next h => rw [max_eq_left (not_lt.mp h)]

/-- Running `transform` on what `transform` returned changes nothing. -/
theorem transform_idem (ops : FloatOps T) (i i1 : Impl T)
    (h : i.transform ops = .ok i1) : i1.transform ops = .ok i1 := by
  simp only [Impl.transform] at h
  split at h
  · cases h
  · next t_axes hax =>
    simp only [Except.ok.injEq] at h
    subst h
    simp only [Impl.transform, hax, Impl.project]

/-- The private constructor returns, for a square root that is not zero where
`normalize` is called, an initialized collider with the vertices given, at the
default pose, its cache up to date. -/
theorem of_vertices_ok (ops : FloatOps T)
    (hsqrt : ∀ x : T, 1 / 10000000 ≤ x → ops.sqrt x ≠ 0) (vertices : List (vec T)) :
    ∃ impl, collider.of_vertices ops vertices = .ok ⟨some impl⟩
      ∧ impl.vertices = vertices ∧ impl.position = ⟨0, 0⟩ ∧ impl.rotation = 0
      ∧ impl.dirty = false ∧ impl.fresh ops := by
  obtain ⟨impl, himpl⟩ : ∃ impl, Impl.new ops vertices = .ok impl := transform_ok ops hsqrt _
  obtain ⟨h1, h2, h3, h4, -, -⟩ := transform_fields ops _ impl himpl
  refine ⟨impl, ?_, h1, h2, h3, h4, fun _ => transform_idem ops _ impl himpl⟩
  simp only [collider.of_vertices, himpl]

/-- C17: `poly(w, h, N)` raises when `N <= 2`; otherwise it returns an
initialized collider at position `(0, 0)` with rotation `0` and exactly `N`
local vertices, vertex `i` being
`((w/2) * cos(2 * pi * i / N), (h/2) * sin(2 * pi * i / N))`. -/
theorem poly_vertices_spec (ops : FloatOps T)
    (hsqrt : ∀ x : T, 1 / 10000000 ≤ x → ops.sqrt x ≠ 0)
    (width height : T) (N : Int) :
    if N ≤ 2 then collider.poly ops width height N = .error .invalid_argument
    else ∃ impl, collider.poly ops width height N = .ok ⟨some impl⟩
      ∧ impl.position = ⟨0, 0⟩ ∧ impl.rotation = 0
      ∧ (impl.vertices.length : Int) = N
      ∧ ∀ i : Nat, (i : Int) < N →
          impl.vertices[i]? = some
            ⟨width / 2 * ops.cos (2 * ops.pi * (i : T) / (N : T)),
             height / 2 * ops.sin (2 * ops.pi * (i : T) / (N : T))⟩ := by
  split
  · next h => simp only [collider.poly, if_pos h]
  · next h =>
    obtain ⟨impl, hok, hv, hp, hr, -, -⟩ := of_vertices_ok ops hsqrt
      (poly_vertices ops (width / 2) (height / 2) (2 * ops.pi / (N : T)) N)
    refine ⟨impl, ?_, hp, hr, ?_, ?_⟩
    · simp only [collider.poly, if_neg h, hok]
    · rw [hv]
      simp only [poly_vertices, List.length_map, List.length_range]
      omega
    · intro i hi
      have hi1 : i < N.toNat := by omega
      rw [hv]
      have harg : 2 * ops.pi / (N : T) * (i : T) = 2 * ops.pi * (i : T) / (N : T) := by
        rw [div_mul_eq_mul_div]
      simp only [poly_vertices, List.getElem?_map, List.getElem?_range hi1, Option.map_some',
        harg]

/-- C17 on `poly(2, 2, 4)` with the rational instance. -/
theorem poly_vertices_spec_witness :
    if (4 : Int) ≤ 2 then collider.poly rat_ops 2 2 4 = .error .invalid_argument
    else ∃ impl, collider.poly rat_ops 2 2 4 = .ok ⟨some impl⟩
      ∧ impl.position = ⟨0, 0⟩ ∧ impl.rotation = 0
      ∧ (impl.vertices.length : Int) = 4
      ∧ ∀ i : Nat, (i : Int) < 4 →
          impl.vertices[i]? = some
            ⟨2 / 2 * rat_ops.cos (2 * rat_ops.pi * (i : ℚ) / ((4 : Int) : ℚ)),
             2 / 2 * rat_ops.sin (2 * rat_ops.pi * (i : ℚ) / ((4 : Int) : ℚ))⟩ :=
  poly_vertices_spec rat_ops rat_sqrt_ne_zero 2 2 4

theorem rounded_rect_ok (ops : FloatOps T)
    (hsqrt : ∀ x : T, 1 / 10000000 ≤ x → ops.sqrt x ≠ 0)
    (evc : Int) (hevc : 8 ≤ evc) (width height roundness : T)
    (hr : ¬ (roundness < 0 ∨ roundness > 1)) :
    ∃ impl, collider.rounded_rect ops evc width height roundness = .ok ⟨some impl⟩
      ∧ (impl.vertices.length : Int) = 4 * evc.tdiv 4
      ∧ impl.position = ⟨0, 0⟩ ∧ impl.rotation = 0 ∧ impl.fresh ops
      ∧ impl.vertices = (List.zip
          [(⟨width / 2 - roundness * (width / 2), height / 2 - roundness * (height / 2)⟩ : vec T),
           ⟨-(width / 2) + roundness * (width / 2), height / 2 - roundness * (height / 2)⟩,
           ⟨-(width / 2) + roundness * (width / 2), -(height / 2) + roundness * (height / 2)⟩,
           ⟨width / 2 - roundness * (width / 2), -(height / 2) + roundness * (height / 2)⟩]
          [0, ops.pi / 2, ops.pi, 3 * ops.pi / 2]).flatMap
        (fun cr => rounded_rect_corner ops (roundness * (width / 2))
          (roundness * (height / 2)) (ops.pi / (((evc.tdiv 4 : Int) : T) * 2)) (evc.tdiv 4)
          cr.1 cr.2) := by
  have hc : evc.tdiv 4 > 1 := by
    have h2 : (2 : Int) ≤ evc.tdiv 4 := by
      rw [Int.tdiv_eq_ediv (by omega) (by decide)]
      omega
    omega
  obtain ⟨impl, hok, hv, hp, hrot, -, hfresh⟩ := of_vertices_ok ops hsqrt
    ((List.zip
          [(⟨width / 2 - roundness * (width / 2), height / 2 - roundness * (height / 2)⟩ : vec T),
           ⟨-(width / 2) + roundness * (width / 2), height / 2 - roundness * (height / 2)⟩,
           ⟨-(width / 2) + roundness * (width / 2), -(height / 2) + roundness * (height / 2)⟩,
           ⟨width / 2 - roundness * (width / 2), -(height / 2) + roundness * (height / 2)⟩]
          [0, ops.pi / 2, ops.pi, 3 * ops.pi / 2]).flatMap
        (fun cr => rounded_rect_corner ops (roundness * (width / 2))
          (roundness * (height / 2)) (ops.pi / (((evc.tdiv 4 : Int) : T) * 2)) (evc.tdiv 4)
          cr.1 cr.2))
  refine ⟨impl, ?_, ?_, hp, hrot, hfresh, hv⟩
  · simp only [collider.rounded_rect, if_neg hr, hc, not_true_eq_false, if_false, hok]
  · rw [hv]
    simp only [List.zip_cons_cons, List.zip_nil_right, List.flatMap_cons, List.flatMap_nil,
      List.length_append, rounded_rect_corner, List.length_map, List.length_range,
      List.length_nil]
    omega

/-- C16: `rounded_rect(w, h, r)` raises when `r < 0` or `r > 1`; otherwise, for
every value of the ellipse vertex count that calls of
`set_ellipse_vertex_count` from the default can leave, it returns an
initialized collider with `4 * (ellipse_vertex_count / 4)` vertices (the `assert`
holds). -/
theorem rounded_rect_roundness (ops : FloatOps T)
    (hsqrt : ∀ x : T, 1 / 10000000 ≤ x → ops.sqrt x ≠ 0)
    (counts : List Int) (width height roundness : T) :
    if roundness < 0 ∨ roundness > 1 then
      collider.rounded_rect ops (ellipse_vertex_count_after counts) width height roundness
        = .error .invalid_argument
    else ∃ impl,
      collider.rounded_rect ops (ellipse_vertex_count_after counts) width height roundness
        = .ok ⟨some impl⟩
      ∧ (impl.vertices.length : Int) = 4 * (ellipse_vertex_count_after counts).tdiv 4 := by
  split
  · next h => simp only [collider.rounded_rect, if_pos h]
  · next h =>
    obtain ⟨impl, h1, h2, -⟩ := rounded_rect_ok ops hsqrt _
      (ellipse_vertex_count_after_ge counts) width height roundness h
    exact ⟨impl, h1, h2⟩

/-- C16 on `rounded_rect(20, 10, 1/5)` after the calls
`set_ellipse_vertex_count(-10)` and `set_ellipse_vertex_count(10)`. -/
theorem rounded_rect_roundness_witness :
    if (1 / 5 : ℚ) < 0 ∨ (1 / 5 : ℚ) > 1 then
      collider.rounded_rect rat_ops (ellipse_vertex_count_after [-10, 10]) 20 10 (1 / 5)
        = .error .invalid_argument
    else ∃ impl,
      collider.rounded_rect rat_ops (ellipse_vertex_count_after [-10, 10]) 20 10 (1 / 5)
        = .ok ⟨some impl⟩
      ∧ (impl.vertices.length : Int) = 4 * (ellipse_vertex_count_after [-10, 10]).tdiv 4 :=
  rounded_rect_roundness rat_ops rat_sqrt_ne_zero [-10, 10] 20 10 (1 / 5)

end generators

/-! ## The bounding box -/

section bounding_box

variable {T : Type} [LinearOrderedField T]

theorem dot_unit_x (v : vec T) : (vec.mk 1 0).dot v = v.x := by
  simp [vec.dot]

theorem dot_unit_y (v : vec T) : (vec.mk 0 1).dot v = v.y := by
  simp [vec.dot]

/-- The box that `transform` stores is made of the projections of the world
vertices it has just stored on `(1, 0)` and on `(0, 1)`. -/
theorem transform_aabb (ops : FloatOps T) (i i1 : Impl T)
    (h : i.transform ops = .ok i1) :
    i1.t_aabb
      = ⟨(project_loop ⟨0, 1⟩ i1.t_vertices ops.max ops.lowest).max,
         (project_loop ⟨0, 1⟩ i1.t_vertices ops.max ops.lowest).min,
         (project_loop ⟨1, 0⟩ i1.t_vertices ops.max ops.lowest).min,
         (project_loop ⟨1, 0⟩ i1.t_vertices ops.max ops.lowest).max⟩ := by
  simp only [Impl.transform] at h
  split at h
  · cases h
  · simp only [Except.ok.injEq] at h
    subst h
    rfl

/-- What `get_bounding_box` returns on an initialized collider whose cache is
up to date or marked dirty: the projections of the world vertices. -/
theorem get_bounding_box_eq (ops : FloatOps T)
    (hsqrt : ∀ x : T, 1 / 10000000 ≤ x → ops.sqrt x ≠ 0) (i : Impl T)
    (hfresh : i.fresh ops) :
    ∃ i1, (collider.mk (some i)).get_bounding_box ops = .ok (⟨some i1⟩, i1.t_aabb)
      ∧ i1.t_aabb
        = ⟨(project_loop ⟨0, 1⟩ (i.world_vertices ops) ops.max ops.lowest).max,
           (project_loop ⟨0, 1⟩ (i.world_vertices ops) ops.max ops.lowest).min,
           (project_loop ⟨1, 0⟩ (i.world_vertices ops) ops.max ops.lowest).min,
           (project_loop ⟨1, 0⟩ (i.world_vertices ops) ops.max ops.lowest).max⟩ := by
  obtain ⟨i1, hi1⟩ := ensure_transformed_ok ops hsqrt i
  obtain ⟨htv, -⟩ := ensure_transformed_cache ops i i1 hfresh hi1
  refine ⟨i1, ?_, ?_⟩
  · simp only [collider.get_bounding_box, hi1]
  · rw [← htv]
    unfold Impl.ensure_transformed at hi1
    split at hi1
    · next hd =>
      simp only [Except.ok.injEq] at hi1
      subst hi1
      exact transform_aabb ops i i (hfresh (by simpa using hd))
    · split at hi1
      · cases hi1
      · next s hs =>
        simp only [Except.ok.injEq] at hi1
        subst hi1
        exact transform_aabb ops i s hs

theorem world_vertices_ne_nil (ops : FloatOps T) (i : Impl T) (h : i.vertices ≠ []) :
    i.world_vertices ops ≠ [] := by
  simp only [Impl.world_vertices, ne_eq, List.map_eq_nil_iff]
  exact h

/-- C18, as the claim states it, fails: the collider of no points is
initialized, and its bounding box has `top = lowest` below `bottom = max` and
`right = lowest` below `left = max`; and in `float` the collider of the single
vertex `(max, 0)` moved to the position `(max, 0)` has the world vertex
`(inf, 0)`, whose projection `0 * inf + 1 * 0` on the Y axis is not a number
and replaces neither start value: its box has `top = lowest` below
`bottom = max`. -/
theorem bounding_box_inverted :
    ((collider.from_points rat_ops []).bind
        (fun c => c.get_bounding_box rat_ops)).map Prod.snd
      = .ok ⟨-flt_max, flt_max, flt_max, -flt_max⟩
    ∧ (((ieee.from_points ([⟨fp.max_value, 0⟩] : List (point (fp 24 127)))).bind
        (fun c => c.set_position fp.max_value 0)).bind (fun c => ieee.get_shape c)).map
        Prod.snd
      = .ok [⟨.inf false, .fin 0⟩]
    ∧ (((ieee.from_points ([⟨fp.max_value, 0⟩] : List (point (fp 24 127)))).bind
        (fun c => c.set_position fp.max_value 0)).bind (fun c => ieee.get_bounding_box c)).map
        Prod.snd
      = .ok ⟨fp.lowest_value, fp.max_value, fp.max_value, .inf false⟩ := by
  decide!

/-- C18, amended: for every initialized collider with at least one vertex, in
a state the methods produce, at every pose whose world vertices have both
coordinates between `lowest` and `max`, `get_bounding_box` returns a box with
`top >= bottom` and `right >= left`. -/
theorem bounding_box_ordered (ops : FloatOps T)
    (hsqrt : ∀ x : T, 1 / 10000000 ≤ x → ops.sqrt x ≠ 0) (i : Impl T)
    (hfresh : i.fresh ops) (hne : i.vertices ≠ [])
    (_hrange : ∀ v ∈ i.world_vertices ops,
      ops.lowest ≤ v.x ∧ v.x ≤ ops.max ∧ ops.lowest ≤ v.y ∧ v.y ≤ ops.max) :
    ∃ c box, (collider.mk (some i)).get_bounding_box ops = .ok (c, box)
      ∧ box.top ≥ box.bottom ∧ box.right ≥ box.left := by
  obtain ⟨i1, hget, hbox⟩ := get_bounding_box_eq ops hsqrt i hfresh
  obtain ⟨v, hv⟩ := List.exists_mem_of_ne_nil _ (world_vertices_ne_nil ops i hne)
  refine ⟨_, _, hget, ?_, ?_⟩
  · rw [hbox]
    exact le_trans (project_loop_min_le_dot _ _ _ _ v hv) (project_loop_dot_le_max _ _ _ _ v hv)
  · rw [hbox]
    exact le_trans (project_loop_min_le_dot _ _ _ _ v hv) (project_loop_dot_le_max _ _ _ _ v hv)

/-- C18, amended, on the collider of the test: `rect(5, 2)` at position
`(5, 3)` with rotation `2`. -/
theorem bounding_box_ordered_witness :
    (test_rect_state.vertices ≠ []
      ∧ ∀ v ∈ test_rect_state.world_vertices rat_ops,
          rat_ops.lowest ≤ v.x ∧ v.x ≤ rat_ops.max ∧ rat_ops.lowest ≤ v.y ∧ v.y ≤ rat_ops.max)
      ∧ ∃ c box, (collider.mk (some test_rect_state)).get_bounding_box rat_ops = .ok (c, box)
        ∧ box.top ≥ box.bottom ∧ box.right ≥ box.left :=
  ⟨⟨by decide, by decide!⟩,
   bounding_box_ordered rat_ops rat_sqrt_ne_zero test_rect_state (fun hd => by cases hd)
     (by decide) (by decide!)⟩

/-- C19, as the claim states it, fails: the collider of the single vertex
`(max, 0)` moved to the position `(max, 0)` has the world vertex
`(2 * max, 0)`, and its box has `left = max`, the start value of the minimum,
which no vertex attains. -/
theorem bounding_box_left_not_attained :
    (((collider.from_points rat_ops [⟨flt_max, 0⟩]).bind
        (fun c => c.set_position flt_max 0)).bind
        (fun c => c.get_shape rat_ops)).map Prod.snd
        = .ok [⟨2 * flt_max, 0⟩]
      ∧ (((collider.from_points rat_ops [⟨flt_max, 0⟩]).bind
        (fun c => c.set_position flt_max 0)).bind
        (fun c => c.get_bounding_box rat_ops)).map Prod.snd
        = .ok ⟨0, 0, flt_max, 2 * flt_max⟩ := by
  decide!

/-- C19, amended: for every initialized collider with at least one vertex, in
a state the methods produce, whose world vertices have both coordinates
between `lowest` and `max`, the box that `get_bounding_box` returns has
`left` the minimum and `right` the maximum of `x`, `bottom` the minimum and
`top` the maximum of `y` over the vertices that `get_shape` returns: every
vertex lies inside the box and each side is attained by a vertex. -/
theorem bounding_box_tight (ops : FloatOps T)
    (hsqrt : ∀ x : T, 1 / 10000000 ≤ x → ops.sqrt x ≠ 0) (i : Impl T)
    (hfresh : i.fresh ops) (hne : i.vertices ≠ [])
    (hrange : ∀ v ∈ i.world_vertices ops,
      ops.lowest ≤ v.x ∧ v.x ≤ ops.max ∧ ops.lowest ≤ v.y ∧ v.y ≤ ops.max) :
    ∃ c box shape, (collider.mk (some i)).get_bounding_box ops = .ok (c, box)
      ∧ ((collider.mk (some i)).get_shape ops).map Prod.snd = .ok shape
      ∧ (∀ p ∈ shape, box.left ≤ p.x ∧ p.x ≤ box.right ∧ box.bottom ≤ p.y ∧ p.y ≤ box.top)
      ∧ (∃ p ∈ shape, p.x = box.left) ∧ (∃ p ∈ shape, p.x = box.right)
      ∧ (∃ p ∈ shape, p.y = box.bottom) ∧ (∃ p ∈ shape, p.y = box.top) := by
  obtain ⟨i1, hget, hbox⟩ := get_bounding_box_eq ops hsqrt i hfresh
  obtain ⟨v0, hv0⟩ := List.exists_mem_of_ne_nil _ (world_vertices_ne_nil ops i hne)
  obtain ⟨h0a, h0b, h0c, h0d⟩ := hrange v0 hv0
  have hmem : ∀ v ∈ i.world_vertices ops,
      (⟨v.x, v.y⟩ : point T) ∈ (i.world_vertices ops).map (fun vert => ⟨vert.x, vert.y⟩) :=
    fun v hv => List.mem_map.mpr ⟨v, hv, rfl⟩
  have hxmin0 := project_loop_min_le_dot ⟨1, 0⟩ (i.world_vertices ops) ops.max ops.lowest
  have hxmax0 := project_loop_dot_le_max ⟨1, 0⟩ (i.world_vertices ops) ops.max ops.lowest
  have hymin0 := project_loop_min_le_dot ⟨0, 1⟩ (i.world_vertices ops) ops.max ops.lowest
  have hymax0 := project_loop_dot_le_max ⟨0, 1⟩ (i.world_vertices ops) ops.max ops.lowest
  simp only [dot_unit_x, dot_unit_y] at hxmin0 hxmax0 hymin0 hymax0
  refine ⟨_, _, _, hget, get_shape_eq ops hsqrt i hfresh, ?_, ?_, ?_, ?_, ?_⟩
  · intro p hp
    obtain ⟨v, hv, rfl⟩ := List.mem_map.mp hp
    rw [hbox]
    exact ⟨hxmin0 v hv, hxmax0 v hv, hymin0 v hv, hymax0 v hv⟩
  · rw [hbox]
    rcases project_loop_min_mem ⟨1, 0⟩ (i.world_vertices ops) ops.max ops.lowest with
      h | ⟨v, hv, h⟩
    · refine ⟨_, hmem v0 hv0, ?_⟩
      have := hxmin0 v0 hv0
      rw [h] at this
      simp only [h]
      exact le_antisymm h0b this
    · refine ⟨_, hmem v hv, ?_⟩
      simp only [h, dot_unit_x]
  · rw [hbox]
    rcases project_loop_max_mem ⟨1, 0⟩ (i.world_vertices ops) ops.max ops.lowest with
      h | ⟨v, hv, h⟩
    · refine ⟨_, hmem v0 hv0, ?_⟩
      have := hxmax0 v0 hv0
      rw [h] at this
      simp only [h]
      exact le_antisymm this h0a
    · refine ⟨_, hmem v hv, ?_⟩
      simp only [h, dot_unit_x]
  · rw [hbox]
    rcases project_loop_min_mem ⟨0, 1⟩ (i.world_vertices ops) ops.max ops.lowest with
      h | ⟨v, hv, h⟩
    · refine ⟨_, hmem v0 hv0, ?_⟩
      have := hymin0 v0 hv0
      rw [h] at this
      simp only [h]
      exact le_antisymm h0d this
    · refine ⟨_, hmem v hv, ?_⟩
      simp only [h, dot_unit_y]
  · rw [hbox]
    rcases project_loop_max_mem ⟨0, 1⟩ (i.world_vertices ops) ops.max ops.lowest with
      h | ⟨v, hv, h⟩
    · refine ⟨_, hmem v0 hv0, ?_⟩
      have := hymax0 v0 hv0
      rw [h] at this
      simp only [h]
      exact le_antisymm this h0c
    · refine ⟨_, hmem v hv, ?_⟩
      simp only [h, dot_unit_y]

/-- C19, amended, on the collider of the test: `rect(5, 2)` at position
`(5, 3)` with rotation `2`. -/
theorem bounding_box_tight_witness :
    (test_rect_state.vertices ≠ []
      ∧ ∀ v ∈ test_rect_state.world_vertices rat_ops,
          rat_ops.lowest ≤ v.x ∧ v.x ≤ rat_ops.max ∧ rat_ops.lowest ≤ v.y ∧ v.y ≤ rat_ops.max)
      ∧ ∃ c box shape,
        (collider.mk (some test_rect_state)).get_bounding_box rat_ops = .ok (c, box)
        ∧ ((collider.mk (some test_rect_state)).get_shape rat_ops).map Prod.snd = .ok shape
        ∧ (∀ p ∈ shape,
            box.left ≤ p.x ∧ p.x ≤ box.right ∧ box.bottom ≤ p.y ∧ p.y ≤ box.top)
        ∧ (∃ p ∈ shape, p.x = box.left) ∧ (∃ p ∈ shape, p.x = box.right)
        ∧ (∃ p ∈ shape, p.y = box.bottom) ∧ (∃ p ∈ shape, p.y = box.top) :=
  ⟨⟨by decide, by decide!⟩,
   bounding_box_tight rat_ops rat_sqrt_ne_zero test_rect_state (fun hd => by cases hd)
     (by decide) (by decide!)⟩

end bounding_box

/-! ## `from_points` on concrete inputs -/

section hull_evaluations

/-- C12, at a failing input: of the four points `(0,0), (1,3), (2,3), (4,4)`
the point `(2,3)` lies strictly inside the triangle of the other three, and
`from_points` returns four vertices, `(2,3)` among them. -/
theorem hull_keeps_interior_point :
    (0 < orientation (⟨0, 0⟩ : vec ℚ) ⟨4, 4⟩ ⟨2, 3⟩
      ∧ 0 < orientation (⟨4, 4⟩ : vec ℚ) ⟨1, 3⟩ ⟨2, 3⟩
      ∧ 0 < orientation (⟨1, 3⟩ : vec ℚ) ⟨0, 0⟩ ⟨2, 3⟩)
      ∧ (collider.from_points rat_ops [⟨0, 0⟩, ⟨1, 3⟩, ⟨2, 3⟩, ⟨4, 4⟩]).map
          (fun c => c.impl.map (fun i => i.vertices))
        = .ok (some [⟨0, 0⟩, ⟨2, 3⟩, ⟨4, 4⟩, ⟨1, 3⟩]) := by
  decide!

/-- C13, at a failing input: the four points `(0,0), (1,1), (2,3), (3,6)` are in
convex position and not collinear; `from_points` returns the six vertices
`(0,0), (1,1), (2,3), (3,6), (2,3), (1,1)`, in which `(2,3), (3,6), (2,3)` is not
a left turn and `(1,1)` and `(2,3)` occur twice. -/
theorem hull_not_strictly_convex :
    0 < orientation (⟨0, 0⟩ : vec ℚ) ⟨1, 1⟩ ⟨2, 3⟩
      ∧ (collider.from_points rat_ops [⟨0, 0⟩, ⟨1, 1⟩, ⟨2, 3⟩, ⟨3, 6⟩]).map
          (fun c => c.impl.map (fun i => i.vertices))
        = .ok (some [⟨0, 0⟩, ⟨1, 1⟩, ⟨2, 3⟩, ⟨3, 6⟩, ⟨2, 3⟩, ⟨1, 1⟩])
      ∧ orientation (⟨2, 3⟩ : vec ℚ) ⟨3, 6⟩ ⟨2, 3⟩ = 0 := by
  decide!

end hull_evaluations

/-! ## Degenerate shapes -/

section degenerate

variable {T : Type} [LinearOrderedField T]

theorem calculate_axes_loop_const (ops : FloatOps T) (vertices : List (vec T)) (p : vec T)
    (hp : ∀ v ∈ vertices, v = p) (idx : List Nat) (axes : List (vec T))
    (hidx : ∀ i ∈ idx, i < vertices.length) :
    calculate_axes_loop ops vertices idx axes = .ok axes := by
  induction idx with
  | nil => rfl
  | cons i rest ih =>
    have hi : i < vertices.length := hidx i (List.mem_cons_self _ _)
    have hpos : 0 < vertices.length := lt_of_le_of_lt (Nat.zero_le _) hi
    have hj : (i + 1) % vertices.length < vertices.length := Nat.mod_lt _ hpos
    have ha : vertices.get ⟨i, hi⟩ = p := hp _ (List.get_mem _ _ _)
    have hb : vertices.get ⟨(i + 1) % vertices.length, hj⟩ = p := hp _ (List.get_mem _ _ _)
    have hlt : (p.sub p).dot (p.sub p) < 1 / 10000000 := by
      simp only [vec.sub, vec.dot, sub_self, mul_zero, add_zero]
      norm_num
    simp only [calculate_axes_loop, elem_at_of_lt vertices i hi, elem_at_of_lt vertices _ hj,
      ha, hb, hlt, if_true]
    exact ih (fun j hj1 => hidx j (List.mem_cons_of_mem _ hj1))

/-- A shape all of whose vertices coincide has no separating axis. -/
theorem calculate_axes_const (ops : FloatOps T) (vertices : List (vec T)) (p : vec T)
    (hp : ∀ v ∈ vertices, v = p) : calculate_axes ops vertices = .ok [] :=
  calculate_axes_loop_const ops vertices p hp _ [] (fun _ hi => List.mem_range.mp hi)

/-- A shape all of whose local vertices are `(0, 0)` has no separating axis,
whatever its position and its rotation. -/
theorem zero_vertices_no_axes (ops : FloatOps T) (i : Impl T)
    (hz : ∀ v ∈ i.vertices, v = ⟨0, 0⟩) :
    calculate_axes ops (i.world_vertices ops) = .ok [] := by
  apply calculate_axes_const ops _ i.position
  intro w hw
  simp only [Impl.world_vertices, List.mem_map] at hw
  obtain ⟨v, hv, rfl⟩ := hw
  rw [hz v hv]
  simp [vec.rotate, vec.add]

theorem ensure_transformed_no_axes (ops : FloatOps T) (i : Impl T) (hfresh : i.fresh ops)
    (h : calculate_axes ops (i.world_vertices ops) = .ok []) :
    ∃ i1, i.ensure_transformed ops = .ok i1 ∧ i1.t_axes = []
      ∧ i1.vertices = i.vertices ∧ i1.dirty = false := by
  have htr : ∃ s, i.transform ops = .ok s ∧ s.t_axes = [] ∧ s.vertices = i.vertices := by
    simp only [Impl.world_vertices] at h
    simp only [Impl.transform, h]
    exact ⟨_, rfl, rfl, rfl⟩
  obtain ⟨s, hs, hs1, hs2⟩ := htr
  unfold Impl.ensure_transformed
  split
  · next hd =>
    have hd1 : i.dirty = false := by simpa using hd
    have hi := hfresh hd1
    rw [hs] at hi
    simp only [Except.ok.injEq] at hi
    subst hi
    exact ⟨s, rfl, hs1, rfl, hd1⟩
  · rw [hs]
    exact ⟨_, rfl, hs1, hs2, rfl⟩

/-- Two distinct initialized colliders without separating axes do not collide:
`is_colliding_with` returns false and leaves `out` as it was. -/
theorem no_axes_not_colliding (ops : FloatOps T) (ti oi : Impl T) (out : collision T)
    (hft : ti.fresh ops) (hfo : oi.fresh ops)
    (ht : calculate_axes ops (ti.world_vertices ops) = .ok [])
    (ho : calculate_axes ops (oi.world_vertices ops) = .ok []) :
    ((collider.mk (some ti)).is_colliding_with ops (.distinct ⟨some oi⟩) out).map
      (fun r => (r.value, r.out)) = .ok (false, out) := by
  obtain ⟨ti1, h1, h1a, -⟩ := ensure_transformed_no_axes ops ti hft ht
  obtain ⟨oi1, h2, h2a, -⟩ := ensure_transformed_no_axes ops oi hfo ho
  simp only [collider.is_colliding_with, is_colliding_with_distinct, h1, h2, Impl.get_axes,
    h1a, h2a, List.append_nil, List.isEmpty_nil, if_true, Except.map]

/-- A collider built from vertices that are all `(0, 0)`: the constructor does
not raise. -/
theorem of_vertices_zero (ops : FloatOps T) (vertices : List (vec T))
    (hz : ∀ v ∈ vertices, v = ⟨0, 0⟩) :
    ∃ impl, collider.of_vertices ops vertices = .ok ⟨some impl⟩
      ∧ impl.vertices = vertices ∧ impl.fresh ops := by
  have h := zero_vertices_no_axes ops
    { vertices := vertices, position := ⟨0, 0⟩, rotation := 0,
      t_vertices := [], t_axes := [], t_aabb := ⟨0, 0, 0, 0⟩, dirty := false } hz
  have htr : ∃ s, Impl.new ops vertices = .ok s := by
    simp only [Impl.world_vertices] at h
    simp only [Impl.new, Impl.transform, h]
    exact ⟨_, rfl⟩
  obtain ⟨s, hs⟩ := htr
  obtain ⟨hv, -⟩ := transform_fields ops _ s hs
  refine ⟨s, ?_, hv, fun _ => transform_idem ops _ s hs⟩
  simp only [collider.of_vertices, hs]

theorem degenerate_shapes_zero (ops : FloatOps T) (evc : Int) (hevc : 8 ≤ evc)
    (N : Int) (hN : 3 ≤ N) (r : T) (hr0 : 0 ≤ r) (hr1 : r ≤ 1) :
    ∀ c ∈ degenerate_shapes ops evc N r,
      ∃ i, c = .ok ⟨some i⟩ ∧ (∀ v ∈ i.vertices, v = ⟨0, 0⟩) ∧ i.fresh ops := by
  have hfrom : ∀ vs : List (vec T), (∀ v ∈ vs, v = ⟨0, 0⟩) →
      ∃ i, collider.of_vertices ops vs = .ok ⟨some i⟩ ∧ (∀ v ∈ i.vertices, v = ⟨0, 0⟩)
        ∧ i.fresh ops := by
    intro vs hz
    obtain ⟨i, h1, h2, h3⟩ := of_vertices_zero ops vs hz
    exact ⟨i, h1, by rw [h2]; exact hz, h3⟩
  intro c hc
  simp only [degenerate_shapes, List.mem_cons, List.mem_singleton, List.not_mem_nil,
    or_false] at hc
  rcases hc with rfl | rfl | rfl | rfl | rfl
  · simp only [collider.rect]
    apply hfrom
    intro v hv
    simp only [List.mem_cons, List.mem_singleton, List.not_mem_nil, or_false] at hv
    rcases hv with rfl | rfl | rfl | rfl <;> simp
  · have hN2 : ¬ N ≤ 2 := by omega
    simp only [collider.poly, if_neg hN2]
    apply hfrom
    intro v hv
    simp only [poly_vertices, List.mem_map] at hv
    obtain ⟨j, -, rfl⟩ := hv
    simp
  · simp only [collider.capsule]
    apply hfrom
    intro v hv
    simp only [capsule_arc, List.mem_append, List.mem_map] at hv
    rcases hv with ⟨j, -, rfl⟩ | ⟨j, -, rfl⟩ <;> simp [vec.add]
  · have hr : ¬ (r < 0 ∨ r > 1) := by
      intro h
      rcases h with h | h
      · exact absurd hr0 (not_le.mpr h)
      · exact absurd hr1 (not_le.mpr h)
    have hc : evc.tdiv 4 > 1 := by
      have h2 : (2 : Int) ≤ evc.tdiv 4 := by
        rw [Int.tdiv_eq_ediv (by omega) (by decide)]
        omega
      omega
    simp only [collider.rounded_rect, if_neg hr, hc, not_true_eq_false, if_false]
    apply hfrom
    intro v hv
    simp only [List.zip_cons_cons, List.zip_nil_right, List.flatMap_cons, List.flatMap_nil,
      List.mem_append, rounded_rect_corner, List.mem_map, List.not_mem_nil, or_false] at hv
    rcases hv with ⟨j, -, rfl⟩ | ⟨j, -, rfl⟩ | ⟨j, -, rfl⟩ | ⟨j, -, rfl⟩ <;> simp [vec.add]
  · simp only [collider.from_points, List.map_nil, List.length_nil, Nat.zero_le, if_true]
    apply hfrom
    intro v hv
    cases hv

/-- C11: two distinct initialized colliders that both have no separating axis
do not collide, `is_colliding_with` returns false; in particular any two of
`rect(0, 0)`, `poly(0, 0, N)` with `N >= 3`, `capsule(0, 0)`,
`rounded_rect(0, 0, r)` with `r` in `[0, 1]` and `from_points` of no points are
constructed without raising and do not collide, as constructed and at any
positions and rotations. -/
theorem degenerate_pairs_never_collide (ops : FloatOps T) (counts : List Int)
    (N : Int) (hN : 3 ≤ N) (r : T) (hr0 : 0 ≤ r) (hr1 : r ≤ 1) :
    (∀ (ti oi : Impl T) (out : collision T), ti.fresh ops → oi.fresh ops →
        calculate_axes ops (ti.world_vertices ops) = .ok [] →
        calculate_axes ops (oi.world_vertices ops) = .ok [] →
        ((collider.mk (some ti)).is_colliding_with ops (.distinct ⟨some oi⟩) out).map
          (fun r => (r.value, r.out)) = .ok (false, out))
      ∧ (∀ c1 ∈ degenerate_shapes ops (ellipse_vertex_count_after counts) N r,
          ∀ c2 ∈ degenerate_shapes ops (ellipse_vertex_count_after counts) N r,
          ∀ out : collision T,
            (c1.bind (fun a => c2.bind (fun b =>
              a.is_colliding_with ops (.distinct b) out))).map
              (fun r => (r.value, r.out)) = .ok (false, out))
      ∧ (∀ c1 ∈ degenerate_shapes ops (ellipse_vertex_count_after counts) N r,
          ∀ c2 ∈ degenerate_shapes ops (ellipse_vertex_count_after counts) N r,
          ∀ (x1 y1 theta1 x2 y2 theta2 : T) (out : collision T),
            ((posed c1 x1 y1 theta1).bind (fun a => (posed c2 x2 y2 theta2).bind (fun b =>
              a.is_colliding_with ops (.distinct b) out))).map
              (fun r => (r.value, r.out)) = .ok (false, out)) := by
  have hz := degenerate_shapes_zero ops _ (ellipse_vertex_count_after_ge counts) N hN r hr0 hr1
  refine ⟨fun ti oi out hft hfo ht ho => no_axes_not_colliding ops ti oi out hft hfo ht ho,
    ?_, ?_⟩
  · intro c1 hc1 c2 hc2 out
    obtain ⟨i1, rfl, hz1, hf1⟩ := hz c1 hc1
    obtain ⟨i2, rfl, hz2, hf2⟩ := hz c2 hc2
    exact no_axes_not_colliding ops i1 i2 out hf1 hf2 (zero_vertices_no_axes ops i1 hz1)
      (zero_vertices_no_axes ops i2 hz2)
  · intro c1 hc1 c2 hc2 x1 y1 theta1 x2 y2 theta2 out
    obtain ⟨i1, rfl, hz1, -⟩ := hz c1 hc1
    obtain ⟨i2, rfl, hz2, -⟩ := hz c2 hc2
    exact no_axes_not_colliding ops
      { i1 with position := ⟨x1, y1⟩, rotation := theta1, dirty := true }
      { i2 with position := ⟨x2, y2⟩, rotation := theta2, dirty := true } out
      (fun hd => by cases hd) (fun hd => by cases hd)
      (zero_vertices_no_axes ops _ hz1) (zero_vertices_no_axes ops _ hz2)

/-- C11 on the shapes of the tests: `poly(0, 0, 10)` and
`rounded_rect(0, 0, 1/5)` with the default ellipse vertex count; `rect(0, 0)`
at `(3, 4)` with rotation `1` against `capsule(0, 0)` does not collide. -/
theorem degenerate_pairs_never_collide_witness :
    ((3 : Int) ≤ 10 ∧ (0 : ℚ) ≤ 1 / 5 ∧ (1 / 5 : ℚ) ≤ 1)
      ∧ ((posed (collider.rect rat_ops 0 0) 3 4 1).bind (fun a =>
          (posed (collider.capsule rat_ops (ellipse_vertex_count_after []) 0 0) 0 0 0).bind
            (fun b => a.is_colliding_with rat_ops (.distinct b) ⟨0, 0, 0⟩))).map
          (fun r => (r.value, r.out)) = .ok (false, ⟨0, 0, 0⟩) :=
  ⟨⟨by decide, by norm_num, by norm_num⟩,
   (degenerate_pairs_never_collide rat_ops [] 10 (by decide) (1 / 5) (by norm_num)
      (by norm_num)).2.2 _ (by simp [degenerate_shapes]) _ (by simp [degenerate_shapes])
      3 4 1 0 0 0 ⟨0, 0, 0⟩⟩

end degenerate

/-! ## The value that `is_colliding_with` returns -/

section sat_value

variable {T : Type} [LinearOrderedField T]

theorem normalize_eq (ops : FloatOps T) (v : vec T) (h : ops.sqrt (v.dot v) ≠ 0) :
    v.normalize ops = .ok (v.normalized ops) := by
  simp only [vec.normalize, vec.normalized]
  rw [if_neg h]

theorem elem_at_getD (vertices : List (vec T)) (i : Nat) (h : i < vertices.length) :
    elem_at vertices i = .ok (vertices.getD i ⟨0, 0⟩) := by
  simp [elem_at, List.getD, List.getElem?_eq_getElem h]

theorem calculate_axes_loop_cons (ops : FloatOps T)
    (hsqrt : ∀ x : T, 1 / 10000000 ≤ x → ops.sqrt x ≠ 0)
    (vertices : List (vec T)) (i : Nat) (rest : List Nat) (axes : List (vec T))
    (hi : i < vertices.length) :
    calculate_axes_loop ops vertices (i :: rest) axes
      = calculate_axes_loop ops vertices rest
          (axes ++ edge_axis ops (vertices.getD i ⟨0, 0⟩)
            (vertices.getD ((i + 1) % vertices.length) ⟨0, 0⟩)) := by
  have hpos : 0 < vertices.length := lt_of_le_of_lt (Nat.zero_le _) hi
  simp only [calculate_axes_loop, elem_at_getD vertices i hi,
    elem_at_getD vertices _ (Nat.mod_lt (i + 1) hpos), edge_axis]
  split
  · simp
  · next hge =>
    have hne := hsqrt _ (not_lt.mp hge)
    rw [← perp_dot_self] at hne
    rw [normalize_eq ops _ hne]

theorem calculate_axes_loop_eq (ops : FloatOps T)
    (hsqrt : ∀ x : T, 1 / 10000000 ≤ x → ops.sqrt x ≠ 0)
    (vertices : List (vec T)) (idx : List Nat) (axes : List (vec T))
    (hidx : ∀ i ∈ idx, i < vertices.length) :
    calculate_axes_loop ops vertices idx axes
      = .ok (axes ++ idx.flatMap (fun i =>
          edge_axis ops (vertices.getD i ⟨0, 0⟩)
            (vertices.getD ((i + 1) % vertices.length) ⟨0, 0⟩))) := by
  induction idx generalizing axes with
  | nil => simp [calculate_axes_loop]
  | cons i rest ih =>
    have hi : i < vertices.length := hidx i (List.mem_cons_self _ _)
    have hrest : ∀ j ∈ rest, j < vertices.length :=
      fun j hj => hidx j (List.mem_cons_of_mem _ hj)
    rw [calculate_axes_loop_cons ops hsqrt vertices i rest axes hi, ih _ hrest,
      List.flatMap_cons, List.append_assoc]

/-- The closed form of `calculate_axes`, for a square root that is not zero
where `normalize` is called. -/
theorem calculate_axes_eq (ops : FloatOps T)
    (hsqrt : ∀ x : T, 1 / 10000000 ≤ x → ops.sqrt x ≠ 0) (vertices : List (vec T)) :
    calculate_axes ops vertices = .ok (axes_of ops vertices) := by
  simp only [calculate_axes, axes_of]
  rw [calculate_axes_loop_eq ops hsqrt vertices _ [] (fun _ hi => List.mem_range.mp hi)]
  simp

/-- The loop of `is_colliding_with` runs to its end exactly when no axis of the
list separates the two projections. -/
theorem sat_loop_isSome_iff (ops : FloatOps T) (this other : Impl T) (axes : List (vec T))
    (s : T) (a : vec T) :
    (sat_loop ops this other axes s a).isSome = true
      ↔ ∀ ax ∈ axes, ¬ separated_on ops this.t_vertices other.t_vertices ax := by
  induction axes generalizing s a with
  | nil => simp [sat_loop]
  | cons ax rest ih =>
    simp only [sat_loop, List.mem_cons, forall_eq_or_imp]
    split
    · next hsep =>
      simp only [Option.isSome_none, Bool.false_eq_true, false_iff, not_and]
      intro hcon
      exact absurd hsep hcon
    · next hsep =>
      have h1 : ¬ separated_on ops this.t_vertices other.t_vertices ax := hsep
      split
      · rw [ih]
        exact ⟨fun h => ⟨h1, h⟩, fun h => h.2⟩
      · rw [ih]
        exact ⟨fun h => ⟨h1, h⟩, fun h => h.2⟩

/-- The value of `is_colliding_with` on two distinct initialized colliders, in
states the methods produce: the call does not raise, and it returns true
exactly when the two shapes have an axis between them and none of their axes
separates the projections of their world vertices. -/
theorem is_colliding_with_value (ops : FloatOps T)
    (hsqrt : ∀ x : T, 1 / 10000000 ≤ x → ops.sqrt x ≠ 0)
    (ti oi : Impl T) (out : collision T) (hft : ti.fresh ops) (hfo : oi.fresh ops) :
    ∃ r, (collider.mk (some ti)).is_colliding_with ops (.distinct ⟨some oi⟩) out = .ok r
      ∧ (r.value = true ↔
          (axes_of ops (ti.world_vertices ops) ++ axes_of ops (oi.world_vertices ops) ≠ []
            ∧ ∀ ax ∈ axes_of ops (ti.world_vertices ops)
                  ++ axes_of ops (oi.world_vertices ops),
                ¬ separated_on ops (ti.world_vertices ops) (oi.world_vertices ops) ax)) := by
  obtain ⟨ti1, h1⟩ := ensure_transformed_ok ops hsqrt ti
  obtain ⟨oi1, h2⟩ := ensure_transformed_ok ops hsqrt oi
  obtain ⟨htv, hta⟩ := ensure_transformed_cache ops ti ti1 hft h1
  obtain ⟨hov, hoa⟩ := ensure_transformed_cache ops oi oi1 hfo h2
  rw [calculate_axes_eq ops hsqrt] at hta hoa
  simp only [Except.ok.injEq] at hta hoa
  rw [htv] at hta
  rw [hov] at hoa
  have hsome := sat_loop_isSome_iff ops ti1 oi1 (ti1.t_axes ++ oi1.t_axes) ops.max ⟨0, 0⟩
  rw [htv, hov, ← hta, ← hoa] at hsome
  simp only [collider.is_colliding_with, is_colliding_with_distinct, h1, h2, Impl.get_axes]
  rw [← hta, ← hoa]
  split
  · next hemp =>
    refine ⟨_, rfl, ?_⟩
    simp only [Bool.false_eq_true, false_iff, not_and]
    intro hne
    exact absurd (List.isEmpty_iff.mp hemp) hne
  · next hemp =>
    have hne : axes_of ops (ti.world_vertices ops) ++ axes_of ops (oi.world_vertices ops)
        ≠ [] := fun h => hemp (List.isEmpty_iff.mpr h)
    split
    · next hnone =>
      refine ⟨_, rfl, ?_⟩
      simp only [Bool.false_eq_true, false_iff, not_and]
      intro _ hall
      have := hsome.mpr hall
      rw [hnone] at this
      simp at this
    · next smallest axis0 hs =>
      refine ⟨_, rfl, ?_⟩
      simp only [true_iff]
      refine ⟨hne, hsome.mp ?_⟩
      rw [hs]
      rfl

theorem project_step_min (d m : T) : (if d < m then d else m) = min d m := by
  rcases lt_or_le d m with h | h
  · rw [if_pos h, min_eq_left (le_of_lt h)]
  · rw [if_neg (not_lt.mpr h), min_eq_right h]

theorem project_step_max (d m : T) : (if d > m then d else m) = max d m := by
  rcases lt_or_le m d with h | h
  · rw [if_pos h, max_eq_left (le_of_lt h)]
  · rw [if_neg (not_lt.mpr h), max_eq_right h]

/-- The projection of a shape does not depend on the order of its vertices. -/
theorem project_loop_perm (axis : vec T) {vs ws : List (vec T)} (h : vs.Perm ws)
    (mn mx : T) : project_loop axis vs mn mx = project_loop axis ws mn mx := by
  induction h generalizing mn mx with
  | nil => rfl
  | cons x _ ih =>
    simp only [project_loop]
    exact ih _ _
  | swap x y l =>
    simp only [project_loop, project_step_min, project_step_max]
    rw [min_left_comm, max_left_comm]
  | trans _ _ ih1 ih2 => exact (ih1 _ _).trans (ih2 _ _)

theorem separated_on_perm_right (ops : FloatOps T) (vs : List (vec T))
    {ws ws1 : List (vec T)} (h : ws.Perm ws1) (axis : vec T) :
    separated_on ops vs ws axis ↔ separated_on ops vs ws1 axis := by
  simp only [separated_on, project_loop_perm axis h]

theorem separated_on_perm_left (ops : FloatOps T) (ws : List (vec T))
    {vs vs1 : List (vec T)} (h : vs.Perm vs1) (axis : vec T) :
    separated_on ops vs ws axis ↔ separated_on ops vs1 ws axis := by
  simp only [separated_on, project_loop_perm axis h]

/-- The condition under which `is_colliding_with` returns true depends on the
axes only through the set they form. -/
theorem sat_condition_congr {α : Type} {A1 A2 : List α} {sep1 sep2 : α → Prop}
    (hmem : ∀ ax, ax ∈ A1 ↔ ax ∈ A2) (hsep : ∀ ax, sep1 ax ↔ sep2 ax) :
    (A1 ≠ [] ∧ ∀ ax ∈ A1, ¬ sep1 ax) ↔ (A2 ≠ [] ∧ ∀ ax ∈ A2, ¬ sep2 ax) := by
  constructor
  · rintro ⟨hne, hall⟩
    obtain ⟨a, ha⟩ := List.exists_mem_of_ne_nil _ hne
    exact ⟨List.ne_nil_of_mem ((hmem a).mp ha),
      fun ax hax => fun hs => hall ax ((hmem ax).mpr hax) ((hsep ax).mpr hs)⟩
  · rintro ⟨hne, hall⟩
    obtain ⟨a, ha⟩ := List.exists_mem_of_ne_nil _ hne
    exact ⟨List.ne_nil_of_mem ((hmem a).mpr ha),
      fun ax hax => fun hs => hall ax ((hmem ax).mp hax) ((hsep ax).mp hs)⟩

theorem perm_shift_two {α : Type} (a b c d : α) : [c, d, a, b].Perm [a, b, c, d] := by
  have h : ([c, d] ++ [a, b]).Perm ([a, b] ++ [c, d]) := List.perm_append_comm
  exact h

theorem axes_of_four (ops : FloatOps T) (a b c d : vec T) :
    axes_of ops [a, b, c, d]
      = edge_axis ops a b ++ (edge_axis ops b c ++ (edge_axis ops c d
          ++ (edge_axis ops d a ++ []))) := by
  have hr : List.range 4 = [0, 1, 2, 3] := by decide
  simp only [axes_of, List.length_cons, List.length_nil, Nat.zero_add, Nat.reduceAdd, hr,
    List.flatMap_cons, List.flatMap_nil, Nat.reduceMod, List.getD_cons_zero,
    List.getD_cons_succ]

/-- The axes of a quadrilateral and of the same quadrilateral listed from its
third vertex on are the same axes. -/
theorem axes_of_four_shift (ops : FloatOps T) (a b c d ax : vec T) :
    ax ∈ axes_of ops [c, d, a, b] ↔ ax ∈ axes_of ops [a, b, c, d] := by
  simp only [axes_of_four, List.mem_append, List.not_mem_nil, or_false]
  tauto

/-- Two calls of `is_colliding_with` whose shapes have the same axes and the
same separations return the same value, and neither raises. -/
theorem is_colliding_with_value_congr (ops : FloatOps T)
    (hsqrt : ∀ x : T, 1 / 10000000 ≤ x → ops.sqrt x ≠ 0)
    (ti oi ti1 oi1 : Impl T) (out : collision T)
    (hft : ti.fresh ops) (hfo : oi.fresh ops) (hft1 : ti1.fresh ops) (hfo1 : oi1.fresh ops)
    (hmem : ∀ ax, ax ∈ axes_of ops (ti.world_vertices ops) ++ axes_of ops (oi.world_vertices ops)
      ↔ ax ∈ axes_of ops (ti1.world_vertices ops) ++ axes_of ops (oi1.world_vertices ops))
    (hsep : ∀ ax, separated_on ops (ti.world_vertices ops) (oi.world_vertices ops) ax
      ↔ separated_on ops (ti1.world_vertices ops) (oi1.world_vertices ops) ax) :
    ((collider.mk (some ti)).is_colliding_with ops (.distinct ⟨some oi⟩) out).map
        (fun r => r.value)
      = ((collider.mk (some ti1)).is_colliding_with ops (.distinct ⟨some oi1⟩) out).map
        (fun r => r.value)
    ∧ (((collider.mk (some ti)).is_colliding_with ops (.distinct ⟨some oi⟩) out).map
        (fun r => r.value)).toOption.isSome = true := by
  obtain ⟨r, hr, hrv⟩ := is_colliding_with_value ops hsqrt ti oi out hft hfo
  obtain ⟨r1, hr1, hrv1⟩ := is_colliding_with_value ops hsqrt ti1 oi1 out hft1 hfo1
  rw [hr, hr1]
  refine ⟨?_, rfl⟩
  simp only [Except.map, Except.ok.injEq]
  rw [Bool.eq_iff_iff, hrv, hrv1]
  exact sat_condition_congr hmem hsep

/-- The collider `rect(w, h)` placed at `(x, y)` with the rotation `theta`: its
state and its four world vertices. -/
theorem rect_posed_world (ops : FloatOps T)
    (hsqrt : ∀ x : T, 1 / 10000000 ≤ x → ops.sqrt x ≠ 0) (w h x y theta : T) :
    ∃ i, posed (collider.rect ops w h) x y theta = .ok ⟨some i⟩ ∧ i.fresh ops
      ∧ i.world_vertices ops
        = [((⟨-(w / 2), -(h / 2)⟩ : vec T).rotate ops theta).add ⟨x, y⟩,
           ((⟨w / 2, -(h / 2)⟩ : vec T).rotate ops theta).add ⟨x, y⟩,
           ((⟨w / 2, h / 2⟩ : vec T).rotate ops theta).add ⟨x, y⟩,
           ((⟨-(w / 2), h / 2⟩ : vec T).rotate ops theta).add ⟨x, y⟩] := by
  obtain ⟨impl, hok, hv, -⟩ := of_vertices_ok ops hsqrt
    [(⟨-(w / 2), -(h / 2)⟩ : vec T), ⟨w / 2, -(h / 2)⟩, ⟨w / 2, h / 2⟩, ⟨-(w / 2), h / 2⟩]
  refine ⟨{ impl with position := ⟨x, y⟩, rotation := theta, dirty := true }, ?_,
    (fun hd => by cases hd), ?_⟩
  · simp only [posed, collider.rect, hok, Except.bind, collider.set_position,
      collider.set_rotation]
  · simp only [Impl.world_vertices, hv, List.map_cons, List.map_nil]

/-- C20: `rect(-w, -h)` is constructed without raising, and against every
initialized collider, in either order of the two, `rect(-w, -h)` and
`rect(w, h)` placed at the same position with the same rotation make
`is_colliding_with` return the same value; none of the calls raises. -/
theorem inverted_rect_same_result (ops : FloatOps T)
    (hsqrt : ∀ x : T, 1 / 10000000 ≤ x → ops.sqrt x ≠ 0)
    (w h x y theta : T) (si : Impl T) (hs : si.fresh ops) (out : collision T) :
    (collider.rect ops (-w) (-h)).toOption.isSome = true
    ∧ ((posed (collider.rect ops (-w) (-h)) x y theta).bind (fun R =>
          (collider.mk (some si)).is_colliding_with ops (.distinct R) out)).map
          (fun r => r.value)
        = ((posed (collider.rect ops w h) x y theta).bind (fun R =>
          (collider.mk (some si)).is_colliding_with ops (.distinct R) out)).map
          (fun r => r.value)
    ∧ ((posed (collider.rect ops (-w) (-h)) x y theta).bind (fun R =>
          R.is_colliding_with ops (.distinct ⟨some si⟩) out)).map (fun r => r.value)
        = ((posed (collider.rect ops w h) x y theta).bind (fun R =>
          R.is_colliding_with ops (.distinct ⟨some si⟩) out)).map (fun r => r.value)
    ∧ (((posed (collider.rect ops (-w) (-h)) x y theta).bind (fun R =>
          (collider.mk (some si)).is_colliding_with ops (.distinct R) out)).map
          (fun r => r.value)).toOption.isSome = true
    ∧ (((posed (collider.rect ops (-w) (-h)) x y theta).bind (fun R =>
          R.is_colliding_with ops (.distinct ⟨some si⟩) out)).map
          (fun r => r.value)).toOption.isSome = true := by
  obtain ⟨c0, hc0, -⟩ := of_vertices_ok ops hsqrt
    [(⟨-(-w / 2), -(-h / 2)⟩ : vec T), ⟨-w / 2, -(-h / 2)⟩, ⟨-w / 2, -h / 2⟩,
      ⟨-(-w / 2), -h / 2⟩]
  obtain ⟨i1, hp1, hf1, hw1⟩ := rect_posed_world ops hsqrt w h x y theta
  obtain ⟨i2, hp2, hf2, hw2⟩ := rect_posed_world ops hsqrt (-w) (-h) x y theta
  simp only [neg_div, neg_neg] at hw2
  have hperm : (i2.world_vertices ops).Perm (i1.world_vertices ops) := by
    rw [hw1, hw2]
    exact perm_shift_two _ _ _ _
  have hax : ∀ ax, ax ∈ axes_of ops (i2.world_vertices ops)
      ↔ ax ∈ axes_of ops (i1.world_vertices ops) := by
    intro ax
    rw [hw1, hw2]
    exact axes_of_four_shift ops _ _ _ _ ax
  have h1 := is_colliding_with_value_congr ops hsqrt si i2 si i1 out hs hf2 hs hf1
    (fun ax => by simp only [List.mem_append, hax ax])
    (fun ax => separated_on_perm_right ops _ hperm ax)
  have h2 := is_colliding_with_value_congr ops hsqrt i2 si i1 si out hf2 hs hf1 hs
    (fun ax => by simp only [List.mem_append, hax ax])
    (fun ax => separated_on_perm_left ops _ hperm ax)
  refine ⟨?_, ?_, ?_, ?_, ?_⟩
  · simp only [collider.rect, hc0]
    rfl
  · rw [hp1, hp2]
    exact h1.1
  · rw [hp1, hp2]
    exact h2.1
  · rw [hp2]
    exact h1.2
  · rw [hp2]
    exact h2.2

/-- C20 on the rectangles of the test: `rect(20, 10)` at `(0.1, 0.1)` collides
with `rect(-20, -10)`, and `rect(-20, -10)` and `rect(20, 10)` at the origin give
the same value against `rect(2, 2)` at `(1, 0)`. -/
theorem inverted_rect_same_result_witness :
    ((posed (collider.rect rat_ops 20 10) (1 / 10) (1 / 10) 0).bind (fun S =>
        (collider.rect rat_ops (-20) (-10)).bind (fun R =>
          S.is_colliding_with rat_ops (.distinct R) ⟨0, 0, 0⟩))).map (fun r => r.value)
        = .ok true
    ∧ ((posed (collider.rect rat_ops (-20) (-10)) 0 0 0).bind (fun R =>
          (collider.mk (some (square_at 1))).is_colliding_with rat_ops (.distinct R)
            ⟨0, 0, 0⟩)).map (fun r => r.value)
        = ((posed (collider.rect rat_ops 20 10) 0 0 0).bind (fun R =>
          (collider.mk (some (square_at 1))).is_colliding_with rat_ops (.distinct R)
            ⟨0, 0, 0⟩)).map (fun r => r.value) :=
  ⟨by decide!,
   (inverted_rect_same_result rat_ops rat_sqrt_ne_zero 20 10 0 0 0 (square_at 1)
    (fun _ => by decide!) ⟨0, 0, 0⟩).2.1⟩

end sat_value

/-! ## `from_points`: the loops seen on a stack -/

section hull_stack

variable {T : Type} [LinearOrderedField T]

theorem take_succ_reverse {α : Type} (l : List α) (d : α) (k : Nat) (h : k < l.length) :
    (l.take (k + 1)).reverse = l.getD k d :: (l.take k).reverse := by
  rw [List.take_succ, List.getElem?_eq_getElem h]
  simp [List.getD, List.getElem?_eq_getElem h]

theorem take_set_succ_reverse {α : Type} (l : List α) (k : Nat) (p : α)
    (h : k < l.length) :
    ((l.set k p).take (k + 1)).reverse = p :: (l.take k).reverse := by
  have h1 : k < (l.set k p).length := by simpa using h
  rw [List.take_succ, List.getElem?_eq_getElem h1, List.set_take,
    List.set_eq_of_length_le (by simp)]
  simp

theorem rstack_pop_of_length_lt (t : Nat) (p : vec T) (rs : List (vec T))
    (h : rs.length < t) : rstack_pop t p rs = rs := by
  match rs with
  | [] => simp [rstack_pop]
  | [a] => simp [rstack_pop]
  | a :: o :: rest =>
    have h1 : ¬ t ≤ rest.length + 2 := by
      simp only [List.length_cons] at h
      omega
    simp [rstack_pop, h1]

/-- The inner loop of `from_points` on the array and on the stack agree. -/
theorem hull_pop_sim (hull : List (vec T)) (t : Nat) (ht : 2 ≤ t) (p : vec T) :
    ∀ k, k ≤ hull.length →
      ∃ k1, hull_pop hull t p k = .ok k1 ∧ k1 ≤ k
        ∧ (hull.take k1).reverse = rstack_pop t p (hull.take k).reverse := by
  intro k
  induction k with
  | zero =>
    intro _
    have ht0 : t ≠ 0 := by omega
    exact ⟨0, by simp [hull_pop, ht0], le_refl _, by simp [rstack_pop]⟩
  | succ k ih =>
    intro hk
    by_cases htk : t ≤ k + 1
    · obtain ⟨j, rfl⟩ : ∃ j, k = j + 1 := ⟨k - 1, by omega⟩
      have hj : j < hull.length := by omega
      have hj1 : j + 1 < hull.length := by omega
      have hlen : ((hull.take j).reverse).length = j := by
        simp only [List.length_reverse, List.length_take]
        omega
      have hcond : t ≤ ((hull.take j).reverse).length + 2 := by rw [hlen]; omega
      have h2 : ¬ (j + 1 + 1 < 2) := by omega
      have hstep : hull_pop hull t p (j + 1 + 1)
          = if from_points_cross (hull.getD j ⟨0, 0⟩) (hull.getD (j + 1) ⟨0, 0⟩) p ≤ 0
            then hull_pop hull t p (j + 1) else .ok (j + 1 + 1) := by
        rw [hull_pop]
        simp only [if_pos htk, h2, if_false, Nat.add_sub_cancel,
          show j + 1 + 1 - 2 = j by omega, elem_at_getD hull j hj,
          elem_at_getD hull (j + 1) hj1]
      rw [hstep, take_succ_reverse hull ⟨0, 0⟩ (j + 1) hj1, take_succ_reverse hull ⟨0, 0⟩ j hj]
      simp only [rstack_pop, hcond, true_and]
      split
      · obtain ⟨k1, h1, h1a, h1b⟩ := ih (by omega)
        rw [take_succ_reverse hull ⟨0, 0⟩ j hj] at h1b
        exact ⟨k1, h1, by omega, h1b⟩
      · refine ⟨j + 1 + 1, rfl, le_refl _, ?_⟩
        rw [take_succ_reverse hull ⟨0, 0⟩ (j + 1) hj1, take_succ_reverse hull ⟨0, 0⟩ j hj]
    · refine ⟨k + 1, ?_, le_refl _, ?_⟩
      · simp only [hull_pop, if_neg htk]
      · rw [rstack_pop_of_length_lt]
        simp only [List.length_reverse, List.length_take]
        omega

/-- One `for` loop of `from_points` on the array and on the stack agree, when
the array has room for the points pushed. -/
theorem hull_scan_sim (vertices : List (vec T)) (t : Nat) (ht : 2 ≤ t) :
    ∀ (idxs : List Nat) (hull : List (vec T)) (k : Nat),
      k + idxs.length ≤ hull.length → (∀ j ∈ idxs, j < vertices.length) →
      ∃ hull1 k1, hull_scan vertices t idxs hull k = .ok (hull1, k1)
        ∧ hull1.length = hull.length ∧ k1 ≤ k + idxs.length
        ∧ (hull1.take k1).reverse
          = rstack_scan t (idxs.map (fun j => vertices.getD j ⟨0, 0⟩))
              (hull.take k).reverse := by
  intro idxs
  induction idxs with
  | nil =>
    intro hull k _ _
    exact ⟨hull, k, rfl, rfl, by simp, by simp [rstack_scan]⟩
  | cons j rest ih =>
    intro hull k hcap hidx
    have hj : j < vertices.length := hidx j (List.mem_cons_self _ _)
    simp only [List.length_cons] at hcap
    obtain ⟨k1, hpop, hk1, hst⟩ := hull_pop_sim hull t ht (vertices.getD j ⟨0, 0⟩) k
      (by omega)
    have hk1lt : k1 < hull.length := by omega
    obtain ⟨hull2, k2, hscan, hlen2, hk2, hst2⟩ :=
      ih (hull.set k1 (vertices.getD j ⟨0, 0⟩)) (k1 + 1)
        (by simp only [List.length_set]; omega)
        (fun i hi => hidx i (List.mem_cons_of_mem _ hi))
    refine ⟨hull2, k2, ?_, ?_, ?_, ?_⟩
    · simp only [hull_scan, elem_at_getD vertices j hj, hpop, if_pos hk1lt, hscan]
    · rw [hlen2, List.length_set]
    · simp only [List.length_cons]; omega
    · rw [hst2, take_set_succ_reverse hull k1 _ hk1lt, hst]
      simp only [List.map_cons, rstack_scan]

theorem map_getD_range {α : Type} (l : List α) (d : α) (n : Nat) (hn : n ≤ l.length) :
    (List.range n).map (fun j => l.getD j d) = l.take n := by
  apply List.ext_getElem
  · simp only [List.length_map, List.length_range, List.length_take]
    omega
  · intro i h1 h2
    simp only [List.length_map, List.length_range] at h1
    have hi : i < l.length := by omega
    simp [List.getD, List.getElem?_eq_getElem hi]

theorem rstack_scan_append (t : Nat) (ps qs rs : List (vec T)) :
    rstack_scan t (ps ++ qs) rs = rstack_scan t qs (rstack_scan t ps rs) := by
  induction ps generalizing rs with
  | nil => rfl
  | cons p ps ih =>
    rw [List.cons_append]
    simp only [rstack_scan]
    exact ih _

theorem rstack_scan_ne_nil (t : Nat) (ps rs : List (vec T)) (h : ps ≠ []) :
    rstack_scan t ps rs ≠ [] := by
  obtain ⟨qs, q, rfl⟩ : ∃ qs q, ps = qs ++ [q] :=
    ⟨ps.dropLast, ps.getLast h, (List.dropLast_append_getLast h).symm⟩
  rw [rstack_scan_append]
  simp [rstack_scan]

/-- For more than three points `from_points` builds the collider of the stack
`hull_stack` without its top, from the bottom up. -/
theorem from_points_eq (ops : FloatOps T) (points : List (point T))
    (hlen : 3 < points.length) :
    collider.from_points ops points
      = collider.of_vertices ops
          (hull_stack (points.map (fun p => ⟨p.x, p.y⟩))).tail.reverse := by
  have hlen1 : ¬ (points.map (fun p => (⟨p.x, p.y⟩ : vec T))).length ≤ 3 := by
    simp only [List.length_map]; omega
  generalize hvs : points.map (fun p => (⟨p.x, p.y⟩ : vec T)) = vs at hlen1
  simp only [collider.from_points, hvs, if_neg hlen1, hull_stack]
  generalize hsorted : vs.insertionSort (fun a b => vec.lt b a = false) = sorted
  have hn : sorted.length = vs.length := by rw [← hsorted, List.length_insertionSort]
  have hn3 : 3 < sorted.length := by omega
  have hne : sorted ≠ [] := by
    intro h; rw [h] at hn3; simp at hn3
  obtain ⟨hull1, k1, hscan1, hl1, hk1, hst1⟩ := hull_scan_sim sorted 2 (le_refl _)
    (List.range sorted.length) (List.replicate (2 * sorted.length) ⟨0, 0⟩) 0
    (by simp only [List.length_range, List.length_replicate]; omega)
    (fun j hj => List.mem_range.mp hj)
  rw [map_getD_range sorted ⟨0, 0⟩ _ (le_refl _), List.take_length] at hst1
  simp only [List.take_zero, List.reverse_nil] at hst1
  simp only [List.length_range, List.length_replicate, Nat.zero_add] at hl1 hk1
  have hk1len : (rstack_scan 2 sorted []).length = k1 := by
    rw [← hst1, List.length_reverse, List.length_take]
    omega
  have hk1pos : 1 ≤ k1 := by
    rw [← hk1len]
    exact Nat.one_le_iff_ne_zero.mpr
      (fun h => rstack_scan_ne_nil 2 sorted [] hne (List.length_eq_zero.mp h))
  obtain ⟨hull2, k2, hscan2, hl2, hk2, hst2⟩ := hull_scan_sim sorted (k1 + 1) (by omega)
    (List.range (sorted.length - 1)).reverse hull1 k1
    (by simp only [List.length_reverse, List.length_range]; omega)
    (fun j hj => by
      have := List.mem_range.mp (List.mem_reverse.mp hj)
      omega)
  rw [List.map_reverse, map_getD_range sorted ⟨0, 0⟩ _ (by omega), ← List.dropLast_eq_take,
    hst1] at hst2
  simp only [List.length_reverse, List.length_range] at hk2
  have hk2len : (rstack_scan (k1 + 1) sorted.dropLast.reverse
      (rstack_scan 2 sorted [])).length = k2 := by
    rw [← hst2, List.length_reverse, List.length_take]
    omega
  have hdl : sorted.dropLast.reverse ≠ [] := by
    intro h
    have h1 : sorted.dropLast.length = 0 := by
      rw [List.reverse_eq_nil_iff] at h
      rw [h]; rfl
    rw [List.length_dropLast] at h1
    omega
  have hk2pos : k2 ≠ 0 := by
    rw [← hk2len]
    exact fun h => rstack_scan_ne_nil _ _ _ hdl (List.length_eq_zero.mp h)
  have hres : vec_resize hull2 (k2 - 1)
      = (rstack_scan (k1 + 1) sorted.dropLast.reverse (rstack_scan 2 sorted [])).tail.reverse := by
    have h0 : k2 - 1 - hull2.length = 0 := by omega
    have h1 : hull2.take (k2 - 1) = (hull2.take k2).take (k2 - 1) := by
      rw [List.take_take, Nat.min_eq_left (by omega)]
    have h2 : hull2.take k2
        = (rstack_scan (k1 + 1) sorted.dropLast.reverse (rstack_scan 2 sorted [])).reverse := by
      rw [← hst2, List.reverse_reverse]
    simp only [vec_resize, h0, List.replicate_zero, List.append_nil]
    rw [h1, h2, ← hk2len, ← List.length_reverse, ← List.dropLast_eq_take,
      List.dropLast_reverse]
  simp only [hscan1, hk1len, hscan2, if_neg hk2pos, hres]

theorem vec_le_iff (a b : vec T) :
    vec.lt b a = false ↔ a.x < b.x ∨ (a.x = b.x ∧ a.y ≤ b.y) := by
  simp only [vec.lt, Bool.or_eq_false_iff, Bool.and_eq_false_iff, decide_eq_false_iff_not,
    not_lt]
  constructor
  · rintro ⟨h1, h2⟩
    rcases lt_or_eq_of_le h1 with h | h
    · exact Or.inl h
    · rcases h2 with h2 | h2
      · exact absurd h.symm h2
      · exact Or.inr ⟨h, h2⟩
  · rintro (h | ⟨h1, h2⟩)
    · exact ⟨le_of_lt h, Or.inl (ne_of_gt h)⟩
    · exact ⟨le_of_eq h1, Or.inr h2⟩

/-- The lambda `cross` of the source is a product of two differences. -/
theorem from_points_cross_eq (o a b : vec T) :
    from_points_cross o a b = (a.x - o.x) * (b.y - a.y) := by
  simp only [from_points_cross]
  ring

/-- In the first loop a point is popped only if the point under it or the point
that comes is not above it. -/
theorem pop_key_lower (o a p : vec T) (hord : vec.lt a o = false)
    (hc : from_points_cross o a p ≤ 0) : o.y ≤ a.y ∨ p.y ≤ a.y := by
  rw [from_points_cross_eq] at hc
  rcases (vec_le_iff o a).mp hord with h | ⟨-, h⟩
  · right
    by_contra hcon
    have h1 : 0 < a.x - o.x := sub_pos.mpr h
    have h2 : 0 < p.y - a.y := sub_pos.mpr (not_le.mp hcon)
    exact absurd hc (not_le.mpr (mul_pos h1 h2))
  · exact Or.inl h

/-- In the second loop a point is popped only if the point under it or the
point that comes is not below it. -/
theorem pop_key_upper (o a p : vec T) (hord : vec.lt o a = false)
    (hc : from_points_cross o a p ≤ 0) : a.y ≤ o.y ∨ a.y ≤ p.y := by
  rw [from_points_cross_eq] at hc
  rcases (vec_le_iff a o).mp hord with h | ⟨-, h⟩
  · right
    by_contra hcon
    have h1 : a.x - o.x < 0 := sub_neg.mpr h
    have h2 : p.y - a.y < 0 := sub_neg.mpr (not_le.mp hcon)
    exact absurd hc (not_le.mpr (mul_pos_of_neg_of_neg h1 h2))
  · exact Or.inl h

/-- The inner loop on a stack `upper ++ b0 :: bt` with `t = bt.length + 2`: only
points of `upper` are popped, and a point that `p` or a point of `upper ++ [b0]`
covered is covered after the loop. -/
theorem rstack_pop_upper (ord : vec T → vec T → Prop) (cov : T → T → Prop)
    (hkey : ∀ o a p, ord o a → from_points_cross o a p ≤ 0 → cov o.y a.y ∨ cov p.y a.y)
    (htrans : ∀ x y z, cov x y → cov y z → cov x z)
    (t : Nat) (p b0 : vec T) (bt : List (vec T)) (ht : t = bt.length + 2) :
    ∀ upper : List (vec T),
      (upper ++ [b0]).Pairwise (fun newer older => ord older newer) →
      ∃ upper1, rstack_pop t p (upper ++ b0 :: bt) = upper1 ++ b0 :: bt
        ∧ upper1 <:+ upper
        ∧ ∀ q : T, (∃ s ∈ p :: (upper ++ [b0]), cov s.y q) →
            ∃ s ∈ p :: (upper1 ++ [b0]), cov s.y q := by
  intro upper
  induction upper with
  | nil =>
    intro _
    refine ⟨[], ?_, List.suffix_refl _, fun q hq => hq⟩
    rw [List.nil_append, rstack_pop_of_length_lt]
    simp only [List.length_cons]
    omega
  | cons a u ih =>
    intro hpw
    have hpw1 : (u ++ [b0]).Pairwise (fun newer older => ord older newer) :=
      (List.pairwise_cons.mp hpw).2
    obtain ⟨upper1, h1, h2, h3⟩ := ih hpw1
    obtain ⟨o, rest, hor, hoc, hlen⟩ : ∃ o rest, u ++ b0 :: bt = o :: rest
        ∧ o ∈ u ++ [b0] ∧ bt.length ≤ rest.length := by
      cases u with
      | nil => exact ⟨b0, bt, rfl, by simp, le_refl _⟩
      | cons o u1 =>
        exact ⟨o, u1 ++ b0 :: bt, rfl, by simp,
          by simp only [List.length_append, List.length_cons]; omega⟩
    have hcond : t ≤ rest.length + 2 := by omega
    have hstep : rstack_pop t p ((a :: u) ++ b0 :: bt)
        = if from_points_cross o a p ≤ 0 then rstack_pop t p (u ++ b0 :: bt)
          else (a :: u) ++ b0 :: bt := by
      rw [List.cons_append, hor]
      simp only [rstack_pop, hcond, true_and]
    rw [hstep]
    split
    · next hc =>
      refine ⟨upper1, h1, List.IsSuffix.trans h2 (List.suffix_cons a u), ?_⟩
      intro q hq
      apply h3 q
      obtain ⟨s, hs, hsq⟩ := hq
      simp only [List.cons_append, List.mem_cons] at hs
      rcases hs with rfl | rfl | hs
      · exact ⟨s, List.mem_cons_self _ _, hsq⟩
      · have hoa : ord o s := (List.pairwise_cons.mp hpw).1 o hoc
        rcases hkey o s p hoa hc with hk | hk
        · exact ⟨o, List.mem_cons_of_mem _ hoc, htrans _ _ _ hk hsq⟩
        · exact ⟨p, List.mem_cons_self _ _, htrans _ _ _ hk hsq⟩
      · exact ⟨s, List.mem_cons_of_mem _ hs, hsq⟩
    · exact ⟨a :: u, rfl, List.suffix_refl _, fun q hq => hq⟩

/-- One loop of `from_points` on a stack `upper ++ b0 :: bt` with
`t = bt.length + 2`, over points `ps` that follow `b0` and the points `done` in
an order `ord`: the loop leaves `b0 :: bt` in place, the stack holds processed
points only, and every processed point is covered by a point of the stack. -/
theorem rstack_scan_upper (ord : vec T → vec T → Prop) (cov : T → T → Prop)
    (hkey : ∀ o a p, ord o a → from_points_cross o a p ≤ 0 → cov o.y a.y ∨ cov p.y a.y)
    (htrans : ∀ x y z, cov x y → cov y z → cov x z) (hrefl : ∀ x, cov x x)
    (t : Nat) (b0 : vec T) (bt : List (vec T)) (ht : t = bt.length + 2) :
    ∀ (ps upper done : List (vec T)),
      (b0 :: (done ++ ps)).Pairwise ord →
      (upper ++ [b0]).Pairwise (fun newer older => ord older newer) →
      (∀ s ∈ upper, s ∈ done) →
      (∀ q ∈ b0 :: done, ∃ s ∈ upper ++ [b0], cov s.y q.y) →
      ∃ upper1, rstack_scan t ps (upper ++ b0 :: bt) = upper1 ++ b0 :: bt
        ∧ (∀ s ∈ upper1, s ∈ done ++ ps)
        ∧ (∀ q ∈ b0 :: (done ++ ps), ∃ s ∈ upper1 ++ [b0], cov s.y q.y)
        ∧ (ps = [] → upper1 = upper)
        ∧ (ps ≠ [] → upper1.head? = ps.getLast?) := by
  intro ps
  induction ps with
  | nil =>
    intro upper done _ _ hmem hcov
    refine ⟨upper, rfl, ?_, ?_, fun _ => rfl, fun h => absurd rfl h⟩
    · simpa using hmem
    · simpa using hcov
  | cons p ps ih =>
    intro upper done hseq hpw hmem hcov
    obtain ⟨u1, hpop, hsuf, hcov1⟩ :=
      rstack_pop_upper ord cov hkey htrans t p b0 bt ht upper hpw
    have hseq1 := List.pairwise_cons.mp hseq
    have hseq2 := List.pairwise_append.mp hseq1.2
    have hb0p : ord b0 p := hseq1.1 p (by simp)
    have hdonep : ∀ s ∈ done, ord s p := fun s hs => hseq2.2.2 s hs p (List.mem_cons_self _ _)
    have hu1 : ∀ s ∈ u1, s ∈ done := fun s hs => hmem s (hsuf.subset hs)
    obtain ⟨upper1, h1, h2, h3, h4, h5⟩ := ih (p :: u1) (done ++ [p])
      (by
        rw [List.append_assoc, List.singleton_append]
        exact hseq)
      (by
        rw [List.cons_append]
        refine List.pairwise_cons.mpr ⟨?_, ?_⟩
        · intro s hs
          rcases List.mem_append.mp hs with hs1 | hs1
          · exact hdonep s (hu1 s hs1)
          · rw [List.mem_singleton.mp hs1]
            exact hb0p
        · exact hpw.sublist (hsuf.sublist.append_right [b0]))
      (by
        intro s hs
        rcases List.mem_cons.mp hs with rfl | hs1
        · simp
        · exact List.mem_append_left _ (hu1 s hs1))
      (by
        intro q hq
        have hq1 : q = p ∨ q ∈ b0 :: done := by
          simp only [List.mem_cons, List.mem_append, List.mem_singleton, List.not_mem_nil,
            or_false] at hq ⊢
          tauto
        rcases hq1 with rfl | hq1
        · exact ⟨q, by simp, hrefl _⟩
        · obtain ⟨s, hs, hsq⟩ := hcov q hq1
          exact hcov1 q.y ⟨s, List.mem_cons_of_mem _ hs, hsq⟩)
    refine ⟨upper1, ?_, ?_, ?_, fun h => absurd h (List.cons_ne_nil _ _), ?_⟩
    · simp only [rstack_scan, hpop]
      exact h1
    · intro s hs
      have := h2 s hs
      rwa [List.append_assoc, List.singleton_append] at this
    · intro q hq
      apply h3 q
      rwa [List.append_assoc, List.singleton_append]
    · intro _
      by_cases hps : ps = []
      · rw [h4 hps, hps]
        rfl
      · rw [h5 hps]
        obtain ⟨q, qs, rfl⟩ := List.exists_cons_of_ne_nil hps
        rw [List.getLast?_cons_cons]

theorem vec_le_refl (a : vec T) : vec.lt a a = false :=
  (vec_le_iff a a).mpr (Or.inr ⟨rfl, le_refl _⟩)

/-- The two loops of `from_points` on sorted vertices `v0, mid, vmax`: the stack
they leave, without its top, holds vertices only, and for every vertex it holds
one that is not right of it, one not left of it, one not above it and one not
below it. -/
theorem hull_scan_cover (v0 vmax : vec T) (mid : List (vec T))
    (hs : (v0 :: (mid ++ [vmax])).Pairwise (fun a b => vec.lt b a = false)) :
    (∀ s ∈ (rstack_scan ((rstack_scan 2 (v0 :: (mid ++ [vmax])) []).length + 1)
          (v0 :: mid).reverse (rstack_scan 2 (v0 :: (mid ++ [vmax])) [])).tail,
        s ∈ v0 :: (mid ++ [vmax]))
      ∧ ∀ p ∈ v0 :: (mid ++ [vmax]),
          (∃ q ∈ (rstack_scan ((rstack_scan 2 (v0 :: (mid ++ [vmax])) []).length + 1)
              (v0 :: mid).reverse (rstack_scan 2 (v0 :: (mid ++ [vmax])) [])).tail,
            q.x ≤ p.x)
          ∧ (∃ q ∈ (rstack_scan ((rstack_scan 2 (v0 :: (mid ++ [vmax])) []).length + 1)
              (v0 :: mid).reverse (rstack_scan 2 (v0 :: (mid ++ [vmax])) [])).tail,
            p.x ≤ q.x)
          ∧ (∃ q ∈ (rstack_scan ((rstack_scan 2 (v0 :: (mid ++ [vmax])) []).length + 1)
              (v0 :: mid).reverse (rstack_scan 2 (v0 :: (mid ++ [vmax])) [])).tail,
            q.y ≤ p.y)
          ∧ (∃ q ∈ (rstack_scan ((rstack_scan 2 (v0 :: (mid ++ [vmax])) []).length + 1)
              (v0 :: mid).reverse (rstack_scan 2 (v0 :: (mid ++ [vmax])) [])).tail,
            p.y ≤ q.y) := by
  -- the first loop
  obtain ⟨ul, hl1, hl2, hl3, -, hl5⟩ := rstack_scan_upper
    (fun o a => vec.lt a o = false) (fun s q => s ≤ q) pop_key_lower
    (fun _ _ _ h1 h2 => le_trans h1 h2) (fun _ => le_refl _) 2 v0 [] rfl
    (mid ++ [vmax]) [] [] (by simpa using hs) (by simp) (by simp)
    (by
      intro q hq
      simp only [List.mem_cons, List.not_mem_nil, or_false] at hq
      subst hq
      exact ⟨q, by simp, le_refl _⟩)
  have hlow : rstack_scan 2 (v0 :: (mid ++ [vmax])) [] = ul ++ [v0] := by
    have h0 : rstack_pop 2 v0 ([] : List (vec T)) = [] := by simp [rstack_pop]
    simp only [rstack_scan, h0]
    exact hl1
  have hulh : ul.head? = some vmax := by
    rw [hl5 (by simp)]
    simp
  obtain ⟨ult, rfl⟩ : ∃ ult, ul = vmax :: ult := by
    cases ul with
    | nil => simp at hulh
    | cons a ult =>
      simp only [List.head?_cons, Option.some.injEq] at hulh
      exact ⟨ult, by rw [hulh]⟩
  -- the second loop
  have hrev : (vmax :: (v0 :: mid).reverse).Pairwise (fun o a => vec.lt o a = false) := by
    have h1 : vmax :: (v0 :: mid).reverse = (v0 :: (mid ++ [vmax])).reverse := by simp
    rw [h1, List.pairwise_reverse]
    exact hs
  obtain ⟨uu, hu1, hu2, hu3, -, hu5⟩ := rstack_scan_upper
    (fun o a => vec.lt o a = false) (fun s q => q ≤ s) pop_key_upper
    (fun _ _ _ h1 h2 => le_trans h2 h1) (fun _ => le_refl _)
    ((vmax :: ult ++ [v0]).length + 1) vmax (ult ++ [v0])
    (by simp only [List.cons_append, List.length_cons])
    (v0 :: mid).reverse [] [] (by simpa using hrev) (by simp) (by simp)
    (by
      intro q hq
      simp only [List.mem_cons, List.not_mem_nil, or_false] at hq
      subst hq
      exact ⟨q, by simp, le_refl _⟩)
  have huuh : uu.head? = some v0 := by
    rw [hu5 (by simp)]
    simp
  obtain ⟨uut, rfl⟩ : ∃ uut, uu = v0 :: uut := by
    cases uu with
    | nil => simp at huuh
    | cons a uut =>
      simp only [List.head?_cons, Option.some.injEq] at huuh
      exact ⟨uut, by rw [huuh]⟩
  rw [hlow]
  simp only [List.nil_append, List.cons_append] at hu1 ⊢
  rw [hu1]
  simp only [List.tail_cons]
  -- membership
  have hmem_out : ∀ s, s ∈ (v0 :: uut) ++ [vmax] ∨ s ∈ (vmax :: ult) ++ [v0] →
      s ∈ uut ++ vmax :: (ult ++ [v0]) := by
    intro s hs1
    simp only [List.cons_append, List.mem_cons, List.mem_append, List.mem_singleton,
      List.not_mem_nil, or_false] at hs1 ⊢
    tauto
  have hfirst : ∀ p ∈ v0 :: (mid ++ [vmax]), vec.lt p v0 = false := by
    intro p hp
    rcases List.mem_cons.mp hp with rfl | hp1
    · exact vec_le_refl _
    · exact (List.pairwise_cons.mp hs).1 p hp1
  have hlast : ∀ p ∈ v0 :: (mid ++ [vmax]), vec.lt vmax p = false := by
    intro p hp
    have h1 : p ∈ vmax :: (v0 :: mid).reverse := by
      simp only [List.mem_cons, List.mem_append, List.mem_singleton, List.mem_reverse] at hp ⊢
      tauto
    rcases List.mem_cons.mp h1 with rfl | hp1
    · exact vec_le_refl _
    · exact (List.pairwise_cons.mp hrev).1 p hp1
  constructor
  · intro s hs1
    simp only [List.mem_append, List.mem_cons, List.mem_singleton, List.not_mem_nil,
      or_false] at hs1
    have hu2a : ∀ s ∈ uut, s ∈ v0 :: (mid ++ [vmax]) := by
      intro s hs2
      have := hu2 s (List.mem_cons_of_mem _ hs2)
      simp only [List.nil_append, List.mem_reverse, List.mem_cons] at this
      simp only [List.mem_cons, List.mem_append, List.mem_singleton]
      tauto
    have hl2a : ∀ s ∈ ult, s ∈ v0 :: (mid ++ [vmax]) := by
      intro s hs2
      have := hl2 s (List.mem_cons_of_mem _ hs2)
      simp only [List.nil_append] at this
      exact List.mem_cons_of_mem _ this
    rcases hs1 with h | rfl | h | rfl
    · exact hu2a s h
    · simp
    · exact hl2a s h
    · simp
  · intro p hp
    refine ⟨⟨v0, hmem_out v0 (by simp), ?_⟩, ⟨vmax, hmem_out vmax (by simp), ?_⟩, ?_, ?_⟩
    · rcases (vec_le_iff v0 p).mp (hfirst p hp) with h | ⟨h, -⟩
      · exact le_of_lt h
      · exact le_of_eq h
    · rcases (vec_le_iff p vmax).mp (hlast p hp) with h | ⟨h, -⟩
      · exact le_of_lt h
      · exact le_of_eq h
    · obtain ⟨s, hs1, hs2⟩ := hl3 p (by simpa using hp)
      exact ⟨s, hmem_out s (Or.inr hs1), hs2⟩
    · have hp1 : p ∈ vmax :: ([] ++ (v0 :: mid).reverse) := by
        simp only [List.mem_cons, List.mem_append, List.mem_singleton, List.mem_reverse,
          List.nil_append] at hp ⊢
        tauto
      obtain ⟨s, hs1, hs2⟩ := hu3 p hp1
      exact ⟨s, hmem_out s (Or.inl hs1), hs2⟩

theorem vec_le_total (a b : vec T) : vec.lt b a = false ∨ vec.lt a b = false := by
  rw [vec_le_iff, vec_le_iff]
  rcases lt_trichotomy a.x b.x with h | h | h
  · exact Or.inl (Or.inl h)
  · rcases le_total a.y b.y with h1 | h1
    · exact Or.inl (Or.inr ⟨h, h1⟩)
    · exact Or.inr (Or.inr ⟨h.symm, h1⟩)
  · exact Or.inr (Or.inl h)

theorem vec_le_trans (a b c : vec T) (h1 : vec.lt b a = false) (h2 : vec.lt c b = false) :
    vec.lt c a = false := by
  rw [vec_le_iff] at h1 h2 ⊢
  rcases h1 with h1 | ⟨h1, h1a⟩
  · rcases h2 with h2 | ⟨h2, -⟩
    · exact Or.inl (lt_trans h1 h2)
    · exact Or.inl (h2 ▸ h1)
  · rcases h2 with h2 | ⟨h2, h2a⟩
    · exact Or.inl (h1 ▸ h2)
    · exact Or.inr ⟨h1.trans h2, le_trans h1a h2a⟩

/-- The sort of `from_points` leaves the vertices in lexicographic order. -/
theorem insertionSort_pairwise (vs : List (vec T)) :
    (vs.insertionSort (fun a b => vec.lt b a = false)).Pairwise
      (fun a b => vec.lt b a = false) := by
  haveI : IsTotal (vec T) (fun a b => vec.lt b a = false) := ⟨vec_le_total⟩
  haveI : IsTrans (vec T) (fun a b => vec.lt b a = false) := ⟨vec_le_trans⟩
  exact List.sorted_insertionSort (fun a b => vec.lt b a = false) vs

/-- The vertex list that `from_points` builds from more than three points
holds input points only, and for every input point it holds one that is not
right of it, one not left of it, one not above it and one not below it. -/
theorem hull_retains_extremes (vs : List (vec T)) (hlen : 3 < vs.length) :
    (∀ s ∈ (hull_stack vs).tail.reverse, s ∈ vs)
      ∧ ∀ p ∈ vs,
          (∃ q ∈ (hull_stack vs).tail.reverse, q.x ≤ p.x)
          ∧ (∃ q ∈ (hull_stack vs).tail.reverse, p.x ≤ q.x)
          ∧ (∃ q ∈ (hull_stack vs).tail.reverse, q.y ≤ p.y)
          ∧ (∃ q ∈ (hull_stack vs).tail.reverse, p.y ≤ q.y) := by
  have hpw := insertionSort_pairwise vs
  have hperm := List.perm_insertionSort (fun a b => vec.lt b a = false) vs
  have hn : (vs.insertionSort (fun a b => vec.lt b a = false)).length = vs.length :=
    List.length_insertionSort _ _
  simp only [hull_stack]
  generalize vs.insertionSort (fun a b => vec.lt b a = false) = sorted at hpw hperm hn
  obtain ⟨v0, mid, vmax, rfl⟩ : ∃ v0 mid vmax, sorted = v0 :: (mid ++ [vmax]) := by
    cases sorted with
    | nil => simp at hn; omega
    | cons v0 rest =>
      have hrest : rest ≠ [] := by
        intro h
        rw [h] at hn
        simp at hn
        omega
      exact ⟨v0, rest.dropLast, rest.getLast hrest,
        by rw [List.dropLast_append_getLast hrest]⟩
  have hdl : (v0 :: (mid ++ [vmax])).dropLast = v0 :: mid := by
    rw [← List.cons_append, List.dropLast_concat]
  rw [hdl]
  obtain ⟨h1, h2⟩ := hull_scan_cover v0 vmax mid hpw
  constructor
  · intro s hs
    exact hperm.mem_iff.mp (h1 s (List.mem_reverse.mp hs))
  · intro p hp
    obtain ⟨⟨q1, hq1, e1⟩, ⟨q2, hq2, e2⟩, ⟨q3, hq3, e3⟩, ⟨q4, hq4, e4⟩⟩ :=
      h2 p (hperm.mem_iff.mpr hp)
    exact ⟨⟨q1, List.mem_reverse.mpr hq1, e1⟩, ⟨q2, List.mem_reverse.mpr hq2, e2⟩,
      ⟨q3, List.mem_reverse.mpr hq3, e3⟩, ⟨q4, List.mem_reverse.mpr hq4, e4⟩⟩

/-- At the default pose, with `cos 0 = 1` and `sin 0 = 0`, the world vertices
are the local vertices. -/
theorem world_vertices_default (ops : FloatOps T) (hcos : ops.cos 0 = 1)
    (hsin : ops.sin 0 = 0) (i : Impl T) (hp : i.position = ⟨0, 0⟩) (hr : i.rotation = 0) :
    i.world_vertices ops = i.vertices := by
  simp only [Impl.world_vertices, hp, hr, vec.rotate, vec.add, hcos, hsin, one_mul, zero_mul,
    sub_zero, zero_add, add_zero, List.map_id']

/-- The bounding box of the collider that the private constructor builds holds
every vertex given. -/
theorem of_vertices_bounding_box (ops : FloatOps T)
    (hsqrt : ∀ x : T, 1 / 10000000 ≤ x → ops.sqrt x ≠ 0)
    (hcos : ops.cos 0 = 1) (hsin : ops.sin 0 = 0) (out : List (vec T)) :
    ∃ i c box, collider.of_vertices ops out = .ok ⟨some i⟩ ∧ i.vertices = out
      ∧ (collider.mk (some i)).get_bounding_box ops = .ok (c, box)
      ∧ ∀ q ∈ out, box.left ≤ q.x ∧ q.x ≤ box.right ∧ box.bottom ≤ q.y ∧ q.y ≤ box.top := by
  obtain ⟨i, hok, hv, hp, hr, -, hfresh⟩ := of_vertices_ok ops hsqrt out
  obtain ⟨i1, hget, hbox⟩ := get_bounding_box_eq ops hsqrt i hfresh
  rw [world_vertices_default ops hcos hsin i hp hr, hv] at hbox
  refine ⟨i, _, _, hok, hv, hget, ?_⟩
  intro q hq
  have h1 := project_loop_min_le_dot ⟨1, 0⟩ out ops.max ops.lowest q hq
  have h2 := project_loop_dot_le_max ⟨1, 0⟩ out ops.max ops.lowest q hq
  have h3 := project_loop_min_le_dot ⟨0, 1⟩ out ops.max ops.lowest q hq
  have h4 := project_loop_dot_le_max ⟨0, 1⟩ out ops.max ops.lowest q hq
  simp only [dot_unit_x, dot_unit_y] at h1 h2 h3 h4
  rw [hbox]
  exact ⟨h1, h2, h3, h4⟩

/-- C14, amended: in exact arithmetic, for every list of points, `from_points`
returns a collider whose bounding box, at its default pose, has
`left <= p.x <= right` and `bottom <= p.y <= top` for every input point `p`: its
vertices are input points, and for every input point one of them is not right
of it, one not left of it, one not above it and one not below it. -/
theorem hull_bounding_box (ops : FloatOps T)
    (hsqrt : ∀ x : T, 1 / 10000000 ≤ x → ops.sqrt x ≠ 0)
    (hcos : ops.cos 0 = 1) (hsin : ops.sin 0 = 0) (points : List (point T)) :
    ∃ i c box, collider.from_points ops points = .ok ⟨some i⟩
      ∧ (collider.mk (some i)).get_bounding_box ops = .ok (c, box)
      ∧ (∀ p ∈ points,
          box.left ≤ p.x ∧ p.x ≤ box.right ∧ box.bottom ≤ p.y ∧ p.y ≤ box.top)
      ∧ (∀ q ∈ i.vertices, (⟨q.x, q.y⟩ : point T) ∈ points)
      ∧ (∀ p ∈ points,
          (∃ q ∈ i.vertices, q.x ≤ p.x) ∧ (∃ q ∈ i.vertices, p.x ≤ q.x)
          ∧ (∃ q ∈ i.vertices, q.y ≤ p.y) ∧ (∃ q ∈ i.vertices, p.y ≤ q.y)) := by
  have hback : ∀ q : vec T, q ∈ points.map (fun p => (⟨p.x, p.y⟩ : vec T)) →
      (⟨q.x, q.y⟩ : point T) ∈ points := by
    intro q hq
    obtain ⟨p, hp, rfl⟩ := List.mem_map.mp hq
    exact hp
  have hfwd : ∀ p ∈ points, (⟨p.x, p.y⟩ : vec T) ∈ points.map (fun p => (⟨p.x, p.y⟩ : vec T)) :=
    fun p hp => List.mem_map.mpr ⟨p, hp, rfl⟩
  have hmain : ∀ out : List (vec T),
      collider.from_points ops points = collider.of_vertices ops out →
      (∀ s ∈ out, s ∈ points.map (fun p => (⟨p.x, p.y⟩ : vec T))) →
      (∀ p ∈ points.map (fun p => (⟨p.x, p.y⟩ : vec T)),
          (∃ q ∈ out, q.x ≤ p.x) ∧ (∃ q ∈ out, p.x ≤ q.x)
          ∧ (∃ q ∈ out, q.y ≤ p.y) ∧ (∃ q ∈ out, p.y ≤ q.y)) →
      ∃ i c box, collider.from_points ops points = .ok ⟨some i⟩
        ∧ (collider.mk (some i)).get_bounding_box ops = .ok (c, box)
        ∧ (∀ p ∈ points,
            box.left ≤ p.x ∧ p.x ≤ box.right ∧ box.bottom ≤ p.y ∧ p.y ≤ box.top)
        ∧ (∀ q ∈ i.vertices, (⟨q.x, q.y⟩ : point T) ∈ points)
        ∧ (∀ p ∈ points,
            (∃ q ∈ i.vertices, q.x ≤ p.x) ∧ (∃ q ∈ i.vertices, p.x ≤ q.x)
            ∧ (∃ q ∈ i.vertices, q.y ≤ p.y) ∧ (∃ q ∈ i.vertices, p.y ≤ q.y)) := by
    intro out hout hsub hcov
    obtain ⟨i, c, box, hok, hv, hget, hbox⟩ :=
      of_vertices_bounding_box ops hsqrt hcos hsin out
    refine ⟨i, c, box, hout.trans hok, hget, ?_, ?_, ?_⟩
    · intro p hp
      obtain ⟨⟨q1, hq1, e1⟩, ⟨q2, hq2, e2⟩, ⟨q3, hq3, e3⟩, ⟨q4, hq4, e4⟩⟩ :=
        hcov _ (hfwd p hp)
      exact ⟨le_trans (hbox q1 hq1).1 e1, le_trans e2 (hbox q2 hq2).2.1,
        le_trans (hbox q3 hq3).2.2.1 e3, le_trans e4 (hbox q4 hq4).2.2.2⟩
    · intro q hq
      rw [hv] at hq
      exact hback q (hsub q hq)
    · intro p hp
      rw [hv]
      exact hcov _ (hfwd p hp)
  by_cases hlen : points.length ≤ 3
  · apply hmain (points.map (fun p => (⟨p.x, p.y⟩ : vec T)))
    · have h3 : (points.map (fun p => (⟨p.x, p.y⟩ : vec T))).length ≤ 3 := by
        simpa using hlen
      simp only [collider.from_points, if_pos h3]
    · exact fun s hs => hs
    · exact fun p hp => ⟨⟨p, hp, le_refl _⟩, ⟨p, hp, le_refl _⟩, ⟨p, hp, le_refl _⟩,
        ⟨p, hp, le_refl _⟩⟩
  · have hlen1 : 3 < (points.map (fun p => (⟨p.x, p.y⟩ : vec T))).length := by
      simp only [List.length_map]; omega
    obtain ⟨h1, h2⟩ := hull_retains_extremes _ hlen1
    exact hmain _ (from_points_eq ops points (by omega)) h1 h2

/-- C14, amended, on the rational instance, for six points of which two lie inside the
hull of the others. -/
theorem hull_bounding_box_witness :
    ∃ i c box,
      collider.from_points rat_ops [⟨4, 0⟩, ⟨0, 0⟩, ⟨2, 1⟩, ⟨0, 4⟩, ⟨3, 1⟩, ⟨4, 4⟩]
        = .ok ⟨some i⟩
      ∧ (collider.mk (some i)).get_bounding_box rat_ops = .ok (c, box)
      ∧ (∀ p ∈ ([⟨4, 0⟩, ⟨0, 0⟩, ⟨2, 1⟩, ⟨0, 4⟩, ⟨3, 1⟩, ⟨4, 4⟩] : List (point ℚ)),
          box.left ≤ p.x ∧ p.x ≤ box.right ∧ box.bottom ≤ p.y ∧ p.y ≤ box.top)
      ∧ (∀ q ∈ i.vertices,
          (⟨q.x, q.y⟩ : point ℚ) ∈
            ([⟨4, 0⟩, ⟨0, 0⟩, ⟨2, 1⟩, ⟨0, 4⟩, ⟨3, 1⟩, ⟨4, 4⟩] : List (point ℚ)))
      ∧ (∀ p ∈ ([⟨4, 0⟩, ⟨0, 0⟩, ⟨2, 1⟩, ⟨0, 4⟩, ⟨3, 1⟩, ⟨4, 4⟩] : List (point ℚ)),
          (∃ q ∈ i.vertices, q.x ≤ p.x) ∧ (∃ q ∈ i.vertices, p.x ≤ q.x)
          ∧ (∃ q ∈ i.vertices, q.y ≤ p.y) ∧ (∃ q ∈ i.vertices, p.y ≤ q.y)) :=
  hull_bounding_box rat_ops rat_sqrt_ne_zero (by norm_num [rat_ops, rat_cos])
    (by norm_num [rat_ops, rat_sin]) _

end hull_stack

/-! ## The lazy cache against eager recomputation -/

section lazy_cache

variable {T : Type} [LinearOrderedField T]

/-- The value of `dirty` plays no part in `transform`, which keeps it. -/
theorem transform_dirty (ops : FloatOps T) (i : Impl T) (b : Bool) :
    ({ i with dirty := b } : Impl T).transform ops
      = (i.transform ops).map (fun s => { s with dirty := b }) := by
  simp only [Impl.transform]
  cases calculate_axes ops
    (i.vertices.map (fun v => (v.rotate ops i.rotation).add i.position)) with
  | error e => rfl
  | ok t_axes => rfl

/-- What `ensure_transformed` returns has `dirty = false` and a cache that is
up to date. -/
theorem ensure_transformed_fresh (ops : FloatOps T) (i i1 : Impl T)
    (hfresh : i.fresh ops) (h : i.ensure_transformed ops = .ok i1) :
    i1.fresh ops ∧ i1.dirty = false := by
  unfold Impl.ensure_transformed at h
  split at h
  · next hd =>
    simp only [Except.ok.injEq] at h
    subst h
    exact ⟨hfresh, by simpa using hd⟩
  · split at h
    · cases h
    · next s hs =>
      simp only [Except.ok.injEq] at h
      subst h
      refine ⟨fun _ => ?_, rfl⟩
      rw [transform_dirty, transform_idem ops i s hs]
      rfl

/-- The states that a call of `is_colliding_with` on two distinct initialized
colliders leaves: each collider with its cache refreshed. -/
theorem is_colliding_with_states (ops : FloatOps T)
    (hsqrt : ∀ x : T, 1 / 10000000 ≤ x → ops.sqrt x ≠ 0)
    (ti oi : Impl T) (out : collision T) :
    ∃ r ti1 oi1,
      (collider.mk (some ti)).is_colliding_with ops (.distinct ⟨some oi⟩) out = .ok r
      ∧ ti.ensure_transformed ops = .ok ti1 ∧ oi.ensure_transformed ops = .ok oi1
      ∧ r.this = ⟨some ti1⟩ ∧ r.other = some ⟨some oi1⟩ := by
  obtain ⟨ti1, h1⟩ := ensure_transformed_ok ops hsqrt ti
  obtain ⟨oi1, h2⟩ := ensure_transformed_ok ops hsqrt oi
  simp only [collider.is_colliding_with, is_colliding_with_distinct, h1, h2]
  split
  · exact ⟨_, ti1, oi1, rfl, rfl, rfl, rfl, rfl⟩
  · split
    · exact ⟨_, ti1, oi1, rfl, rfl, rfl, rfl, rfl⟩
    · exact ⟨_, ti1, oi1, rfl, rfl, rfl, rfl, rfl⟩

/-- One call keeps the vertices, changes the pose as the specification says
and leaves a cache that is up to date or marked dirty. -/
theorem after_call_inv (ops : FloatOps T)
    (hsqrt : ∀ x : T, 1 / 10000000 ≤ x → ops.sqrt x ≠ 0)
    (i : Impl T) (hfresh : i.fresh ops) (call : method_call T) :
    ∃ i1, (collider.mk (some i)).after_call ops call = .ok ⟨some i1⟩
      ∧ i1.vertices = i.vertices
      ∧ (i1.position, i1.rotation) = eager_pose (i.position, i.rotation) call
      ∧ i1.fresh ops := by
  have hens : ∀ i1, i.ensure_transformed ops = .ok i1 →
      i1.vertices = i.vertices
        ∧ (i1.position, i1.rotation) = (i.position, i.rotation) ∧ i1.fresh ops := by
    intro i1 h1
    obtain ⟨hv, hp, hr⟩ := ensure_transformed_fields ops i i1 h1
    exact ⟨hv, by rw [hp, hr], (ensure_transformed_fresh ops i i1 hfresh h1).1⟩
  obtain ⟨i1, h1⟩ := ensure_transformed_ok ops hsqrt i
  obtain ⟨hv1, hp1, hf1⟩ := hens i1 h1
  cases call with
  | set_position x y =>
    exact ⟨_, rfl, rfl, rfl, fun hd => by cases hd⟩
  | set_rotation rotation =>
    exact ⟨_, rfl, rfl, rfl, fun hd => by cases hd⟩
  | get_shape =>
    refine ⟨i1, ?_, hv1, hp1, hf1⟩
    simp only [collider.after_call, collider.get_shape, h1, Except.map]
  | get_bounding_box =>
    refine ⟨i1, ?_, hv1, hp1, hf1⟩
    simp only [collider.after_call, collider.get_bounding_box, h1, Except.map]
  | get_raw =>
    exact ⟨i, rfl, rfl, rfl, hfresh⟩
  | is_point_in x y =>
    refine ⟨i1, ?_, hv1, hp1, hf1⟩
    simp only [collider.after_call, collider.is_point_in, h1, Except.map]
  | is_colliding_with_itself out =>
    exact ⟨i, rfl, rfl, rfl, hfresh⟩
  | is_colliding_with other out =>
    obtain ⟨r, ti1, oi1, hr, ht, -, hthis, -⟩ := is_colliding_with_states ops hsqrt i other out
    rw [h1] at ht
    simp only [Except.ok.injEq] at ht
    subst ht
    refine ⟨i1, ?_, hv1, hp1, hf1⟩
    simp only [collider.after_call, hr, Except.map, hthis]
  | is_colliding_with_as_other this out =>
    obtain ⟨r, ti1, oi1, hr, -, ho, -, hother⟩ := is_colliding_with_states ops hsqrt this i out
    rw [h1] at ho
    simp only [Except.ok.injEq] at ho
    subst ho
    refine ⟨i1, ?_, hv1, hp1, hf1⟩
    simp only [collider.after_call, hr, Except.map, hother, Option.getD_some]

theorem after_calls_inv (ops : FloatOps T)
    (hsqrt : ∀ x : T, 1 / 10000000 ≤ x → ops.sqrt x ≠ 0)
    (calls : List (method_call T)) (i : Impl T) (hfresh : i.fresh ops) :
    ∃ i1, (collider.mk (some i)).after_calls ops calls = .ok ⟨some i1⟩
      ∧ i1.vertices = i.vertices
      ∧ (i1.position, i1.rotation) = calls.foldl eager_pose (i.position, i.rotation)
      ∧ i1.fresh ops := by
  induction calls generalizing i with
  | nil => exact ⟨i, rfl, rfl, rfl, hfresh⟩
  | cons call rest ih =>
    obtain ⟨i1, h1, hv1, hp1, hf1⟩ := after_call_inv ops hsqrt i hfresh call
    obtain ⟨i2, h2, hv2, hp2, hf2⟩ := ih i1 hf1
    refine ⟨i2, ?_, hv2.trans hv1, ?_, hf2⟩
    · simp only [collider.after_calls, h1, h2]
    · rw [hp2, hp1, List.foldl_cons]

/-- C21: after the construction from any vertex list and any sequence of calls
(pose changes and queries, in any order), the collider is initialized, holds
the same local vertices and the pose that the last `set_position` and the last
`set_rotation` gave; `get_shape` returns one point for each local vertex, in
their order, the vertex rotated and then moved by that pose; and when `dirty`
is false, `transform` run eagerly on the state returns the very same state,
cached world vertices, axes and bounding box included.  No call raises. -/
theorem lazy_cache_eq_eager (ops : FloatOps T)
    (hsqrt : ∀ x : T, 1 / 10000000 ≤ x → ops.sqrt x ≠ 0)
    (vertices : List (vec T)) (calls : List (method_call T)) :
    ∃ i, (collider.of_vertices ops vertices).bind (fun c => c.after_calls ops calls)
        = .ok ⟨some i⟩
      ∧ i.vertices = vertices
      ∧ (i.position, i.rotation) = calls.foldl eager_pose (⟨0, 0⟩, 0)
      ∧ ((collider.mk (some i)).get_shape ops).map Prod.snd
          = .ok (eager_shape ops vertices (calls.foldl eager_pose (⟨0, 0⟩, 0)))
      ∧ (i.dirty = false → i.transform ops = .ok i) := by
  obtain ⟨i0, h0, hv0, hp0, hr0, -, hf0⟩ := of_vertices_ok ops hsqrt vertices
  obtain ⟨i, h1, hv1, hp1, hf1⟩ := after_calls_inv ops hsqrt calls i0 hf0
  rw [hp0, hr0] at hp1
  refine ⟨i, ?_, hv1.trans hv0, hp1, ?_, hf1⟩
  · simp only [h0, Except.bind, h1]
  · rw [get_shape_eq ops hsqrt i hf1, ← hp1]
    simp only [Impl.world_vertices, eager_shape, List.map_map, hv1, hv0, vec.add]
    rfl

end lazy_cache

section lazy_cache_instance

/-- C21 on the collider of the test: the vertices of `rect(5, 2)`, moved to
`(5, 3)`, read, rotated by `2`, tested for a point, moved again. -/
theorem lazy_cache_eq_eager_witness :
    ∃ i, (collider.of_vertices rat_ops [⟨-5 / 2, -1⟩, ⟨5 / 2, -1⟩, ⟨5 / 2, 1⟩, ⟨-5 / 2, 1⟩]).bind
          (fun c => c.after_calls rat_ops
            [.set_position 5 3, .get_shape, .set_rotation 2, .is_point_in 5 3,
             .set_position 1 1, .get_bounding_box])
        = .ok ⟨some i⟩
      ∧ i.vertices = [⟨-5 / 2, -1⟩, ⟨5 / 2, -1⟩, ⟨5 / 2, 1⟩, ⟨-5 / 2, 1⟩]
      ∧ (i.position, i.rotation)
          = ([method_call.set_position 5 3, .get_shape, .set_rotation 2, .is_point_in 5 3,
               .set_position 1 1, .get_bounding_box].foldl eager_pose (⟨0, 0⟩, 0))
      ∧ ((collider.mk (some i)).get_shape rat_ops).map Prod.snd
          = .ok (eager_shape rat_ops [⟨-5 / 2, -1⟩, ⟨5 / 2, -1⟩, ⟨5 / 2, 1⟩, ⟨-5 / 2, 1⟩]
              ([method_call.set_position 5 3, .get_shape, .set_rotation 2, .is_point_in 5 3,
                 .set_position 1 1, .get_bounding_box].foldl eager_pose (⟨0, 0⟩, 0)))
      ∧ (i.dirty = false → i.transform rat_ops = .ok i) :=
  lazy_cache_eq_eager rat_ops rat_sqrt_ne_zero _ _

end lazy_cache_instance

/-! ## Degenerate geometry does not raise -/

section never_raises

variable {T : Type} [LinearOrderedField T]

/-- The loop of `calculate_axes` can only raise the error of `normalize`, and
only on an edge whose squared length is at least `1e-7` and whose length, as
`sqrt` returns it, is zero. -/
theorem calculate_axes_loop_error (ops : FloatOps T) (vertices : List (vec T))
    (idx : List Nat) (axes : List (vec T)) (e : Error)
    (hidx : ∀ i ∈ idx, i < vertices.length)
    (h : calculate_axes_loop ops vertices idx axes = .error e) :
    e = .logic_error ∧ ∃ a ∈ vertices, ∃ b ∈ vertices,
      1 / 10000000 ≤ (b.sub a).dot (b.sub a)
        ∧ ops.sqrt ((b.sub a).dot (b.sub a)) = 0 := by
  induction idx generalizing axes with
  | nil => simp [calculate_axes_loop] at h
  | cons i rest ih =>
    have hi : i < vertices.length := hidx i (List.mem_cons_self _ _)
    have hpos : 0 < vertices.length := lt_of_le_of_lt (Nat.zero_le _) hi
    have hj : (i + 1) % vertices.length < vertices.length := Nat.mod_lt _ hpos
    have hrest : ∀ j ∈ rest, j < vertices.length :=
      fun j hj1 => hidx j (List.mem_cons_of_mem _ hj1)
    simp only [calculate_axes_loop, elem_at_of_lt vertices i hi,
      elem_at_of_lt vertices _ hj] at h
    split at h
    · exact ih axes hrest h
    · next hge =>
      split at h
      · next e1 hn =>
        simp only [vec.normalize] at hn
        split at hn
        · next hz =>
          simp only [Except.error.injEq] at hn h
          rw [perp_dot_self] at hz
          exact ⟨by rw [← h, ← hn], _, List.get_mem _ _ _, _, List.get_mem _ _ _,
            not_lt.mp hge, hz⟩
        · cases hn
      · exact ih _ hrest h

theorem calculate_axes_error (ops : FloatOps T) (vertices : List (vec T)) (e : Error)
    (h : calculate_axes ops vertices = .error e) :
    e = .logic_error ∧ ∃ a ∈ vertices, ∃ b ∈ vertices,
      1 / 10000000 ≤ (b.sub a).dot (b.sub a)
        ∧ ops.sqrt ((b.sub a).dot (b.sub a)) = 0 :=
  calculate_axes_loop_error ops vertices _ [] e (fun _ hi => List.mem_range.mp hi) h

/-- Every generator returns an initialized collider with its cache up to date,
whatever the dimensions. -/
theorem generated_shapes_ok (ops : FloatOps T)
    (hsqrt : ∀ x : T, 1 / 10000000 ≤ x → ops.sqrt x ≠ 0)
    (evc : Int) (hevc : 8 ≤ evc) (N : Int) (hN : 2 < N)
    (w h r : T) (hr0 : 0 ≤ r) (hr1 : r ≤ 1) (points : List (point T)) :
    ∀ c ∈ generated_shapes ops evc N w h r points,
      ∃ i, c = .ok ⟨some i⟩ ∧ i.fresh ops := by
  have hfrom : ∀ vs : List (vec T),
      ∃ i, collider.of_vertices ops vs = .ok ⟨some i⟩ ∧ i.fresh ops := by
    intro vs
    obtain ⟨i, h1, -, -, -, -, h2⟩ := of_vertices_ok ops hsqrt vs
    exact ⟨i, h1, h2⟩
  have hN2 : ¬ N ≤ 2 := by omega
  have hevc2 : ¬ evc ≤ 2 := by omega
  intro c hc
  simp only [generated_shapes, List.mem_cons, List.mem_singleton, List.not_mem_nil,
    or_false] at hc
  rcases hc with rfl | rfl | rfl | rfl | rfl | rfl | rfl | rfl
  · exact hfrom _
  · simp only [collider.poly, if_neg hN2]
    exact hfrom _
  · simp only [collider.ellipse, collider.poly, if_neg hevc2]
    exact hfrom _
  · simp only [collider.circle, collider.ellipse, collider.poly, if_neg hevc2]
    exact hfrom _
  · exact hfrom _
  · exact hfrom _
  · have hr : ¬ (r < 0 ∨ r > 1) := by
      intro h1
      rcases h1 with h1 | h1
      · exact absurd hr0 (not_le.mpr h1)
      · exact absurd hr1 (not_le.mpr h1)
    obtain ⟨i, h1, -, -, -, h2, -⟩ := rounded_rect_ok ops hsqrt evc hevc w h r hr
    exact ⟨i, h1, h2⟩
  · by_cases hlen : points.length ≤ 3
    · have hlen1 : (points.map (fun p => (⟨p.x, p.y⟩ : vec T))).length ≤ 3 := by
        simpa only [List.length_map] using hlen
      simp only [collider.from_points, if_pos hlen1]
      exact hfrom _
    · rw [from_points_eq ops points (by omega)]
      exact hfrom _

/-- C22: computing the separating axes does not raise, for every vertex list:
`calculate_axes` can only fail by the error of `normalize`, and only on an edge
of squared length at least `1e-7` whose length `sqrt` returns as zero, which a
square root never does; so `transform` returns at every pose, and every
generator, for any dimensions (zero and negative ones too), returns an
initialized collider on which the transform at every pose does not raise. -/
theorem degenerate_geometry_never_raises (ops : FloatOps T)
    (hsqrt : ∀ x : T, 1 / 10000000 ≤ x → ops.sqrt x ≠ 0)
    (counts : List Int) (N : Int) (hN : 2 < N) (r : T) (hr0 : 0 ≤ r) (hr1 : r ≤ 1) :
    (∀ vertices : List (vec T), ∃ axes, calculate_axes ops vertices = .ok axes)
      ∧ (∀ (ops1 : FloatOps T) (vertices : List (vec T)) (e : Error),
          calculate_axes ops1 vertices = .error e →
            e = .logic_error ∧ ∃ a ∈ vertices, ∃ b ∈ vertices,
              1 / 10000000 ≤ (b.sub a).dot (b.sub a)
                ∧ ops1.sqrt ((b.sub a).dot (b.sub a)) = 0)
      ∧ (∀ i : Impl T, ∃ i1, i.transform ops = .ok i1)
      ∧ (∀ (w h : T) (points : List (point T)),
          ∀ c ∈ generated_shapes ops (ellipse_vertex_count_after counts) N w h r points,
            (∃ i, c = .ok ⟨some i⟩)
              ∧ ∀ x y theta : T, ∃ s,
                  (posed c x y theta).bind (fun a => a.get_shape ops) = .ok s) := by
  refine ⟨calculate_axes_ok ops hsqrt,
    fun ops1 vertices e h => calculate_axes_error ops1 vertices e h,
    transform_ok ops hsqrt, ?_⟩
  intro w h points c hc
  obtain ⟨i, rfl, -⟩ := generated_shapes_ok ops hsqrt _ (ellipse_vertex_count_after_ge counts)
    N hN w h r hr0 hr1 points c hc
  refine ⟨⟨i, rfl⟩, ?_⟩
  intro x y theta
  obtain ⟨i1, h1⟩ := ensure_transformed_ok ops hsqrt
    { i with position := ⟨x, y⟩, rotation := theta, dirty := true }
  simp only [posed, Except.bind, collider.set_position, collider.set_rotation,
    collider.get_shape, h1]
  exact ⟨_, rfl⟩

end never_raises

section never_raises_instance

/-- C22 on the shapes of the tests, with width `0` and height `-1`: each
generator returns, and `get_shape` at the position `(3, 4)` with rotation `1`
returns. -/
theorem degenerate_geometry_never_raises_witness :
    ((2 : Int) < 10 ∧ (0 : ℚ) ≤ 1 / 5 ∧ (1 / 5 : ℚ) ≤ 1)
      ∧ ∀ c ∈ generated_shapes rat_ops (ellipse_vertex_count_after []) 10 0 (-1) (1 / 5)
            [⟨0, 0⟩, ⟨0, 0⟩, ⟨1, 1⟩, ⟨0, 0⟩, ⟨1, 1⟩],
          (∃ i, c = .ok ⟨some i⟩)
            ∧ ∀ x y theta : ℚ, ∃ s,
                (posed c x y theta).bind (fun a => a.get_shape rat_ops) = .ok s :=
  ⟨⟨by decide, by norm_num, by norm_num⟩,
   (degenerate_geometry_never_raises rat_ops rat_sqrt_ne_zero [] 10 (by decide) (1 / 5)
      (by norm_num) (by norm_num)).2.2.2 0 (-1) _⟩

end never_raises_instance

/-! ## The axis chosen among ties -/

section tie_break

variable {T : Type} [LinearOrderedField T]

/-- The loop of `is_colliding_with`, when an axis of the list has an overlap of
smaller magnitude than the start value, returns the first axis of the list
whose overlap has the smallest magnitude: the overlaps of the axes before it
are strictly larger in magnitude, those of the axes after it at least as
large. -/
theorem sat_loop_first (ops : FloatOps T) (this other : Impl T) (axes : List (vec T))
    (s : T) (a : vec T) (s1 : T) (a1 : vec T)
    (h : sat_loop ops this other axes s a = some (s1, a1))
    (hex : ∃ ax ∈ axes,
      |axis_overlap (this.project ops ax) (other.project ops ax)| < |s|) :
    ∃ pre ax post, axes = pre ++ ax :: post ∧ a1 = ax
      ∧ s1 = axis_overlap (this.project ops ax) (other.project ops ax)
      ∧ |s1| < |s|
      ∧ (∀ b ∈ pre, |s1| < |axis_overlap (this.project ops b) (other.project ops b)|)
      ∧ (∀ b ∈ post, |s1| ≤ |axis_overlap (this.project ops b) (other.project ops b)|) := by
  induction axes generalizing s a with
  | nil =>
    obtain ⟨ax, hax, -⟩ := hex
    cases hax
  | cons x rest ih =>
    simp only [sat_loop] at h
    split at h
    · cases h
    · split at h
      · next hlt =>
        by_cases hex1 : ∃ ax ∈ rest,
            |axis_overlap (this.project ops ax) (other.project ops ax)|
              < |axis_overlap (this.project ops x) (other.project ops x)|
        · obtain ⟨pre, ax, post, hdec, ha1, hs1, hlt1, hpre, hpost⟩ := ih _ _ h hex1
          refine ⟨x :: pre, ax, post, by rw [hdec]; rfl, ha1, hs1, lt_trans hlt1 hlt, ?_, hpost⟩
          intro b hb
          rcases List.mem_cons.mp hb with rfl | hb1
          · exact hlt1
          · exact hpre b hb1
        · rcases sat_loop_result ops this other rest _ _ s1 a1 h with
            ⟨hs, ha, hall⟩ | ⟨hmem, hs, hlt1, -⟩
          · refine ⟨[], x, rest, rfl, ha, hs, by rw [hs]; exact hlt, ?_, ?_⟩
            · intro b hb
              cases hb
            · intro b hb
              rw [hs]
              exact not_lt.mp (hall b hb)
          · exfalso
            apply hex1
            refine ⟨a1, hmem, ?_⟩
            rw [← hs]
            exact hlt1
      · next hge =>
        obtain ⟨ax0, hax0, hlt0⟩ := hex
        have hax1 : ax0 ∈ rest := by
          rcases List.mem_cons.mp hax0 with rfl | h1
          · exact absurd hlt0 hge
          · exact h1
        obtain ⟨pre, ax, post, hdec, ha1, hs1, hlt1, hpre, hpost⟩ := ih _ _ h ⟨ax0, hax1, hlt0⟩
        refine ⟨x :: pre, ax, post, by rw [hdec]; rfl, ha1, hs1, hlt1, ?_, hpost⟩
        intro b hb
        rcases List.mem_cons.mp hb with rfl | hb1
        · exact lt_of_lt_of_le hlt1 (not_lt.mp hge)
        · exact hpre b hb1

/-- C23: when `is_colliding_with` returns true on two distinct initialized
colliders, in states the methods produce, the axis chosen before orientation
is the first of the tested axes (the axes of this shape, then those of the
other) whose overlap has the smallest magnitude: every axis before it has a
strictly larger magnitude, every axis after it one at least as large; the
overlap written is the overlap on that axis and the axis written is that axis,
negated when it points away from this shape.  The start value `max` of
`smallest_overlap` is taken to have been replaced: one of the tested axes has an
overlap of smaller magnitude than `max`. -/
theorem tie_break_first_axis (ops : FloatOps T)
    (hsqrt : ∀ x : T, 1 / 10000000 ≤ x → ops.sqrt x ≠ 0)
    (ti oi : Impl T) (out : collision T) (r : colliding_result T)
    (hft : ti.fresh ops) (hfo : oi.fresh ops)
    (h : (collider.mk (some ti)).is_colliding_with ops (.distinct ⟨some oi⟩) out = .ok r)
    (hv : r.value = true)
    (hbelow : ∃ ax ∈ axes_of ops (ti.world_vertices ops) ++ axes_of ops (oi.world_vertices ops),
      |overlap_on ops (ti.world_vertices ops) (oi.world_vertices ops) ax| < |ops.max|) :
    ∃ pre ax post,
      axes_of ops (ti.world_vertices ops) ++ axes_of ops (oi.world_vertices ops)
          = pre ++ ax :: post
        ∧ (∀ b ∈ pre, |overlap_on ops (ti.world_vertices ops) (oi.world_vertices ops) ax|
            < |overlap_on ops (ti.world_vertices ops) (oi.world_vertices ops) b|)
        ∧ (∀ b ∈ post, |overlap_on ops (ti.world_vertices ops) (oi.world_vertices ops) ax|
            ≤ |overlap_on ops (ti.world_vertices ops) (oi.world_vertices ops) b|)
        ∧ r.out.overlap = overlap_on ops (ti.world_vertices ops) (oi.world_vertices ops) ax
        ∧ vec.mk r.out.axis_x r.out.axis_y
            = if (ti.position.sub oi.position).dot ax < 0 then ax.neg else ax := by
  obtain ⟨ti1, oi1, smallest, axis0, hti, hoi, -, hsat, -, -, hover, hax⟩ :=
    is_colliding_with_true ops ti oi out r h hv
  obtain ⟨htv, hta⟩ := ensure_transformed_cache ops ti ti1 hft hti
  obtain ⟨hov, hoa⟩ := ensure_transformed_cache ops oi oi1 hfo hoi
  obtain ⟨-, hp1, -⟩ := ensure_transformed_fields ops ti ti1 hti
  obtain ⟨-, hp2, -⟩ := ensure_transformed_fields ops oi oi1 hoi
  rw [calculate_axes_eq ops hsqrt] at hta hoa
  simp only [Except.ok.injEq] at hta hoa
  rw [htv] at hta
  rw [hov] at hoa
  have hf : ∀ ax, axis_overlap (ti1.project ops ax) (oi1.project ops ax)
      = overlap_on ops (ti.world_vertices ops) (oi.world_vertices ops) ax :=
    fun ax => by simp only [overlap_on, Impl.project, htv, hov]
  rw [← hta, ← hoa] at hsat
  obtain ⟨pre, ax, post, hdec, ha1, hs1, -, hpre, hpost⟩ :=
    sat_loop_first ops ti1 oi1 _ _ _ smallest axis0 hsat
      (by simpa only [hf] using hbelow)
  simp only [hf] at hs1 hpre hpost
  subst ha1
  refine ⟨pre, axis0, post, hdec, ?_, ?_, ?_, ?_⟩
  · intro b hb
    rw [← hs1]
    exact hpre b hb
  · intro b hb
    rw [← hs1]
    exact hpost b hb
  · rw [hover, hs1]
  · rw [hax, hp1, hp2]

end tie_break

section tie_break_instances

/-- C23 on `rect(2, 2)` at the origin against `rect(2, 2)` at
`(1, 0)`: the overlaps on the eight axes are `-2, -1, -2, 1, -2, -1, -2, 1`, and
the axis chosen is the second one, `(-1, 0)`, not the fourth, `(1, 0)`, whose
overlap has the same magnitude. -/
theorem tie_break_first_axis_witness :
    (collider.mk (some (square_at (0 : ℚ)))).is_colliding_with rat_ops
        (.distinct ⟨some (square_at 1)⟩) ⟨0, 0, 0⟩
        = .ok ⟨⟨some (square_at 0)⟩, some ⟨some (square_at 1)⟩, true, ⟨-1, 0, -1⟩⟩
      ∧ ∃ pre ax post,
        axes_of rat_ops ((square_at (0 : ℚ)).world_vertices rat_ops)
            ++ axes_of rat_ops ((square_at (1 : ℚ)).world_vertices rat_ops)
          = pre ++ ax :: post
        ∧ (∀ b ∈ pre,
            |overlap_on rat_ops ((square_at (0 : ℚ)).world_vertices rat_ops)
                ((square_at (1 : ℚ)).world_vertices rat_ops) ax|
              < |overlap_on rat_ops ((square_at (0 : ℚ)).world_vertices rat_ops)
                ((square_at (1 : ℚ)).world_vertices rat_ops) b|)
        ∧ (∀ b ∈ post,
            |overlap_on rat_ops ((square_at (0 : ℚ)).world_vertices rat_ops)
                ((square_at (1 : ℚ)).world_vertices rat_ops) ax|
              ≤ |overlap_on rat_ops ((square_at (0 : ℚ)).world_vertices rat_ops)
                ((square_at (1 : ℚ)).world_vertices rat_ops) b|)
        ∧ (-1 : ℚ) = overlap_on rat_ops ((square_at (0 : ℚ)).world_vertices rat_ops)
              ((square_at (1 : ℚ)).world_vertices rat_ops) ax
        ∧ (⟨-1, 0⟩ : vec ℚ)
            = if ((square_at (0 : ℚ)).position.sub (square_at (1 : ℚ)).position).dot ax < 0
              then ax.neg else ax :=
  ⟨by decide!,
   tie_break_first_axis rat_ops rat_sqrt_ne_zero (square_at 0) (square_at 1) ⟨0, 0, 0⟩
     ⟨⟨some (square_at 0)⟩, some ⟨some (square_at 1)⟩, true, ⟨-1, 0, -1⟩⟩
     (fun _ => by decide!) (fun _ => by decide!) (by decide!) rfl
     ⟨⟨-1, 0⟩, by decide!, by decide!⟩⟩

end tie_break_instances

/-! ## Points of the hull: collision and containment -/

section hull_points

variable {T : Type} [LinearOrderedField T]

theorem weighted_sum_le (g : vec T → T) (M : T) (weights : List T) (vs : List (vec T))
    (hlen : weights.length = vs.length) (hw : ∀ w ∈ weights, 0 ≤ w)
    (hg : ∀ v ∈ vs, g v ≤ M) :
    (List.zipWith (fun w v => w * g v) weights vs).sum ≤ weights.sum * M := by
  induction weights generalizing vs with
  | nil => simp
  | cons w rest ih =>
    cases vs with
    | nil => simp at hlen
    | cons v vs1 =>
      simp only [List.zipWith_cons_cons, List.sum_cons, add_mul]
      have h1 : w * g v ≤ w * M :=
        mul_le_mul_of_nonneg_left (hg v (List.mem_cons_self _ _)) (hw w (List.mem_cons_self _ _))
      have h2 := ih vs1 (by simpa using hlen) (fun w1 h => hw w1 (List.mem_cons_of_mem _ h))
        (fun v1 h => hg v1 (List.mem_cons_of_mem _ h))
      exact add_le_add h1 h2

theorem le_weighted_sum (g : vec T → T) (m : T) (weights : List T) (vs : List (vec T))
    (hlen : weights.length = vs.length) (hw : ∀ w ∈ weights, 0 ≤ w)
    (hg : ∀ v ∈ vs, m ≤ g v) :
    weights.sum * m ≤ (List.zipWith (fun w v => w * g v) weights vs).sum := by
  induction weights generalizing vs with
  | nil => simp
  | cons w rest ih =>
    cases vs with
    | nil => simp at hlen
    | cons v vs1 =>
      simp only [List.zipWith_cons_cons, List.sum_cons, add_mul]
      have h1 : w * m ≤ w * g v :=
        mul_le_mul_of_nonneg_left (hg v (List.mem_cons_self _ _)) (hw w (List.mem_cons_self _ _))
      have h2 := ih vs1 (by simpa using hlen) (fun w1 h => hw w1 (List.mem_cons_of_mem _ h))
        (fun v1 h => hg v1 (List.mem_cons_of_mem _ h))
      exact add_le_add h1 h2

theorem weighted_sum_dot (axis : vec T) (weights : List T) (vs : List (vec T)) :
    axis.x * (List.zipWith (fun w (v : vec T) => w * v.x) weights vs).sum
        + axis.y * (List.zipWith (fun w (v : vec T) => w * v.y) weights vs).sum
      = (List.zipWith (fun w v => w * axis.dot v) weights vs).sum := by
  induction weights generalizing vs with
  | nil => simp
  | cons w rest ih =>
    cases vs with
    | nil => simp
    | cons v vs1 =>
      simp only [List.zipWith_cons_cons, List.sum_cons]
      rw [← ih vs1]
      simp only [vec.dot]
      ring

/-- The projection of a convex combination of the vertices lies inside the
projection of the shape, whatever the start values of the loop of `project`
are. -/
theorem in_hull_project (axis : vec T) (vs : List (vec T)) (p : vec T) (mn mx : T)
    (hp : in_hull vs p) :
    (project_loop axis vs mn mx).min ≤ axis.dot p
      ∧ axis.dot p ≤ (project_loop axis vs mn mx).max := by
  obtain ⟨weights, hlen, hw, hsum, hx, hy⟩ := hp
  have hdot : axis.dot p = (List.zipWith (fun w v => w * axis.dot v) weights vs).sum := by
    rw [← weighted_sum_dot, ← hx, ← hy]
    rfl
  constructor
  · have h := le_weighted_sum (fun v => axis.dot v) (project_loop axis vs mn mx).min weights vs
      hlen hw (fun v hv => project_loop_min_le_dot axis vs mn mx v hv)
    rw [hsum, one_mul] at h
    rw [hdot]
    exact h
  · have h := weighted_sum_le (fun v => axis.dot v) (project_loop axis vs mn mx).max weights vs
      hlen hw (fun v hv => project_loop_dot_le_max axis vs mn mx v hv)
    rw [hsum, one_mul] at h
    rw [hdot]
    exact h

theorem zipWith_zero_sum (g : vec T → T) (n : Nat) (vs : List (vec T)) :
    (List.zipWith (fun w v => w * g v) (List.replicate n (0 : T)) vs).sum = 0 := by
  induction n generalizing vs with
  | zero => simp
  | succ n ih =>
    cases vs with
    | nil => simp
    | cons v vs1 =>
      simp only [List.replicate_succ, List.zipWith_cons_cons, List.sum_cons, zero_mul, zero_add]
      exact ih vs1

/-- A point of the list is a convex combination of the list: the weight one on
itself. -/
theorem in_hull_of_mem (vs : List (vec T)) (p : vec T) (hp : p ∈ vs) : in_hull vs p := by
  induction vs with
  | nil => cases hp
  | cons v rest ih =>
    rcases List.mem_cons.mp hp with rfl | hmem
    · refine ⟨1 :: List.replicate rest.length 0, by simp, ?_, by simp, ?_, ?_⟩
      · intro w hw
        rcases List.mem_cons.mp hw with rfl | hw1
        · exact zero_le_one
        · rw [List.eq_of_mem_replicate hw1]
      · simp only [List.zipWith_cons_cons, List.sum_cons, one_mul]
        rw [zipWith_zero_sum (fun v => v.x), add_zero]
      · simp only [List.zipWith_cons_cons, List.sum_cons, one_mul]
        rw [zipWith_zero_sum (fun v => v.y), add_zero]
    · obtain ⟨weights, hlen, hw, hsum, hx, hy⟩ := ih hmem
      refine ⟨0 :: weights, by simp [hlen], ?_, by simp [hsum], ?_, ?_⟩
      · intro w hw1
        rcases List.mem_cons.mp hw1 with rfl | hw2
        · exact le_refl _
        · exact hw w hw2
      · simp only [List.zipWith_cons_cons, List.sum_cons, zero_mul, zero_add]
        exact hx
      · simp only [List.zipWith_cons_cons, List.sum_cons, zero_mul, zero_add]
        exact hy

/-- C24, amended: in exact arithmetic, two distinct initialized colliders, in
states the methods produce, whose world vertices have a common convex
combination `p` and of which at least one has a separating axis:
`is_colliding_with` returns true (and does not raise). -/
theorem shared_point_collides (ops : FloatOps T)
    (hsqrt : ∀ x : T, 1 / 10000000 ≤ x → ops.sqrt x ≠ 0)
    (ti oi : Impl T) (out : collision T) (hft : ti.fresh ops) (hfo : oi.fresh ops)
    (p : vec T) (hpt : in_hull (ti.world_vertices ops) p)
    (hpo : in_hull (oi.world_vertices ops) p)
    (hax : axes_of ops (ti.world_vertices ops) ++ axes_of ops (oi.world_vertices ops) ≠ []) :
    ∃ r, (collider.mk (some ti)).is_colliding_with ops (.distinct ⟨some oi⟩) out = .ok r
      ∧ r.value = true := by
  obtain ⟨r, hr, hrv⟩ := is_colliding_with_value ops hsqrt ti oi out hft hfo
  refine ⟨r, hr, hrv.mpr ⟨hax, ?_⟩⟩
  intro ax _ hsep
  obtain ⟨h1, h2⟩ := in_hull_project ax _ p ops.max ops.lowest hpt
  obtain ⟨h3, h4⟩ := in_hull_project ax _ p ops.max ops.lowest hpo
  rcases hsep with hs | hs
  · exact absurd (le_trans h3 h2) (not_le.mpr hs)
  · exact absurd (le_trans h1 h4) (not_le.mpr hs)

theorem is_point_in_loop_true (ops : FloatOps T) (impl : Impl T) (point : vec T)
    (axes : List (vec T))
    (h : ∀ axis ∈ axes, (impl.project ops axis).min ≤ axis.dot point
      ∧ axis.dot point ≤ (impl.project ops axis).max) :
    is_point_in_loop ops impl point axes = true := by
  induction axes with
  | nil => rfl
  | cons axis rest ih =>
    obtain ⟨h1, h2⟩ := h axis (List.mem_cons_self _ _)
    have hno : ¬ ((impl.project ops axis).max < axis.dot point
        ∨ axis.dot point < (impl.project ops axis).min) := by
      rintro (hc | hc)
      · exact absurd h2 (not_le.mpr hc)
      · exact absurd h1 (not_le.mpr hc)
    simp only [is_point_in_loop, if_neg hno]
    exact ih (fun a ha => h a (List.mem_cons_of_mem _ ha))

theorem is_point_in_of_in_hull (ops : FloatOps T)
    (hsqrt : ∀ x : T, 1 / 10000000 ≤ x → ops.sqrt x ≠ 0)
    (i : Impl T) (hf : i.fresh ops) (p : vec T) (hp : in_hull (i.world_vertices ops) p) :
    ((collider.mk (some i)).is_point_in ops p.x p.y).map Prod.snd = .ok true := by
  obtain ⟨i1, hi1⟩ := ensure_transformed_ok ops hsqrt i
  obtain ⟨htv, -⟩ := ensure_transformed_cache ops i i1 hf hi1
  simp only [collider.is_point_in, hi1, Except.map, Except.ok.injEq]
  apply is_point_in_loop_true
  intro axis _
  simp only [Impl.project, htv]
  exact in_hull_project axis _ p ops.max ops.lowest hp

/-- C25, amended: in exact arithmetic, for every initialized collider, in a
state the methods produce, at every pose, `is_point_in` returns true on every
convex combination of the world vertices, and so on every vertex that
`get_shape` returns; no call raises. -/
theorem point_in_hull_is_in (ops : FloatOps T)
    (hsqrt : ∀ x : T, 1 / 10000000 ≤ x → ops.sqrt x ≠ 0)
    (i : Impl T) (hf : i.fresh ops) :
    (∀ p : vec T, in_hull (i.world_vertices ops) p →
        ((collider.mk (some i)).is_point_in ops p.x p.y).map Prod.snd = .ok true)
      ∧ ∃ shape, ((collider.mk (some i)).get_shape ops).map Prod.snd = .ok shape
        ∧ ∀ q ∈ shape,
            ((collider.mk (some i)).is_point_in ops q.x q.y).map Prod.snd = .ok true := by
  refine ⟨fun p hp => is_point_in_of_in_hull ops hsqrt i hf p hp,
    _, get_shape_eq ops hsqrt i hf, ?_⟩
  intro q hq
  obtain ⟨v, hv, rfl⟩ := List.mem_map.mp hq
  exact is_point_in_of_in_hull ops hsqrt i hf v (in_hull_of_mem _ v hv)

end hull_points

section hull_points_instances

theorem square_center_in_hull :
    in_hull ((square_at (1 : ℚ)).world_vertices rat_ops) ⟨1, 0⟩ := by
  refine ⟨[1 / 2, 0, 1 / 2, 0], by decide, ?_, by norm_num, ?_, ?_⟩
  · intro w hw
    simp only [List.mem_cons, List.mem_singleton, List.not_mem_nil, or_false] at hw
    rcases hw with rfl | rfl | rfl | rfl <;> norm_num
  · norm_num [Impl.world_vertices, square_at, rat_ops, rat_cos, rat_sin, vec.rotate, vec.add]
  · norm_num [Impl.world_vertices, square_at, rat_ops, rat_cos, rat_sin, vec.rotate, vec.add]

/-- C24, amended, on `rect(2, 2)` at the origin against `rect(2, 2)` at `(2, 0)`, which
touch along the side `x = 1` and share the world vertex `(1, 1)`. -/
theorem shared_point_collides_witness :
    (in_hull ((square_at (0 : ℚ)).world_vertices rat_ops) ⟨1, 1⟩
        ∧ in_hull ((square_at (2 : ℚ)).world_vertices rat_ops) ⟨1, 1⟩)
      ∧ ∃ r, (collider.mk (some (square_at (0 : ℚ)))).is_colliding_with rat_ops
            (.distinct ⟨some (square_at 2)⟩) ⟨0, 0, 0⟩ = .ok r
          ∧ r.value = true :=
  ⟨⟨in_hull_of_mem _ _ (by decide!), in_hull_of_mem _ _ (by decide!)⟩,
   shared_point_collides rat_ops rat_sqrt_ne_zero (square_at 0) (square_at 2) ⟨0, 0, 0⟩
     (fun _ => by decide!) (fun _ => by decide!) ⟨1, 1⟩
     (in_hull_of_mem _ _ (by decide!)) (in_hull_of_mem _ _ (by decide!)) (by decide!)⟩

/-- C25, amended, on `rect(2, 2)` at `(1, 0)`: its centre `(1, 0)`, the middle of two
opposite vertices, is inside, and so is each of its vertices. -/
theorem point_in_hull_is_in_witness :
    ((collider.mk (some (square_at (1 : ℚ)))).is_point_in rat_ops 1 0).map Prod.snd = .ok true
      ∧ ∃ shape, ((collider.mk (some (square_at (1 : ℚ)))).get_shape rat_ops).map Prod.snd
            = .ok shape
          ∧ ∀ q ∈ shape,
              ((collider.mk (some (square_at (1 : ℚ)))).is_point_in rat_ops q.x q.y).map
                Prod.snd = .ok true :=
  ⟨(point_in_hull_is_in rat_ops rat_sqrt_ne_zero (square_at 1) (fun _ => by decide!)).1
      ⟨1, 0⟩ square_center_in_hull,
   (point_in_hull_is_in rat_ops rat_sqrt_ne_zero (square_at 1) (fun _ => by decide!)).2⟩

end hull_points_instances

/-! ## Symmetry of `is_colliding_with` -/

section symmetry

variable {T : Type} [LinearOrderedField T]

/-- The overlap on an axis has the same magnitude whichever of the two shapes
is taken first. -/
theorem axis_overlap_abs_comm (p q : proj T) : |axis_overlap p q| = |axis_overlap q p| := by
  simp only [axis_overlap]
  rcases lt_trichotomy (p.max - q.min) (q.max - p.min) with h | h | h
  · rw [if_pos h, if_neg (not_lt.mpr (le_of_lt h)), abs_neg]
  · rw [if_neg (not_lt.mpr (le_of_eq h.symm)), if_neg (not_lt.mpr (le_of_eq h)), h]
  · rw [if_neg (not_lt.mpr (le_of_lt h)), if_pos h, abs_neg]

theorem separated_on_comm (ops : FloatOps T) (vs ws : List (vec T)) (axis : vec T) :
    separated_on ops vs ws axis ↔ separated_on ops ws vs axis := by
  simp only [separated_on]
  exact or_comm

/-- What `ensure_transformed` returns is left as it is by `ensure_transformed`. -/
theorem ensure_transformed_idem (ops : FloatOps T) (i i1 : Impl T)
    (h : i.ensure_transformed ops = .ok i1) : i1.ensure_transformed ops = .ok i1 := by
  have hd : i1.dirty = false := by
    unfold Impl.ensure_transformed at h
    split at h
    · next hd =>
      simp only [Except.ok.injEq] at h
      subst h
      simpa using hd
    · split at h
      · cases h
      · simp only [Except.ok.injEq] at h
        subst h
        rfl
  simp only [Impl.ensure_transformed, hd, Bool.not_false, if_true]

/-- The magnitude of the overlap that the loop of `is_colliding_with` returns is
the same for two runs over lists of the same axes with overlaps of the same
magnitudes, from the same start value. -/
theorem sat_loop_abs_eq (ops : FloatOps T) (t o t1 o1 : Impl T) (axes axes1 : List (vec T))
    (s : T) (a : vec T) (s1 s2 : T) (a1 a2 : vec T)
    (hmem : ∀ ax, ax ∈ axes ↔ ax ∈ axes1)
    (habs : ∀ ax, |axis_overlap (t.project ops ax) (o.project ops ax)|
      = |axis_overlap (t1.project ops ax) (o1.project ops ax)|)
    (h1 : sat_loop ops t o axes s a = some (s1, a1))
    (h2 : sat_loop ops t1 o1 axes1 s a = some (s2, a2)) : |s1| = |s2| := by
  rcases sat_loop_result ops t o axes s a s1 a1 h1 with
    ⟨hs1, -, hall1⟩ | ⟨hm1, hs1, hlt1, hall1⟩
  · rcases sat_loop_result ops t1 o1 axes1 s a s2 a2 h2 with
      ⟨hs2, -, -⟩ | ⟨hm2, hs2, hlt2, -⟩
    · rw [hs1, hs2]
    · exfalso
      apply hall1 a2 ((hmem a2).mpr hm2)
      rw [habs, ← hs2]
      exact hlt2
  · rcases sat_loop_result ops t1 o1 axes1 s a s2 a2 h2 with
      ⟨hs2, -, hall2⟩ | ⟨hm2, hs2, hlt2, hall2⟩
    · exfalso
      apply hall2 a1 ((hmem a1).mp hm1)
      rw [← habs, ← hs1]
      exact hlt1
    · apply le_antisymm
      · have := hall1 a2 ((hmem a2).mpr hm2)
        rw [habs, ← hs2] at this
        exact this
      · have := hall2 a1 ((hmem a1).mp hm1)
        rw [← habs, ← hs1] at this
        exact this

/-- C26: for two distinct initialized colliders `a` and `b`, in states the
methods produce, `a.is_colliding_with(b)` and `b.is_colliding_with(a)` return
the same boolean, the second call made from the same states or from the states
that the first call left, and when they return true the overlaps written have
the same absolute value; neither call raises. -/
theorem colliding_symmetric (ops : FloatOps T)
    (hsqrt : ∀ x : T, 1 / 10000000 ≤ x → ops.sqrt x ≠ 0)
    (a b : Impl T) (out1 out2 : collision T) (hfa : a.fresh ops) (hfb : b.fresh ops) :
    ∃ r1 r2 a1 b1,
      (collider.mk (some a)).is_colliding_with ops (.distinct ⟨some b⟩) out1 = .ok r1
      ∧ r1.this = ⟨some a1⟩ ∧ r1.other = some ⟨some b1⟩
      ∧ (collider.mk (some b)).is_colliding_with ops (.distinct ⟨some a⟩) out2 = .ok r2
      ∧ (collider.mk (some b1)).is_colliding_with ops (.distinct ⟨some a1⟩) out2 = .ok r2
      ∧ r1.value = r2.value
      ∧ (r1.value = true → |r1.out.overlap| = |r2.out.overlap|) := by
  obtain ⟨r1, hr1, hrv1⟩ := is_colliding_with_value ops hsqrt a b out1 hfa hfb
  obtain ⟨r2, hr2, hrv2⟩ := is_colliding_with_value ops hsqrt b a out2 hfb hfa
  obtain ⟨r1', a1, b1, hr1', ha1, hb1, hthis, hother⟩ :=
    is_colliding_with_states ops hsqrt a b out1
  rw [hr1] at hr1'
  simp only [Except.ok.injEq] at hr1'
  subst hr1'
  have hseq : (collider.mk (some b1)).is_colliding_with ops (.distinct ⟨some a1⟩) out2
      = (collider.mk (some b)).is_colliding_with ops (.distinct ⟨some a⟩) out2 := by
    simp only [collider.is_colliding_with, is_colliding_with_distinct, ha1, hb1,
      ensure_transformed_idem ops a a1 ha1, ensure_transformed_idem ops b b1 hb1]
  have hval : r1.value = r2.value := by
    rw [Bool.eq_iff_iff, hrv1, hrv2]
    exact sat_condition_congr (fun ax => by simp only [List.mem_append]; exact or_comm)
      (fun ax => separated_on_comm ops _ _ ax)
  refine ⟨r1, r2, a1, b1, hr1, hthis, hother, hr2, by rw [hseq, hr2], hval, ?_⟩
  intro hv1
  have hv2 : r2.value = true := by rw [← hval]; exact hv1
  obtain ⟨ta, tb, s1, x1, hta, htb, -, hsat1, -, -, hov1, -⟩ :=
    is_colliding_with_true ops a b out1 r1 hr1 hv1
  obtain ⟨ub, ua, s2, x2, hub, hua, -, hsat2, -, -, hov2, -⟩ :=
    is_colliding_with_true ops b a out2 r2 hr2 hv2
  rw [hta] at hua
  rw [htb] at hub
  simp only [Except.ok.injEq] at hua hub
  subst hua hub
  rw [hov1, hov2]
  exact sat_loop_abs_eq ops ta tb tb ta _ _ _ _ s1 s2 x1 x2
    (fun ax => by simp only [List.mem_append]; exact or_comm)
    (fun ax => axis_overlap_abs_comm _ _) hsat1 hsat2

end symmetry

section symmetry_instance

/-- C26 on `rect(2, 2)` at the origin and `rect(2, 2)` at `(1, 0)`: both calls
return true, the first writes the overlap `-1` and the second `1`. -/
theorem colliding_symmetric_witness :
    ((collider.mk (some (square_at (0 : ℚ)))).is_colliding_with rat_ops
          (.distinct ⟨some (square_at 1)⟩) ⟨0, 0, 0⟩).map (fun r => (r.value, r.out.overlap))
        = .ok (true, -1)
      ∧ ((collider.mk (some (square_at (1 : ℚ)))).is_colliding_with rat_ops
          (.distinct ⟨some (square_at 0)⟩) ⟨0, 0, 0⟩).map (fun r => (r.value, r.out.overlap))
        = .ok (true, 1)
      ∧ ∃ r1 r2 a1 b1,
        (collider.mk (some (square_at (0 : ℚ)))).is_colliding_with rat_ops
            (.distinct ⟨some (square_at 1)⟩) ⟨0, 0, 0⟩ = .ok r1
        ∧ r1.this = ⟨some a1⟩ ∧ r1.other = some ⟨some b1⟩
        ∧ (collider.mk (some (square_at (1 : ℚ)))).is_colliding_with rat_ops
            (.distinct ⟨some (square_at 0)⟩) ⟨0, 0, 0⟩ = .ok r2
        ∧ (collider.mk (some b1)).is_colliding_with rat_ops (.distinct ⟨some a1⟩) ⟨0, 0, 0⟩
            = .ok r2
        ∧ r1.value = r2.value
        ∧ (r1.value = true → |r1.out.overlap| = |r2.out.overlap|) :=
  ⟨by decide!, by decide!,
   colliding_symmetric rat_ops rat_sqrt_ne_zero (square_at 0) (square_at 1) ⟨0, 0, 0⟩ ⟨0, 0, 0⟩
     (fun _ => by decide!) (fun _ => by decide!)⟩

end symmetry_instance

/-! ## Moving both shapes by the same vector -/

section translation

variable {T : Type} [LinearOrderedField T]

end translation

section translation_instances

end translation_instances

/-! ## The claims in floating point arithmetic -/

section float_evaluations

/-- C7, as the claim states it, fails: in `float`, two colliders
`rect(2^70, 2^70)` at the default pose have the world vertices
`(±2^69, ±2^69)`; the squared length `2^140` of every edge overflows to
infinity, `normalize` divides by it and every axis is `(0, 0)`.
`is_colliding_with` returns true and writes the axis `(0, 0)`, of squared
length `0`, with the overlap `0`. -/
theorem axis_zero_on_overflow :
    (ieee.rect (1180591620717411303424 : fp 24 127) 1180591620717411303424).map
        (fun c => c.impl.map (fun i => (i.t_vertices, i.t_axes)))
      = .ok (some ([⟨.fin (-590295810358705651712), .fin (-590295810358705651712)⟩,
          ⟨.fin 590295810358705651712, .fin (-590295810358705651712)⟩,
          ⟨.fin 590295810358705651712, .fin 590295810358705651712⟩,
          ⟨.fin (-590295810358705651712), .fin 590295810358705651712⟩],
          [⟨.fin 0, .fin 0⟩, ⟨.fin 0, .fin 0⟩, ⟨.fin 0, .fin 0⟩, ⟨.fin 0, .fin 0⟩]))
    ∧ ((ieee.rect (1180591620717411303424 : fp 24 127) 1180591620717411303424).bind (fun a =>
        (ieee.rect (1180591620717411303424 : fp 24 127) 1180591620717411303424).bind (fun b =>
          ieee.is_colliding_with a b ⟨1, 1, 1⟩))).map (fun r => (r.value, r.out))
      = .ok (true, ⟨.fin 0, .fin 0, .fin 0⟩) := by
  decide!

/-- C14, as the claim states it, fails: in `float`, on the points `(0, 2^25)`,
`(1, 0)`, `(2, 1)`, `(3, 2^25)` the differences `0 - 2^25` and `1 - 2^25` of
`cross` round to the same value, `cross` is `0` and `(1, 0)` is popped in both
loops: `from_points` returns `(0, 2^25)`, `(2, 1)`, `(3, 2^25)`, and the box has
`bottom = 1`, above the input point `(1, 0)`. -/
theorem hull_box_misses_point :
    ((ieee.from_points ([⟨0, 33554432⟩, ⟨1, 0⟩, ⟨2, 1⟩, ⟨3, 33554432⟩]
        : List (point (fp 24 127)))).bind (fun c => ieee.get_shape c)).map Prod.snd
      = .ok [⟨.fin 0, .fin 33554432⟩, ⟨.fin 2, .fin 1⟩, ⟨.fin 3, .fin 33554432⟩]
    ∧ ((ieee.from_points ([⟨0, 33554432⟩, ⟨1, 0⟩, ⟨2, 1⟩, ⟨3, 33554432⟩]
        : List (point (fp 24 127)))).bind (fun c => ieee.get_bounding_box c)).map Prod.snd
      = .ok ⟨.fin 33554432, .fin 1, .fin 0, .fin 3⟩ := by
  decide!

/-- C24, as the claim states it, fails: in `double`, the collider of the single
point `(4, 3)` and the triangle `(2, 2)`, `(6, 4)`, `(-4, -4)`, which has three
axes, share the point `(4, 3)`, the middle of the first edge of the triangle;
on the normal of that edge the projection of `(4, 3)` rounds to a value above
those of `(2, 2)` and `(6, 4)`, and `is_colliding_with` returns false in both
orders. -/
theorem shared_point_separated_by_rounding :
    (((ieee.from_points ([⟨4, 3⟩] : List (point (fp 53 1023)))).bind
        (fun c => ieee.get_shape c)).map Prod.snd = .ok [⟨.fin 4, .fin 3⟩]
      ∧ ((ieee.from_points ([⟨2, 2⟩, ⟨6, 4⟩, ⟨-4, -4⟩] : List (point (fp 53 1023)))).bind
        (fun c => ieee.get_shape c)).map Prod.snd
          = .ok [⟨.fin 2, .fin 2⟩, ⟨.fin 6, .fin 4⟩, ⟨.fin (-4), .fin (-4)⟩]
      ∧ (ieee.from_points ([⟨2, 2⟩, ⟨6, 4⟩, ⟨-4, -4⟩] : List (point (fp 53 1023)))).map
        (fun c => c.impl.map (fun i => i.t_axes.length)) = .ok (some 3))
    ∧ (in_hull ([⟨4, 3⟩] : List (vec ℚ)) ⟨4, 3⟩
      ∧ in_hull ([⟨2, 2⟩, ⟨6, 4⟩, ⟨-4, -4⟩] : List (vec ℚ)) ⟨4, 3⟩)
    ∧ ((ieee.from_points ([⟨4, 3⟩] : List (point (fp 53 1023)))).bind (fun p =>
        (ieee.from_points ([⟨2, 2⟩, ⟨6, 4⟩, ⟨-4, -4⟩] : List (point (fp 53 1023)))).bind
          (fun t => ieee.is_colliding_with p t ⟨0, 0, 0⟩))).map (fun r => r.value)
        = .ok false
    ∧ ((ieee.from_points ([⟨4, 3⟩] : List (point (fp 53 1023)))).bind (fun p =>
        (ieee.from_points ([⟨2, 2⟩, ⟨6, 4⟩, ⟨-4, -4⟩] : List (point (fp 53 1023)))).bind
          (fun t => ieee.is_colliding_with t p ⟨0, 0, 0⟩))).map (fun r => r.value)
        = .ok false := by
  refine ⟨by decide!, ⟨?_, ?_⟩, by decide!, by decide!⟩
  · exact ⟨[1], rfl, by simp, by simp, by simp, by simp⟩
  · refine ⟨[1 / 2, 1 / 2, 0], rfl, ?_, by norm_num, by norm_num, by norm_num⟩
    intro w hw
    simp only [List.mem_cons, List.mem_singleton, List.not_mem_nil, or_false] at hw
    rcases hw with rfl | rfl | rfl <;> norm_num

/-- C25, as the claim states it, fails: in `double`, on the triangle `(2, 2)`,
`(6, 4)`, `(-4, -4)` at the default pose, the point `(4, 3)`, the middle of the
vertices `(2, 2)` and `(6, 4)`, is reported outside: on the normal of that edge
its projection rounds to a value above those of the two vertices. -/
theorem edge_midpoint_not_in :
    ((ieee.from_points ([⟨2, 2⟩, ⟨6, 4⟩, ⟨-4, -4⟩] : List (point (fp 53 1023)))).bind
        (fun c => ieee.get_shape c)).map Prod.snd
      = .ok [⟨.fin 2, .fin 2⟩, ⟨.fin 6, .fin 4⟩, ⟨.fin (-4), .fin (-4)⟩]
    ∧ in_hull ([⟨2, 2⟩, ⟨6, 4⟩, ⟨-4, -4⟩] : List (vec ℚ)) ⟨4, 3⟩
    ∧ ((ieee.from_points ([⟨2, 2⟩, ⟨6, 4⟩, ⟨-4, -4⟩] : List (point (fp 53 1023)))).bind
        (fun c => ieee.is_point_in c 4 3)).map Prod.snd = .ok false := by
  refine ⟨by decide!, ?_, by decide!⟩
  refine ⟨[1 / 2, 1 / 2, 0], rfl, ?_, by norm_num, by norm_num, by norm_num⟩
  intro w hw
  simp only [List.mem_cons, List.mem_singleton, List.not_mem_nil, or_false] at hw
  rcases hw with rfl | rfl | rfl <;> norm_num

end float_evaluations

end tiny_colls
